import Mathlib

/-!
# Verification of the puzlib graph-search engine

Shallow embedding of `src/search/mod.rs`, `src/search/basic.rs`,
`src/search/dijkstra.rs` and `src/search/a_star.rs`.

Modelling choices:
* `HashMap<K, V>` is modelled as an association list `List (K × V)` with
  first-match lookup and an insert that erases the old binding; key sets are
  kept duplicate-free.
* `HashSet<K>` is modelled as a `List K` without duplicates.
* `BinaryHeap<MinHeapState<S>>` is modelled as a `List (MinHeapState α)`;
  `pop` extracts the greatest element with respect to the `Ord` implementation
  of `MinHeapState` (reversed cost comparison, then the node's natural order),
  which is what Rust's `BinaryHeap::pop` returns.  That order is total and
  distinguishes any two distinct entries, so the popped element is uniquely
  determined and the model captures the exact pop sequence of the program.
* `usize` costs are modelled as `Nat`; the literal `usize::MAX` sentinel used
  by the code is kept as the constant `usizeMAX`.
* The `while` loops are modelled with an explicit fuel parameter; a result of
  `none` means the fuel ran out, `some none` is the "not found" return and
  `some (some r)` a successful return.
-/

set_option maxHeartbeats 1000000

/-- `usize::MAX` on a 64-bit target, used by the code as the "infinite"
initial distance of a freshly discovered node. -/
def usizeMAX : Nat := 2 ^ 64 - 1

section AssocList

variable {α : Type} {β : Type} [DecidableEq α]

/-- First-match lookup in an association list (model of `HashMap::get`). -/
def lookupA : List (α × β) → α → Option β
  | [], _ => none
  | (k, v) :: rest, a => if k = a then some v else lookupA rest a

/-- Remove every binding for a key. -/
def eraseKey : List (α × β) → α → List (α × β)
  | [], _ => []
  | p :: rest, k => if p.1 = k then eraseKey rest k else p :: eraseKey rest k

/-- Model of `HashMap::insert`: replace any existing binding for the key. -/
def insertA (l : List (α × β)) (k : α) (v : β) : List (α × β) :=
  (k, v) :: eraseKey l k

/-- Model of `HashMap::contains_key`. -/
def containsA (l : List (α × β)) (a : α) : Bool :=
  (lookupA l a).isSome

/-- The keys of an association list. -/
def keysA (l : List (α × β)) : List α := l.map Prod.fst

theorem lookupA_eraseKey (l : List (α × β)) (k a : α) :
    lookupA (eraseKey l k) a = if k = a then none else lookupA l a := by
  induction l with
  | nil => rw [eraseKey]; by_cases h : k = a <;> simp [h, lookupA]
  | cons p rest ih =>
    rw [eraseKey]
    by_cases hp : p.1 = k
    · rw [if_pos hp, ih, lookupA]
      by_cases h : k = a
      · rw [if_pos h, if_pos h]
      · rw [if_neg h, if_neg h, if_neg (by rw [hp]; exact h)]
    · rw [if_neg hp, lookupA, lookupA]
      by_cases hpa : p.1 = a
      · rw [if_pos hpa, if_pos hpa, if_neg (by rw [← hpa]; exact fun he => hp he.symm)]
      · rw [if_neg hpa, if_neg hpa, ih]

theorem lookupA_insertA (l : List (α × β)) (k : α) (v : β) (a : α) :
    lookupA (insertA l k v) a = if k = a then some v else lookupA l a := by
  rw [insertA, lookupA, lookupA_eraseKey]
  by_cases h : k = a
  · rw [if_pos h, if_pos h]
  · rw [if_neg h, if_neg h, if_neg h]

theorem lookupA_mem_keys {l : List (α × β)} {a : α} {v : β}
    (h : lookupA l a = some v) : a ∈ keysA l := by
  induction l with
  | nil => simp [lookupA] at h
  | cons p rest ih =>
    rw [lookupA] at h
    by_cases hp : p.1 = a
    · rw [keysA]
      exact hp ▸ List.mem_map_of_mem Prod.fst (List.mem_cons_self p rest)
    · rw [if_neg hp] at h
      rw [keysA, List.map_cons]
      exact List.mem_cons_of_mem _ (ih h)

theorem mem_keys_lookupA {l : List (α × β)} {a : α}
    (h : a ∈ keysA l) : ∃ v, lookupA l a = some v := by
  induction l with
  | nil => simp [keysA] at h
  | cons p rest ih =>
    rw [lookupA]
    by_cases hp : p.1 = a
    · exact ⟨p.2, if_pos hp⟩
    · rw [if_neg hp]
      rw [keysA, List.map_cons, List.mem_cons] at h
      rcases h with h | h
      · exact absurd h.symm hp
      · exact ih h

theorem lookupA_eq_none_of_not_mem_keys {l : List (α × β)} {a : α}
    (h : a ∉ keysA l) : lookupA l a = none := by
  cases hl : lookupA l a with
  | none => rfl
  | some v => exact absurd (lookupA_mem_keys hl) h

theorem keysA_eraseKey_subset (l : List (α × β)) (k : α) :
    keysA (eraseKey l k) ⊆ keysA l := by
  induction l with
  | nil => intro a ha; exact ha
  | cons p rest ih =>
    rw [eraseKey]
    by_cases hp : p.1 = k
    · rw [if_pos hp]
      intro a ha
      exact List.mem_cons_of_mem _ (ih ha)
    · rw [if_neg hp]
      intro a ha
      rw [keysA, List.map_cons, List.mem_cons] at ha
      rcases ha with ha | ha
      · rw [keysA, List.map_cons]; exact ha ▸ List.mem_cons_self _ _
      · exact List.mem_cons_of_mem _ (ih ha)

theorem not_mem_keysA_eraseKey (l : List (α × β)) (k : α) :
    k ∉ keysA (eraseKey l k) := by
  induction l with
  | nil => simp [eraseKey, keysA]
  | cons p rest ih =>
    rw [eraseKey]
    by_cases hp : p.1 = k
    · rw [if_pos hp]; exact ih
    · rw [if_neg hp, keysA, List.map_cons]
      intro hmem
      rcases List.mem_cons.mp hmem with h | h
      · exact hp h.symm
      · exact ih h

theorem mem_keysA_insertA (l : List (α × β)) (k : α) (v : β) (a : α) :
    a ∈ keysA (insertA l k v) ↔ a = k ∨ a ∈ keysA l := by
  rw [insertA, keysA, List.map_cons, List.mem_cons]
  constructor
  · rintro (h | h)
    · exact Or.inl h
    · exact Or.inr (keysA_eraseKey_subset l k h)
  · rintro (h | h)
    · exact Or.inl h
    · by_cases hak : a = k
      · exact Or.inl hak
      · right
        rcases mem_keys_lookupA h with ⟨w, hw⟩
        have hw2 : lookupA (eraseKey l k) a = some w := by
          rw [lookupA_eraseKey, if_neg (fun he => hak he.symm)]
          exact hw
        exact lookupA_mem_keys hw2

theorem eraseKey_sublist (l : List (α × β)) (k : α) :
    List.Sublist (eraseKey l k) l := by
  induction l with
  | nil => exact List.Sublist.refl _
  | cons p rest ih =>
    rw [eraseKey]
    by_cases hp : p.1 = k
    · rw [if_pos hp]; exact ih.cons p
    · rw [if_neg hp]; exact ih.cons₂ p

theorem keysA_nodup_insertA {l : List (α × β)} (k : α) (v : β)
    (h : (keysA l).Nodup) : (keysA (insertA l k v)).Nodup := by
  rw [insertA, keysA, List.map_cons, List.nodup_cons]
  exact ⟨not_mem_keysA_eraseKey l k, h.sublist ((eraseKey_sublist l k).map Prod.fst)⟩

theorem length_insertA_le (l : List (α × β)) (k : α) (v : β) :
    (insertA l k v).length ≤ l.length + 1 := by
  rw [insertA, List.length_cons]
  have : (eraseKey l k).length ≤ l.length := by
    induction l with
    | nil => exact le_refl _
    | cons p rest ih =>
      rw [eraseKey]
      by_cases hp : p.1 = k
      · rw [if_pos hp, List.length_cons]; exact ih.trans (Nat.le_succ _)
      · rw [if_neg hp, List.length_cons, List.length_cons]
        exact Nat.succ_le_succ ih
  exact Nat.succ_le_succ this

end AssocList

section Heap

/-- The `MinHeapState` struct shared by `dijkstra.rs` and `a_star.rs`
(both files define the identical struct). -/
structure MinHeapState (α : Type) where
  node : α
  cost : Nat
deriving DecidableEq, Repr

variable {α : Type} [LinearOrder α]

/-- `msLt a b` holds when `a.cmp(&b) == Less` for the `Ord` implementation of
`MinHeapState`: `other.cost.cmp(&self.cost).then_with(|| self.node.cmp(&other.node))`.
So `a` is below `b` when `a` has the larger cost, or equal cost and the
smaller node. -/
def msLt (a b : MinHeapState α) : Prop :=
  b.cost < a.cost ∨ (b.cost = a.cost ∧ a.node < b.node)

instance : DecidablePred (fun p : MinHeapState α × MinHeapState α => msLt p.1 p.2) :=
  fun _ => by unfold msLt; infer_instance

instance (a b : MinHeapState α) : Decidable (msLt a b) := by
  unfold msLt; infer_instance

theorem msLt_irrefl (a : MinHeapState α) : ¬ msLt a a := by
  unfold msLt
  rintro (h | ⟨_, h⟩)
  · exact lt_irrefl _ h
  · exact lt_irrefl _ h

theorem not_msLt_iff {a b : MinHeapState α} :
    ¬ msLt a b ↔ a.cost ≤ b.cost ∧ (b.cost = a.cost → b.node ≤ a.node) := by
  unfold msLt
  constructor
  · intro h
    push_neg at h
    exact h
  · rintro ⟨h1, h2⟩ (hc | ⟨he, hn⟩)
    · exact absurd h1 (not_le_of_lt hc)
    · exact absurd (h2 he) (not_le_of_lt hn)

theorem not_msLt_trans {a b c : MinHeapState α}
    (hab : ¬ msLt a b) (hbc : ¬ msLt b c) : ¬ msLt a c := by
  rw [not_msLt_iff] at hab hbc ⊢
  refine ⟨le_trans hab.1 hbc.1, fun hca => ?_⟩
  have h1 : b.cost = a.cost := le_antisymm (hca ▸ hbc.1) hab.1
  have h2 : c.cost = b.cost := le_antisymm (hca.le.trans (h1 ▸ hab.1)) hbc.1
  exact le_trans (hbc.2 h2) (hab.2 h1)

/-- One comparison step used to compute the heap maximum. -/
def bestOf (a b : MinHeapState α) : MinHeapState α :=
  if msLt a b then b else a

theorem bestOf_not_lt_left (a b : MinHeapState α) : ¬ msLt (bestOf a b) a := by
  unfold bestOf
  by_cases h : msLt a b
  · rw [if_pos h]
    intro hba
    rcases h with h | ⟨he, hn⟩ <;> rcases hba with h2 | ⟨he2, hn2⟩
    · exact lt_irrefl _ (h.trans h2)
    · exact lt_irrefl _ (he2 ▸ h)
    · exact lt_irrefl _ (he ▸ h2)
    · exact lt_irrefl _ (hn.trans hn2)
  · rw [if_neg h]
    exact msLt_irrefl a

theorem bestOf_not_lt_right (a b : MinHeapState α) : ¬ msLt (bestOf a b) b := by
  unfold bestOf
  by_cases h : msLt a b
  · rw [if_pos h]
    exact msLt_irrefl b
  · rw [if_neg h]
    exact h

theorem bestOf_eq_or (a b : MinHeapState α) : bestOf a b = a ∨ bestOf a b = b := by
  unfold bestOf
  by_cases h : msLt a b
  · exact Or.inr (if_pos h)
  · exact Or.inl (if_neg h)

/-- The maximum entry of a nonempty heap, computed as the source's
`BinaryHeap` would order it. -/
def heapBest (a : MinHeapState α) (l : List (MinHeapState α)) : MinHeapState α :=
  l.foldl bestOf a

theorem heapBest_mem (a : MinHeapState α) (l : List (MinHeapState α)) :
    heapBest a l = a ∨ heapBest a l ∈ l := by
  induction l generalizing a with
  | nil => exact Or.inl rfl
  | cons x xs ih =>
    unfold heapBest at ih ⊢
    rw [List.foldl_cons]
    rcases ih (bestOf a x) with h | h
    · rcases bestOf_eq_or a x with h2 | h2
      · exact Or.inl (h.trans h2)
      · refine Or.inr ?_
        rw [h, h2]
        exact List.mem_cons_self x xs
    · exact Or.inr (List.mem_cons_of_mem _ h)

theorem heapBest_not_lt (a : MinHeapState α) (l : List (MinHeapState α)) :
    ¬ msLt (heapBest a l) a ∧ ∀ x ∈ l, ¬ msLt (heapBest a l) x := by
  induction l generalizing a with
  | nil => exact ⟨msLt_irrefl a, by simp⟩
  | cons x xs ih =>
    unfold heapBest at ih ⊢
    rw [List.foldl_cons]
    rcases ih (bestOf a x) with ⟨h1, h2⟩
    constructor
    · exact not_msLt_trans h1 (bestOf_not_lt_left a x)
    · intro y hy
      rcases List.mem_cons.mp hy with hy | hy
      · rw [hy]
        exact not_msLt_trans h1 (bestOf_not_lt_right a x)
      · exact h2 y hy

/-- Remove the first occurrence of an element from a list. -/
def removeOne [DecidableEq β] : List β → β → List β
  | [], _ => []
  | x :: xs, y => if x = y then xs else x :: removeOne xs y

theorem removeOne_perm [DecidableEq β] {l : List β} {y : β} (h : y ∈ l) :
    l.Perm (y :: removeOne l y) := by
  induction l with
  | nil => cases h
  | cons x xs ih =>
    by_cases hxy : x = y
    · subst hxy
      rw [removeOne, if_pos rfl]
    · rw [removeOne, if_neg hxy]
      rcases List.mem_cons.mp h with h | h
      · exact absurd h.symm hxy
      · exact ((ih h).cons x).trans (List.Perm.swap y x (removeOne xs y))

/-- Model of `BinaryHeap::pop`: return the greatest entry (cheapest cost,
ties broken toward the greater node) together with the remaining heap. -/
def popMax [DecidableEq α] : List (MinHeapState α) → Option (MinHeapState α × List (MinHeapState α))
  | [] => none
  | e :: es => some (heapBest e es, removeOne (e :: es) (heapBest e es))

theorem popMax_eq_none_iff [DecidableEq α] (l : List (MinHeapState α)) :
    popMax l = none ↔ l = [] := by
  cases l with
  | nil => simp [popMax]
  | cons x xs => simp [popMax]

theorem popMax_mem [DecidableEq α] {l : List (MinHeapState α)}
    {b : MinHeapState α} {r : List (MinHeapState α)}
    (h : popMax l = some (b, r)) : b ∈ l := by
  cases l with
  | nil => simp [popMax] at h
  | cons x xs =>
    simp only [popMax, Option.some.injEq, Prod.mk.injEq] at h
    rw [← h.1]
    rcases heapBest_mem x xs with h2 | h2
    · rw [h2]
      exact List.mem_cons_self x xs
    · exact List.mem_cons_of_mem _ h2

theorem popMax_perm [DecidableEq α] {l : List (MinHeapState α)}
    {b : MinHeapState α} {r : List (MinHeapState α)}
    (h : popMax l = some (b, r)) : l.Perm (b :: r) := by
  have hb : b ∈ l := popMax_mem h
  cases l with
  | nil => cases hb
  | cons x xs =>
    simp only [popMax, Option.some.injEq, Prod.mk.injEq] at h
    rw [← h.2, ← h.1]
    rw [← h.1] at hb
    exact removeOne_perm hb

theorem popMax_best [DecidableEq α] {l : List (MinHeapState α)}
    {b : MinHeapState α} {r : List (MinHeapState α)}
    (h : popMax l = some (b, r)) : ∀ x ∈ l, ¬ msLt b x := by
  cases l with
  | nil => simp [popMax] at h
  | cons x xs =>
    simp only [popMax, Option.some.injEq, Prod.mk.injEq] at h
    intro y hy
    rw [← h.1]
    rcases List.mem_cons.mp hy with hy | hy
    · rw [hy]
      exact (heapBest_not_lt x xs).1
    · exact (heapBest_not_lt x xs).2 y hy

/-- The popped entry has minimal cost among all heap entries. -/
theorem popMax_cost_le [DecidableEq α] {l : List (MinHeapState α)}
    {b : MinHeapState α} {r : List (MinHeapState α)}
    (h : popMax l = some (b, r)) : ∀ x ∈ l, b.cost ≤ x.cost := by
  intro x hx
  exact (not_msLt_iff.mp (popMax_best h x hx)).1

/-- Among entries of minimal cost, the popped entry has the greatest node. -/
theorem popMax_tie_node [DecidableEq α] {l : List (MinHeapState α)}
    {b : MinHeapState α} {r : List (MinHeapState α)}
    (h : popMax l = some (b, r)) : ∀ x ∈ l, x.cost = b.cost → x.node ≤ b.node := by
  intro x hx he
  exact (not_msLt_iff.mp (popMax_best h x hx)).2 he

end Heap

section Search

variable {α : Type} [LinearOrder α]

/-- The `Graph`/`Weighted` capability of `src/search/mod.rs`, merged into one
record: `moves` is the adjacency function, `isDone` the goal predicate,
`weight` the (non-negative, since `usize`) edge cost.  `height`/`width` are
descriptive metadata unused by the algorithms. -/
structure SGraph (α : Type) where
  height : Nat
  width : Nat
  moves : α → List α
  isDone : α → Bool
  weight : α → α → Nat

/-- Loop of `get_path`: repeatedly look up the predecessor of the most
recently appended node, stopping when the lookup misses or the start node was
appended.  `acc` holds the nodes appended so far, most recent first, so the
returned list is the source's `found.reverse()`.  The fuel only matters on a
cyclic predecessor map, where the source would not terminate. -/
def getPathGo [DecidableEq α] (pm : List (α × α)) (start : α) :
    Nat → α → List α → List α
  | 0, cur, acc => cur :: acc
  | fuel+1, cur, acc =>
    match lookupA pm cur with
    | none => cur :: acc
    | some p => if p = start then p :: cur :: acc else getPathGo pm start fuel p (cur :: acc)

/-- `get_path` of `src/search/mod.rs`. -/
def get_path [DecidableEq α] (pm : List (α × α)) (e : α) (start : α) : List α :=
  getPathGo pm start (pm.length + 1) e []

/-- Loop of `dfs` (`src/search/basic.rs`): `pm` is the `path` map, the stack
is a list with its top at the head (`Vec::push`/`Vec::pop` act on the end). -/
def dfsGo (g : SGraph α) (start : α) :
    Nat → List (α × α) → List α → Option (Option (List α))
  | 0, _, _ => none
  | fuel+1, pm, stack =>
    match stack with
    | [] => some none
    | n :: rest =>
      if containsA pm n then dfsGo g start fuel pm rest
      else if g.isDone n then some (some (get_path pm n start))
      else
        let st := (g.moves n).foldl
          (fun (s : List α × List (α × α)) m => (m :: s.1, insertA s.2 m n)) (rest, pm)
        dfsGo g start fuel st.2 st.1

/-- `dfs` of `src/search/basic.rs`. -/
def dfs (g : SGraph α) (start : α) (fuel : Nat) : Option (Option (List α)) :=
  dfsGo g start fuel [] [start]

/-- Loop of `bfs` (`src/search/basic.rs`): the queue head is its front;
`push_back` appends. -/
def bfsGo (g : SGraph α) (start : α) :
    Nat → List (α × α) → List α → Option (Option (List α))
  | 0, _, _ => none
  | fuel+1, pm, queue =>
    match queue with
    | [] => some none
    | n :: rest =>
      if g.isDone n then some (some (get_path pm n start))
      else
        let st := (g.moves n).foldl
          (fun (s : List α × List (α × α)) m =>
            if containsA s.2 m then s else (s.1 ++ [m], insertA s.2 m n)) (rest, pm)
        bfsGo g start fuel st.2 st.1

/-- `bfs` of `src/search/basic.rs`. -/
def bfs (g : SGraph α) (start : α) (fuel : Nat) : Option (Option (List α)) :=
  bfsGo g start fuel [] [start]

/-- The per-call state shared by `dijkstra` and `a_star`: the frontier heap,
the `dist` map, the `index` set of discovered nodes and the predecessor map
`pm` (called `path` in the source). -/
structure DState (α : Type) where
  heap : List (MinHeapState α)
  dist : List (α × Nat)
  index : List α
  pm : List (α × α)

/-- `dist[&node]`.  The source indexes the map directly (panicking when the
key is absent); in every reachable state of both algorithms the key is
present, which the invariants below establish, so the default value is
never observable. -/
def distOf [DecidableEq α] (dist : List (α × Nat)) (n : α) : Nat :=
  (lookupA dist n).getD 0

/-- Body of `dijkstra`'s `for next_move in graph.moves(&node)` loop: `n` is
the popped node, `c` its popped cost. -/
def relaxD (g : SGraph α) (n : α) (c : Nat) (st : DState α) (m : α) : DState α :=
  let nc := c + g.weight n m
  let dist0 := if m ∈ st.index then st.dist else insertA st.dist m usizeMAX
  let index0 := if m ∈ st.index then st.index else m :: st.index
  if nc < distOf dist0 m then
    { heap := ⟨m, nc⟩ :: st.heap
      dist := insertA dist0 m nc
      index := index0
      pm := insertA st.pm m n }
  else
    { st with dist := dist0, index := index0 }

/-- Loop of `dijkstra` (`src/search/dijkstra.rs`): goal test first, then the
staleness check `cost > dist[&node]`, then relaxation of every neighbor. -/
def dijkstraGo (g : SGraph α) (start : α) :
    Nat → DState α → Option (Option (List (α × Nat) × List α))
  | 0, _ => none
  | fuel+1, st =>
    match popMax st.heap with
    | none => some none
    | some (e, rest) =>
      if g.isDone e.node then some (some (st.dist, get_path st.pm e.node start))
      else if distOf st.dist e.node < e.cost then
        dijkstraGo g start fuel { st with heap := rest }
      else
        dijkstraGo g start fuel
          ((g.moves e.node).foldl (relaxD g e.node e.cost) { st with heap := rest })

/-- The state after `dijkstra`'s initial pushes. -/
def dijkstraInit (start : α) : DState α :=
  { heap := [⟨start, 0⟩], dist := [(start, 0)], index := [start], pm := [] }

/-- `dijkstra` of `src/search/dijkstra.rs`. -/
def dijkstra (g : SGraph α) (start : α) (fuel : Nat) :
    Option (Option (List (α × Nat) × List α)) :=
  dijkstraGo g start fuel (dijkstraInit start)

/-- Body of `a_star`'s neighbor loop: no popped cost is available (the
source discards it), the tentative cost is read from the `dist` map. -/
def relaxA (g : SGraph α) (h : α → Nat) (n : α) (st : DState α) (m : α) : DState α :=
  let dist0 := if m ∈ st.index then st.dist else insertA st.dist m usizeMAX
  let index0 := if m ∈ st.index then st.index else m :: st.index
  let tentative := distOf dist0 n + g.weight n m
  if tentative < distOf dist0 m then
    { heap := ⟨m, tentative + h m⟩ :: st.heap
      dist := insertA dist0 m tentative
      index := index0
      pm := insertA st.pm m n }
  else
    { st with dist := dist0, index := index0 }

/-- Loop of `a_star` (`src/search/a_star.rs`): goal test, then immediate
relaxation of every neighbor — the popped cost is ignored and there is no
staleness branch. -/
def aStarGo (g : SGraph α) (h : α → Nat) (start : α) :
    Nat → DState α → Option (Option (List (α × Nat) × List α))
  | 0, _ => none
  | fuel+1, st =>
    match popMax st.heap with
    | none => some none
    | some (e, rest) =>
      if g.isDone e.node then some (some (st.dist, get_path st.pm e.node start))
      else
        aStarGo g h start fuel
          ((g.moves e.node).foldl (relaxA g h e.node) { st with heap := rest })

/-- The state after `a_star`'s initial pushes: the start entry carries the
heuristic value as its key, the `dist` entry is `0`. -/
def aStarInit (h : α → Nat) (start : α) : DState α :=
  { heap := [⟨start, h start⟩], dist := [(start, 0)], index := [start], pm := [] }

/-- `a_star` of `src/search/a_star.rs`. -/
def a_star (g : SGraph α) (start : α) (h : α → Nat) (fuel : Nat) :
    Option (Option (List (α × Nat) × List α)) :=
  aStarGo g h start fuel (aStarInit h start)

/-- `dijkstraGo` instrumented with the list of processed (popped, goal-failed
and non-stale) nodes, in processing order.  Pure observation: the projection
lemma `dijkstraGoT_fst` shows it computes exactly `dijkstraGo`. -/
def dijkstraGoT (g : SGraph α) (start : α) :
    Nat → DState α → List α → Option (Option (List (α × Nat) × List α) × List α)
  | 0, _, _ => none
  | fuel+1, st, done =>
    match popMax st.heap with
    | none => some (none, done.reverse)
    | some (e, rest) =>
      if g.isDone e.node then
        some (some (st.dist, get_path st.pm e.node start), done.reverse)
      else if distOf st.dist e.node < e.cost then
        dijkstraGoT g start fuel { st with heap := rest } done
      else
        dijkstraGoT g start fuel
          ((g.moves e.node).foldl (relaxD g e.node e.cost) { st with heap := rest })
          (e.node :: done)

/-- `dijkstra` with its processing trace. -/
def dijkstraT (g : SGraph α) (start : α) (fuel : Nat) :
    Option (Option (List (α × Nat) × List α) × List α) :=
  dijkstraGoT g start fuel (dijkstraInit start) []

/-- `aStarGo` instrumented with the list of expanded (popped and goal-failed)
nodes in expansion order; `a_star` has no staleness branch, so every
non-goal pop is expanded. -/
def aStarGoT (g : SGraph α) (h : α → Nat) (start : α) :
    Nat → DState α → List α → Option (Option (List (α × Nat) × List α) × List α)
  | 0, _, _ => none
  | fuel+1, st, done =>
    match popMax st.heap with
    | none => some (none, done.reverse)
    | some (e, rest) =>
      if g.isDone e.node then
        some (some (st.dist, get_path st.pm e.node start), done.reverse)
      else
        aStarGoT g h start fuel
          ((g.moves e.node).foldl (relaxA g h e.node) { st with heap := rest })
          (e.node :: done)

/-- `a_star` with its expansion trace. -/
def aStarT (g : SGraph α) (start : α) (h : α → Nat) (fuel : Nat) :
    Option (Option (List (α × Nat) × List α) × List α) :=
  aStarGoT g h start fuel (aStarInit h start) []

theorem dijkstraGoT_fst (g : SGraph α) (start : α) :
    ∀ (fuel : Nat) (st : DState α) (done : List α),
      (dijkstraGoT g start fuel st done).map Prod.fst = dijkstraGo g start fuel st := by
  intro fuel
  induction fuel with
  | zero => intro st done; rfl
  | succ f ih =>
    intro st done
    rw [dijkstraGoT, dijkstraGo]
    cases popMax st.heap with
    | none => rfl
    | some pr =>
      by_cases hd : g.isDone pr.1.node
      · simp [hd]
      · by_cases hs : distOf st.dist pr.1.node < pr.1.cost
        · simp [hd, hs, ih]
        · simp [hd, hs, ih]

theorem aStarGoT_fst (g : SGraph α) (h : α → Nat) (start : α) :
    ∀ (fuel : Nat) (st : DState α) (done : List α),
      (aStarGoT g h start fuel st done).map Prod.fst = aStarGo g h start fuel st := by
  intro fuel
  induction fuel with
  | zero => intro st done; rfl
  | succ f ih =>
    intro st done
    rw [aStarGoT, aStarGo]
    cases popMax st.heap with
    | none => rfl
    | some pr =>
      by_cases hd : g.isDone pr.1.node
      · simp [hd]
      · simp [hd, ih]

theorem dijkstraT_fst (g : SGraph α) (start : α) (fuel : Nat) :
    (dijkstraT g start fuel).map Prod.fst = dijkstra g start fuel :=
  dijkstraGoT_fst g start fuel _ []

theorem aStarT_fst (g : SGraph α) (start : α) (h : α → Nat) (fuel : Nat) :
    (aStarT g start h fuel).map Prod.fst = a_star g start h fuel :=
  aStarGoT_fst g h start fuel _ []

end Search


set_option linter.unusedSectionVars false

section Semantics

variable {α : Type} [LinearOrder α]

/-- `ReachSteps g s n k`: some walk of exactly `k` edges along `moves` leads
from `s` to `n`. -/
inductive ReachSteps (g : SGraph α) (s : α) : α → Nat → Prop
  | refl : ReachSteps g s s 0
  | step {y m : α} {k : Nat} :
      ReachSteps g s y k → m ∈ g.moves y → ReachSteps g s m (k + 1)

/-- `ReachCost g s n c`: some finite path along `moves` leads from `s` to
`n` and its edge weights sum to `c`. -/
inductive ReachCost (g : SGraph α) (s : α) : α → Nat → Prop
  | refl : ReachCost g s s 0
  | step {y m : α} {c : Nat} :
      ReachCost g s y c → m ∈ g.moves y → ReachCost g s m (c + g.weight y m)

/-- `ChainTo pm start j l`: following the predecessor map from `j` reaches
`start`, stopping at the first hit; `l` lists the nodes walked through, from
`j` inclusive up to `start` exclusive.  This is exactly the walk `get_path`
performs. -/
inductive ChainTo [DecidableEq α] (pm : List (α × α)) (start : α) : α → List α → Prop
  | single {j : α} : lookupA pm j = some start → ChainTo pm start j [j]
  | cons {j i : α} {l : List α} :
      lookupA pm j = some i → i ≠ start → ChainTo pm start i l →
      ChainTo pm start j (j :: l)

theorem ChainTo.subset_keys [DecidableEq α] {pm : List (α × α)} {start j : α}
    {l : List α} (h : ChainTo pm start j l) : ∀ x ∈ l, x ∈ keysA pm := by
  induction h with
  | single hj =>
    intro x hx
    rw [List.mem_singleton] at hx
    exact hx ▸ lookupA_mem_keys (by assumption)
  | cons hj hi hc ih =>
    intro x hx
    rcases List.mem_cons.mp hx with hx | hx
    · exact hx ▸ lookupA_mem_keys hj
    · exact ih x hx

theorem ChainTo.ne_nil [DecidableEq α] {pm : List (α × α)} {start j : α}
    {l : List α} (h : ChainTo pm start j l) : l ≠ [] := by
  cases h with
  | single hj => exact List.cons_ne_nil _ _
  | cons hj hi hc => exact List.cons_ne_nil _ _

theorem ChainTo.head [DecidableEq α] {pm : List (α × α)} {start j : α}
    {l : List α} (h : ChainTo pm start j l) : l.head? = some j := by
  cases h with
  | single hj => rfl
  | cons hj hi hc => rfl

/-- A duplicate-free list included in another list is no longer than it. -/
theorem nodup_length_le_of_subset {β : Type} [DecidableEq β] {l kl : List β}
    (hn : l.Nodup) (hs : l ⊆ kl) : l.length ≤ kl.length := by
  calc l.length = l.toFinset.card := (List.toFinset_card_of_nodup hn).symm
    _ ≤ kl.toFinset.card := Finset.card_le_card (fun x hx => by
        rw [List.mem_toFinset] at hx ⊢
        exact hs hx)
    _ ≤ kl.length := kl.toFinset_card_le

theorem getPathGo_succ_none [DecidableEq α] {pm : List (α × α)} {start cur : α}
    {f : Nat} {acc : List α} (h : lookupA pm cur = none) :
    getPathGo pm start (f + 1) cur acc = cur :: acc := by
  rw [getPathGo, h]

theorem getPathGo_succ_some [DecidableEq α] {pm : List (α × α)} {start cur p : α}
    {f : Nat} {acc : List α} (h : lookupA pm cur = some p) :
    getPathGo pm start (f + 1) cur acc =
      if p = start then p :: cur :: acc else getPathGo pm start f p (cur :: acc) := by
  rw [getPathGo, h]

/-- `getPathGo` follows a `ChainTo` walk exactly. -/
theorem getPathGo_chain [DecidableEq α] {pm : List (α × α)} {start j0 : α}
    {l : List α} (h : ChainTo pm start j0 l) :
    ∀ (fuel : Nat) (acc : List α), l.length ≤ fuel →
      getPathGo pm start fuel j0 acc = start :: (l.reverse ++ acc) := by
  induction h with
  | @single j hj =>
    intro fuel acc hf
    match fuel, hf with
    | f + 1, _ =>
      rw [getPathGo_succ_some hj, if_pos rfl]
      simp
  | @cons j i l2 hj hi hc ih =>
    intro fuel acc hf
    match fuel, hf with
    | f + 1, hf =>
      have hlen : l2.length ≤ f := by
        simp only [List.length_cons] at hf
        omega
      rw [getPathGo_succ_some hj, if_neg hi, ih f (j :: acc) hlen]
      simp

/-- The last element of a `getPathGo` result is the last element of the
accumulator extended with the current node. -/
theorem getPathGo_getLast [DecidableEq α] (pm : List (α × α)) (start : α) :
    ∀ (fuel : Nat) (cur : α) (acc : List α),
      (getPathGo pm start fuel cur acc).getLast? = (cur :: acc).getLast? := by
  intro fuel
  induction fuel with
  | zero => intro cur acc; rfl
  | succ f ih =>
    intro cur acc
    cases hl : lookupA pm cur with
    | none => rw [getPathGo_succ_none hl]
    | some p =>
      by_cases hp : p = start
      · rw [getPathGo_succ_some hl, if_pos hp, List.getLast?_cons_cons]
      · rw [getPathGo_succ_some hl, if_neg hp, ih, List.getLast?_cons_cons]

/-- Any `get_path` result ends at the requested end node. -/
theorem get_path_getLast [DecidableEq α] (pm : List (α × α)) (e start : α) :
    (get_path pm e start).getLast? = some e := by
  rw [get_path, getPathGo_getLast]
  rfl

/-- A predecessor map is well formed when its key set is duplicate-free and
every key walks back to the start node. -/
def GoodPM [DecidableEq α] (pm : List (α × α)) (start : α) : Prop :=
  (keysA pm).Nodup ∧ ∀ j ∈ keysA pm, ∃ l, ChainTo pm start j l ∧ l.Nodup

theorem chain_length_le_pm [DecidableEq α] {pm : List (α × α)} {start j : α}
    {l : List α} (hc : ChainTo pm start j l) (hnd : l.Nodup) :
    l.length ≤ pm.length := by
  have hk : (keysA pm).length = pm.length := List.length_map _ _
  exact hk ▸ nodup_length_le_of_subset hnd hc.subset_keys

/-- On a well-formed predecessor map, `get_path` from any key (or from the
start itself) yields a list headed by the start node. -/
theorem get_path_head [DecidableEq α] {pm : List (α × α)} {start : α}
    (hg : GoodPM pm start) (e : α) (he : e = start ∨ e ∈ keysA pm) :
    ∃ mid, get_path pm e start = start :: mid := by
  by_cases hk : e ∈ keysA pm
  · rcases hg.2 e hk with ⟨l, hc, hnd⟩
    have hlen : l.length ≤ pm.length := chain_length_le_pm hc hnd
    refine ⟨l.reverse, ?_⟩
    rw [get_path, getPathGo_chain hc (pm.length + 1) [] (hlen.trans (Nat.le_succ _))]
    simp
  · rcases he with he | he
    · subst he
      refine ⟨[], ?_⟩
      rw [get_path, getPathGo_succ_none (lookupA_eq_none_of_not_mem_keys hk)]
    · exact absurd he hk

end Semantics

section DfsTrace

variable {α : Type} [LinearOrder α]

/-- `dfsGo` instrumented with the list of processed pops (pops that pass the
`path.contains_key` check), in processing order. -/
def dfsGoT (g : SGraph α) (start : α) :
    Nat → List (α × α) → List α → List α → Option (Option (List α) × List α)
  | 0, _, _, _ => none
  | fuel+1, pm, stack, done =>
    match stack with
    | [] => some (none, done.reverse)
    | n :: rest =>
      if containsA pm n then dfsGoT g start fuel pm rest done
      else if g.isDone n then some (some (get_path pm n start), done.reverse)
      else
        let st := (g.moves n).foldl
          (fun (s : List α × List (α × α)) m => (m :: s.1, insertA s.2 m n)) (rest, pm)
        dfsGoT g start fuel st.2 st.1 (n :: done)

/-- `dfs` with its processing trace. -/
def dfsT (g : SGraph α) (start : α) (fuel : Nat) : Option (Option (List α) × List α) :=
  dfsGoT g start fuel [] [start] []

theorem dfsGoT_fst (g : SGraph α) (start : α) :
    ∀ (fuel : Nat) (pm : List (α × α)) (stack done : List α),
      (dfsGoT g start fuel pm stack done).map Prod.fst = dfsGo g start fuel pm stack := by
  intro fuel
  induction fuel with
  | zero => intro pm stack done; rfl
  | succ f ih =>
    intro pm stack done
    cases stack with
    | nil => rfl
    | cons n rest =>
      rw [dfsGoT, dfsGo]
      by_cases hc : containsA pm n
      · simp only [hc, if_true]
        exact ih pm rest done
      · simp only [hc]
        by_cases hd : g.isDone n
        · simp [hd]
        · simp only [hd]
          simp only [Bool.false_eq_true, if_false]
          exact ih _ _ _

theorem dfsT_fst (g : SGraph α) (start : α) (fuel : Nat) :
    (dfsT g start fuel).map Prod.fst = dfs g start fuel :=
  dfsGoT_fst g start fuel [] [start] []

end DfsTrace

section ClaimGraphs

/-- Two-node graph: the only move is `0 → 1` and node `1` is the goal. -/
def exG2 : SGraph Nat :=
  { height := 0
    width := 0
    moves := fun n => if n = 0 then [1] else []
    isDone := fun n => n == 1
    weight := fun _ _ => 1 }

/-- Three-node graph: moves `0 → 1` and `0 → 2`, node `2` is the goal. -/
def exG9 : SGraph Nat :=
  { height := 0
    width := 0
    moves := fun n => if n = 0 then [1, 2] else []
    isDone := fun n => n == 2
    weight := fun _ _ => 1 }

/-- Diamond with a stale frontier entry: `0 → 1` costs 5, `0 → 2` costs 1,
`2 → 1` costs 1, and no goal exists.  After `(1, 2)` improves on `(1, 5)`,
the entry `(1, 5)` is stale when popped. -/
def exG3 : SGraph Nat :=
  { height := 0
    width := 0
    moves := fun n => if n = 0 then [1, 2] else if n = 2 then [1] else []
    isDone := fun _ => false
    weight := fun c n => if c = 0 && n = 1 then 5 else 1 }

end ClaimGraphs

/-- **C2** (code bug).  The specification says `dfs` reconstructs and returns
a start-to-goal path whenever a node satisfying `is_done` is reachable from
`start`.  The code inserts every pushed neighbor into the `path` map and
later uses that same map as the visited check at pop time, so every
non-start node is skipped at its first pop: on the two-node graph `exG2`,
whose goal node `1` is one move away from the start `0`, `dfs` reports "not
found" instead of returning `[0, 1]`. -/
theorem c2_dfs_misses_reachable_goal :
    dfs exG2 0 10 = some none ∧ ReachSteps exG2 0 1 1 ∧ exG2.isDone 1 = true := by
  refine ⟨by decide, ?_, by decide⟩
  exact ReachSteps.step ReachSteps.refl (by decide)

/-- **C9** (code bug).  The specification says `dfs` marks nodes visited only
at pop time and that the first pop of a node is goal-tested and expanded.  In
the code the `path.insert` at push time makes every pushed node "visited"
immediately, so its first pop is discarded by the `path.contains_key` check:
on `exG9` the nodes `1` and `2` are both pushed, yet the processing trace of
the run is `[0]` — neither pushed node is ever goal-tested or expanded, and
the goal `2` is missed. -/
theorem c9_dfs_marks_at_push_time :
    dfsT exG9 0 10 = some (none, [0]) ∧ ReachSteps exG9 0 2 1 ∧ exG9.isDone 2 = true := by
  refine ⟨by decide, ?_, by decide⟩
  exact ReachSteps.step ReachSteps.refl (by decide)

/-- **C4** (counterexample).  The claim says that among equal-cost frontier
entries the one with the *smaller* node pops first.  For the `Ord` used by
the source (`other.cost.cmp(&self.cost).then_with(|| self.node.cmp(&other.node))`
inside a max-heap), the entry with the *greater* node is the greater element,
so it pops first: with entries `(node 0, cost 5)` and `(node 1, cost 5)` the
pop returns node `1` although `0 < 1`. -/
theorem c4_counterexample :
    popMax [(⟨0, 5⟩ : MinHeapState Nat), ⟨1, 5⟩] = some (⟨1, 5⟩, [⟨0, 5⟩]) ∧
      (0 : Nat) < 1 := by
  decide

/-- **C4** (amended).  The frontier pops entries in ascending cost order, and
among entries of equal cost it pops them in *descending* node order: the
popped entry has minimal cost, and the greatest node among minimal-cost
entries. -/
theorem c4_amended {α : Type} [LinearOrder α] {l : List (MinHeapState α)}
    {b : MinHeapState α} {r : List (MinHeapState α)}
    (hpop : popMax l = some (b, r)) :
    ∀ x ∈ l, b.cost ≤ x.cost ∧ (x.cost = b.cost → x.node ≤ b.node) :=
  fun x hx => ⟨popMax_cost_le hpop x hx, popMax_tie_node hpop x hx⟩

/-- Witness for `c4_amended` at a concrete heap and a concrete remaining
entry: the popped entry `(1, 5)` ties the cost of `(0, 5)` and carries the
greater node. -/
theorem c4_amended_witness :
    popMax [(⟨0, 5⟩ : MinHeapState Nat), ⟨1, 5⟩] = some (⟨1, 5⟩, [⟨0, 5⟩]) ∧
      ((⟨1, 5⟩ : MinHeapState Nat).cost ≤ (⟨0, 5⟩ : MinHeapState Nat).cost ∧
        ((⟨0, 5⟩ : MinHeapState Nat).cost = (⟨1, 5⟩ : MinHeapState Nat).cost →
          (⟨0, 5⟩ : MinHeapState Nat).node ≤ (⟨1, 5⟩ : MinHeapState Nat).node)) :=
  ⟨by decide,
   @c4_amended Nat _ [⟨0, 5⟩, ⟨1, 5⟩] ⟨1, 5⟩ [⟨0, 5⟩] (by decide) ⟨0, 5⟩ (by decide)⟩

theorem popMax_singleton {α : Type} [LinearOrder α] (e : MinHeapState α) :
    popMax [e] = some (e, []) := by
  simp [popMax, heapBest, removeOne]

/-- **C10** (confirmed).  If the goal predicate already holds at the start
node, each search succeeds on its very first pop with the singleton path
`[start]`, and the weighted searches return the distance map containing
exactly the single entry `start ↦ 0`.  The statement is universally
quantified over the graph, so the result holds for *every* adjacency
function `moves` — the searches never consult it. -/
theorem c10_goal_at_start {α : Type} [LinearOrder α] (g : SGraph α) (start : α)
    (h : α → Nat) (f1 f2 f3 f4 : Nat) (hdone : g.isDone start = true) :
    dfs g start (f1 + 1) = some (some [start]) ∧
    bfs g start (f2 + 1) = some (some [start]) ∧
    dijkstra g start (f3 + 1) = some (some ([(start, 0)], [start])) ∧
    a_star g start h (f4 + 1) = some (some ([(start, 0)], [start])) := by
  refine ⟨?_, ?_, ?_, ?_⟩
  · simp [dfs, dfsGo, containsA, lookupA, hdone, get_path, getPathGo]
  · simp [bfs, bfsGo, hdone, get_path, getPathGo, lookupA]
  · simp [dijkstra, dijkstraGo, dijkstraInit, popMax_singleton, hdone, get_path,
      getPathGo, lookupA]
  · simp [a_star, aStarGo, aStarInit, popMax_singleton, hdone, get_path,
      getPathGo, lookupA]

/-- A graph whose goal test always succeeds (and whose `moves` is nonempty,
to stress that it is never consulted). -/
def exGW : SGraph Nat :=
  { height := 0
    width := 0
    moves := fun _ => [7]
    isDone := fun _ => true
    weight := fun _ _ => 1 }

/-- Witness for `c10_goal_at_start` on a concrete graph. -/
theorem c10_goal_at_start_witness :
    dfs exGW 0 1 = some (some [0]) ∧
    bfs exGW 0 1 = some (some [0]) ∧
    dijkstra exGW 0 1 = some (some ([(0, 0)], [0])) ∧
    a_star exGW 0 (fun _ => 3) 1 = some (some ([(0, 0)], [0])) :=
  c10_goal_at_start exGW 0 (fun _ => 3) 0 0 0 0 rfl

/-- **C3** (counterexample).  The claim says both weighted searches discard a
stale popped entry and do not re-relax the node.  On `exG3` with the zero
heuristic, entry `(1, 5)` goes stale once `(1, 2)` is discovered via node
`2`; `dijkstra` then discards it (processing trace `[0, 2, 1]`), but
`a_star` never compares the popped cost against the distance map: it
re-expands node `1` a second time, giving the expansion trace
`[0, 2, 1, 1]`. -/
theorem c3_counterexample :
    aStarT exG3 0 (fun _ => 0) 10 = some (none, [0, 2, 1, 1]) ∧
    dijkstraT exG3 0 10 = some (none, [0, 2, 1]) :=
  ⟨by decide, by decide⟩

theorem relaxA_unchanged {α : Type} [LinearOrder α] (g : SGraph α) (h : α → Nat)
    (n m : α) (st : DState α) (hm : m ∈ st.index)
    (hle : distOf st.dist m ≤ distOf st.dist n + g.weight n m) :
    relaxA g h n st m = st := by
  unfold relaxA
  simp only [if_pos hm]
  rw [if_neg (not_lt_of_le hle)]

theorem foldl_relaxA_unchanged {α : Type} [LinearOrder α] (g : SGraph α) (h : α → Nat)
    (n : α) (st : DState α) (ms : List α)
    (hsettled : ∀ m ∈ ms, m ∈ st.index ∧
      distOf st.dist m ≤ distOf st.dist n + g.weight n m) :
    ms.foldl (relaxA g h n) st = st := by
  induction ms with
  | nil => rfl
  | cons m ms ih =>
    rw [List.foldl_cons,
      relaxA_unchanged g h n m st (hsettled m (List.mem_cons_self m ms)).1
        (hsettled m (List.mem_cons_self m ms)).2]
    exact ih (fun x hx => hsettled x (List.mem_cons_of_mem m hx))

/-- **C3** (amended).  At a pop whose entry is stale (its cost exceeds the
node's distance-map entry), `dijkstra` discards the entry and continues with
the state unchanged apart from the shrunken heap.  `a_star` makes no
staleness comparison — the popped cost is ignored and the node is re-expanded
— but its relaxation reads the true cost-so-far `g` from the distance map
(never the heuristic-inflated key), so when the node's neighbors are already
relaxed (`hsettled`, an invariant of every reachable state), the
re-expansion changes nothing and both algorithms continue from the identical
state. -/
theorem c3_amended {α : Type} [LinearOrder α] (g : SGraph α) (hh : α → Nat) (start : α)
    (f : Nat) (st : DState α) (e : MinHeapState α) (rest : List (MinHeapState α))
    (hpop : popMax st.heap = some (e, rest))
    (hgoal : g.isDone e.node = false)
    (hstale : distOf st.dist e.node < e.cost)
    (hsettled : ∀ m ∈ g.moves e.node, m ∈ st.index ∧
      distOf st.dist m ≤ distOf st.dist e.node + g.weight e.node m) :
    dijkstraGo g start (f + 1) st = dijkstraGo g start f { st with heap := rest } ∧
    aStarGo g hh start (f + 1) st = aStarGo g hh start f { st with heap := rest } := by
  constructor
  · rw [dijkstraGo, hpop]
    simp [hgoal, hstale]
  · rw [aStarGo, hpop]
    simp only [hgoal, Bool.false_eq_true, if_false]
    rw [foldl_relaxA_unchanged g hh e.node { st with heap := rest } (g.moves e.node)
      (fun m hm => hsettled m hm)]

/-- A state of `exG3`-runs in which the top heap entry `(1, 5)` is stale:
`dist` already records cost `2` for node `1`. -/
def stC3 : DState Nat :=
  { heap := [⟨1, 5⟩]
    dist := [(1, 2), (2, 1), (0, 0)]
    index := [1, 2, 0]
    pm := [(1, 2), (2, 0)] }

/-- Witness for `c3_amended` at a concrete stale state. -/
theorem c3_amended_witness :
    dijkstraGo exG3 0 4 stC3 = dijkstraGo exG3 0 3 { stC3 with heap := [] } ∧
    aStarGo exG3 (fun _ => 0) 0 4 stC3 = aStarGo exG3 (fun _ => 0) 0 3 { stC3 with heap := [] } :=
  c3_amended exG3 (fun _ => 0) 0 3 stC3 ⟨1, 5⟩ [] (by decide) (by decide) (by decide)
    (by decide)

section DijkstraInvariant

variable {α : Type} [LinearOrder α]

theorem distOf_insertA_self [DecidableEq α] (d : List (α × Nat)) (k : α) (v : Nat) :
    distOf (insertA d k v) k = v := by
  rw [distOf, lookupA_insertA, if_pos rfl]
  rfl

theorem distOf_insertA_ne [DecidableEq α] (d : List (α × Nat)) (k : α) (v : Nat)
    (x : α) (hx : k ≠ x) : distOf (insertA d k v) x = distOf d x := by
  rw [distOf, lookupA_insertA, if_neg hx]
  rfl

/-- The run invariant of `dijkstra` (and, with the zero heuristic, of
`a_star`), relative to the ghost list `done` of processed nodes. -/
structure DInv (g : SGraph α) (start : α) (st : DState α) (done : List α) : Prop where
  startIdx : start ∈ st.index
  distStart : lookupA st.dist start = some 0
  indexDist : ∀ n ∈ st.index, ∃ v, lookupA st.dist n = some v
  distLeMAX : ∀ n, distOf st.dist n ≤ usizeMAX
  heapIndex : ∀ e ∈ st.heap, e.node ∈ st.index
  heapDistLe : ∀ e ∈ st.heap, distOf st.dist e.node ≤ e.cost
  heapReach : ∀ e ∈ st.heap, ReachCost g start e.node e.cost
  heapCostLt : ∀ e ∈ st.heap, e.cost < usizeMAX
  doneIndex : ∀ n ∈ done, n ∈ st.index
  doneMin : ∀ n ∈ done, ∀ c, ReachCost g start n c → distOf st.dist n ≤ c
  doneReach : ∀ n ∈ done, ReachCost g start n (distOf st.dist n)
  idxCover : ∀ n ∈ st.index, (⟨n, distOf st.dist n⟩ : MinHeapState α) ∈ st.heap ∨
      n ∈ done ∨ distOf st.dist n = usizeMAX

/-- Every processed node has all its neighbors discovered and relaxed. -/
def SettledOn (g : SGraph α) (st : DState α) (done : List α) : Prop :=
  ∀ n ∈ done, ∀ m ∈ g.moves n, m ∈ st.index ∧
    distOf st.dist m ≤ distOf st.dist n + g.weight n m

/-- The greedy argument: at any pop, every finite path cost to any node is
either dominated by that node's current distance entry (for a discovered
node) or at least the popped cost. -/
theorem dijkstra_greedy {g : SGraph α} {start : α} {st : DState α} {done : List α}
    {e : MinHeapState α} {rest : List (MinHeapState α)}
    (hinv : DInv g start st done) (hset : SettledOn g st done)
    (hpop : popMax st.heap = some (e, rest)) :
    ∀ x c2, ReachCost g start x c2 →
      (x ∈ st.index ∧ distOf st.dist x ≤ c2) ∨ e.cost ≤ c2 := by
  intro x c2 h
  induction h with
  | refl =>
    left
    refine ⟨hinv.startIdx, ?_⟩
    simp [distOf, hinv.distStart]
  | @step y m d hy hm ih =>
    rcases ih with ⟨hyidx, hyle⟩ | hle
    · rcases hinv.idxCover y hyidx with hcov | hdone | hmax
      · right
        have h1 := popMax_cost_le hpop _ hcov
        exact le_trans (le_trans h1 hyle) (Nat.le_add_right _ _)
      · left
        rcases hset y hdone m hm with ⟨hmidx, hmle⟩
        exact ⟨hmidx, le_trans hmle (Nat.add_le_add_right hyle _)⟩
      · right
        have h2 := hinv.heapCostLt e (popMax_mem hpop)
        have h3 : usizeMAX ≤ d := hmax ▸ hyle
        omega
    · right
      exact le_trans hle (Nat.le_add_right _ _)

theorem relaxD_eq_of_mem_no_improve {g : SGraph α} {st : DState α} {n m : α} {c : Nat}
    (him : m ∈ st.index) (hge : ¬ c + g.weight n m < distOf st.dist m) :
    relaxD g n c st m = st := by
  unfold relaxD
  simp only [if_pos him]
  rw [if_neg hge]

theorem relaxD_eq_of_mem_improve {g : SGraph α} {st : DState α} {n m : α} {c : Nat}
    (him : m ∈ st.index) (hlt : c + g.weight n m < distOf st.dist m) :
    relaxD g n c st m =
      { heap := ⟨m, c + g.weight n m⟩ :: st.heap
        dist := insertA st.dist m (c + g.weight n m)
        index := st.index
        pm := insertA st.pm m n } := by
  unfold relaxD
  simp only [if_pos him]
  rw [if_pos hlt]

theorem relaxD_eq_of_fresh_improve {g : SGraph α} {st : DState α} {n m : α} {c : Nat}
    (him : m ∉ st.index) (hlt : c + g.weight n m < usizeMAX) :
    relaxD g n c st m =
      { heap := ⟨m, c + g.weight n m⟩ :: st.heap
        dist := insertA (insertA st.dist m usizeMAX) m (c + g.weight n m)
        index := m :: st.index
        pm := insertA st.pm m n } := by
  unfold relaxD
  simp only [if_neg him, distOf_insertA_self]
  rw [if_pos hlt]

theorem relaxD_eq_of_fresh_no_improve {g : SGraph α} {st : DState α} {n m : α} {c : Nat}
    (him : m ∉ st.index) (hge : ¬ c + g.weight n m < usizeMAX) :
    relaxD g n c st m =
      { st with dist := insertA st.dist m usizeMAX, index := m :: st.index } := by
  unfold relaxD
  simp only [if_neg him, distOf_insertA_self]
  rw [if_neg hge]

end DijkstraInvariant

section DijkstraStep

variable {α : Type} [LinearOrder α]

/-- One relaxation step of `dijkstra` preserves the run invariant and only
extends the index, lowers distances, and grows the heap. -/
theorem relaxD_step {g : SGraph α} {start : α} {st : DState α} {done done0 : List α}
    {n : α} {c : Nat} (m : α)
    (hinv : DInv g start st done) (hset : SettledOn g st done0) (hsub : done0 ⊆ done)
    (hreach : ReachCost g start n c) (hm : m ∈ g.moves n)
    (hn : n ∈ st.index) (hnc : distOf st.dist n = c) :
    (DInv g start (relaxD g n c st m) done ∧ SettledOn g (relaxD g n c st m) done0) ∧
    (n ∈ (relaxD g n c st m).index ∧ distOf (relaxD g n c st m).dist n = c) ∧
    (m ∈ (relaxD g n c st m).index ∧
      distOf (relaxD g n c st m).dist m ≤ c + g.weight n m) ∧
    (∀ x ∈ st.index, x ∈ (relaxD g n c st m).index ∧
      distOf (relaxD g n c st m).dist x ≤ distOf st.dist x) ∧
    (∀ e ∈ st.heap, e ∈ (relaxD g n c st m).heap) := by
  have hreachm : ReachCost g start m (c + g.weight n m) := ReachCost.step hreach hm
  by_cases him : m ∈ st.index
  · by_cases hlt : c + g.weight n m < distOf st.dist m
    · -- discovered neighbor, strict improvement
      rw [relaxD_eq_of_mem_improve him hlt]
      have hmn : m ≠ n := by
        intro he
        rw [he, hnc] at hlt
        omega
      have hmstart : m ≠ start := by
        intro he
        have h0 : distOf st.dist m = 0 := by
          rw [he]
          simp [distOf, hinv.distStart]
        omega
      have hmdone : m ∉ done := by
        intro hd
        have := hinv.doneMin m hd _ hreachm
        omega
      have hself : distOf (insertA st.dist m (c + g.weight n m)) m = c + g.weight n m :=
        distOf_insertA_self _ _ _
      have hne : ∀ x, x ≠ m →
          distOf (insertA st.dist m (c + g.weight n m)) x = distOf st.dist x :=
        fun x hx => distOf_insertA_ne _ _ _ _ (Ne.symm hx)
      refine ⟨⟨?_, ?_⟩, ⟨hn, ?_⟩, ⟨him, ?_⟩, ?_, ?_⟩
      · refine
          { startIdx := hinv.startIdx
            distStart := ?_
            indexDist := ?_
            distLeMAX := ?_
            heapIndex := ?_
            heapDistLe := ?_
            heapReach := ?_
            heapCostLt := ?_
            doneIndex := hinv.doneIndex
            doneMin := ?_
            doneReach := ?_
            idxCover := ?_ }
        · rw [lookupA_insertA, if_neg hmstart]
          exact hinv.distStart
        · intro x hx
          by_cases hxm : x = m
          · exact ⟨c + g.weight n m, by rw [lookupA_insertA, if_pos hxm.symm]⟩
          · rcases hinv.indexDist x hx with ⟨v, hv⟩
            exact ⟨v, by rw [lookupA_insertA, if_neg (fun he => hxm he.symm)]; exact hv⟩
        · intro x
          by_cases hxm : x = m
          · rw [hxm, hself]
            have := hinv.distLeMAX m
            omega
          · rw [hne x hxm]
            exact hinv.distLeMAX x
        · intro e2 he2
          rcases List.mem_cons.mp he2 with he2 | he2
          · rw [he2]
            exact him
          · exact hinv.heapIndex e2 he2
        · intro e2 he2
          rcases List.mem_cons.mp he2 with he2 | he2
          · rw [he2]
            exact le_of_eq hself
          · by_cases hxm : e2.node = m
            · rw [hxm, hself]
              have := hinv.heapDistLe e2 he2
              rw [hxm] at this
              omega
            · rw [hne _ hxm]
              exact hinv.heapDistLe e2 he2
        · intro e2 he2
          rcases List.mem_cons.mp he2 with he2 | he2
          · rw [he2]
            exact hreachm
          · exact hinv.heapReach e2 he2
        · intro e2 he2
          rcases List.mem_cons.mp he2 with he2 | he2
          · rw [he2]
            show c + g.weight n m < usizeMAX
            have := hinv.distLeMAX m
            omega
          · exact hinv.heapCostLt e2 he2
        · intro x hx c2 hr
          rw [hne x (fun he => hmdone (he ▸ hx))]
          exact hinv.doneMin x hx c2 hr
        · intro x hx
          rw [hne x (fun he => hmdone (he ▸ hx))]
          exact hinv.doneReach x hx
        · intro x hx
          by_cases hxm : x = m
          · left
            rw [hxm, hself]
            exact List.mem_cons_self _ _
          · rcases hinv.idxCover x hx with hcov | hd | hmax
            · left
              rw [hne x hxm]
              exact List.mem_cons_of_mem _ hcov
            · exact Or.inr (Or.inl hd)
            · exact Or.inr (Or.inr (by rw [hne x hxm]; exact hmax))
      · intro x hx m2 hm2
        rcases hset x hx m2 hm2 with ⟨hi2, hl2⟩
        have hxm : x ≠ m := fun he => hmdone (he ▸ hsub hx)
        refine ⟨hi2, ?_⟩
        rw [hne x hxm]
        by_cases hm2m : m2 = m
        · rw [hm2m, hself]
          rw [hm2m] at hl2
          omega
        · rw [hne m2 hm2m]
          exact hl2
      · rw [hne n (Ne.symm hmn)]
        exact hnc
      · exact le_of_eq hself
      · intro x hx
        refine ⟨hx, ?_⟩
        by_cases hxm : x = m
        · rw [hxm, hself]
          exact le_of_lt hlt
        · rw [hne x hxm]
      · intro e2 he2
        exact List.mem_cons_of_mem _ he2
    · -- discovered neighbor, no improvement: the state is unchanged
      rw [relaxD_eq_of_mem_no_improve him hlt]
      exact ⟨⟨hinv, hset⟩, ⟨hn, hnc⟩, ⟨him, Nat.le_of_not_lt hlt⟩,
        fun x hx => ⟨hx, le_refl _⟩, fun e2 he2 => he2⟩
  · have hmn : m ≠ n := fun he => him (he ▸ hn)
    have hmstart : m ≠ start := fun he => him (he ▸ hinv.startIdx)
    have hmdone : m ∉ done := fun hd => him (hinv.doneIndex m hd)
    by_cases hlt : c + g.weight n m < usizeMAX
    · -- fresh neighbor, strict improvement over usize::MAX
      rw [relaxD_eq_of_fresh_improve him hlt]
      have hself :
          distOf (insertA (insertA st.dist m usizeMAX) m (c + g.weight n m)) m
            = c + g.weight n m := distOf_insertA_self _ _ _
      have hne : ∀ x, x ≠ m →
          distOf (insertA (insertA st.dist m usizeMAX) m (c + g.weight n m)) x
            = distOf st.dist x := by
        intro x hx
        rw [distOf_insertA_ne _ _ _ _ (Ne.symm hx), distOf_insertA_ne _ _ _ _ (Ne.symm hx)]
      refine ⟨⟨?_, ?_⟩, ⟨List.mem_cons_of_mem _ hn, ?_⟩,
        ⟨List.mem_cons_self _ _, ?_⟩, ?_, ?_⟩
      · refine
          { startIdx := List.mem_cons_of_mem _ hinv.startIdx
            distStart := ?_
            indexDist := ?_
            distLeMAX := ?_
            heapIndex := ?_
            heapDistLe := ?_
            heapReach := ?_
            heapCostLt := ?_
            doneIndex := fun x hx => List.mem_cons_of_mem _ (hinv.doneIndex x hx)
            doneMin := ?_
            doneReach := ?_
            idxCover := ?_ }
        · rw [lookupA_insertA, if_neg hmstart, lookupA_insertA, if_neg hmstart]
          exact hinv.distStart
        · intro x hx
          by_cases hxm : x = m
          · exact ⟨c + g.weight n m, by rw [lookupA_insertA, if_pos hxm.symm]⟩
          · rcases hinv.indexDist x (by
              rcases List.mem_cons.mp hx with hx | hx
              · exact absurd hx hxm
              · exact hx) with ⟨v, hv⟩
            refine ⟨v, ?_⟩
            rw [lookupA_insertA, if_neg (fun he => hxm he.symm),
              lookupA_insertA, if_neg (fun he => hxm he.symm)]
            exact hv
        · intro x
          by_cases hxm : x = m
          · rw [hxm, hself]
            omega
          · rw [hne x hxm]
            exact hinv.distLeMAX x
        · intro e2 he2
          rcases List.mem_cons.mp he2 with he2 | he2
          · rw [he2]
            exact List.mem_cons_self _ _
          · exact List.mem_cons_of_mem _ (hinv.heapIndex e2 he2)
        · intro e2 he2
          rcases List.mem_cons.mp he2 with he2 | he2
          · rw [he2]
            exact le_of_eq hself
          · have hxm : e2.node ≠ m := fun he => him (he ▸ hinv.heapIndex e2 he2)
            rw [hne _ hxm]
            exact hinv.heapDistLe e2 he2
        · intro e2 he2
          rcases List.mem_cons.mp he2 with he2 | he2
          · rw [he2]
            exact hreachm
          · exact hinv.heapReach e2 he2
        · intro e2 he2
          rcases List.mem_cons.mp he2 with he2 | he2
          · rw [he2]
            exact hlt
          · exact hinv.heapCostLt e2 he2
        · intro x hx c2 hr
          rw [hne x (fun he => hmdone (he ▸ hx))]
          exact hinv.doneMin x hx c2 hr
        · intro x hx
          rw [hne x (fun he => hmdone (he ▸ hx))]
          exact hinv.doneReach x hx
        · intro x hx
          by_cases hxm : x = m
          · left
            rw [hxm, hself]
            exact List.mem_cons_self _ _
          · rcases hinv.idxCover x (by
              rcases List.mem_cons.mp hx with hx | hx
              · exact absurd hx hxm
              · exact hx) with hcov | hd | hmax
            · left
              rw [hne x hxm]
              exact List.mem_cons_of_mem _ hcov
            · exact Or.inr (Or.inl hd)
            · exact Or.inr (Or.inr (by rw [hne x hxm]; exact hmax))
      · intro x hx m2 hm2
        rcases hset x hx m2 hm2 with ⟨hi2, hl2⟩
        have hxm : x ≠ m := fun he => hmdone (he ▸ hsub hx)
        have hm2m : m2 ≠ m := fun he => him (he ▸ hi2)
        refine ⟨List.mem_cons_of_mem _ hi2, ?_⟩
        rw [hne x hxm, hne m2 hm2m]
        exact hl2
      · rw [hne n (Ne.symm hmn)]
        exact hnc
      · exact le_of_eq hself
      · intro x hx
        have hxm : x ≠ m := fun he => him (he ▸ hx)
        refine ⟨List.mem_cons_of_mem _ hx, ?_⟩
        rw [hne x hxm]
      · intro e2 he2
        exact List.mem_cons_of_mem _ he2
    · -- fresh neighbor whose tentative cost does not beat usize::MAX
      rw [relaxD_eq_of_fresh_no_improve him hlt]
      have hself : distOf (insertA st.dist m usizeMAX) m = usizeMAX :=
        distOf_insertA_self _ _ _
      have hne : ∀ x, x ≠ m → distOf (insertA st.dist m usizeMAX) x = distOf st.dist x :=
        fun x hx => distOf_insertA_ne _ _ _ _ (Ne.symm hx)
      refine ⟨⟨?_, ?_⟩, ⟨List.mem_cons_of_mem _ hn, ?_⟩,
        ⟨List.mem_cons_self _ _, ?_⟩, ?_, ?_⟩
      · refine
          { startIdx := List.mem_cons_of_mem _ hinv.startIdx
            distStart := ?_
            indexDist := ?_
            distLeMAX := ?_
            heapIndex := ?_
            heapDistLe := ?_
            heapReach := hinv.heapReach
            heapCostLt := hinv.heapCostLt
            doneIndex := fun x hx => List.mem_cons_of_mem _ (hinv.doneIndex x hx)
            doneMin := ?_
            doneReach := ?_
            idxCover := ?_ }
        · rw [lookupA_insertA, if_neg hmstart]
          exact hinv.distStart
        · intro x hx
          by_cases hxm : x = m
          · exact ⟨usizeMAX, by rw [lookupA_insertA, if_pos hxm.symm]⟩
          · rcases hinv.indexDist x (by
              rcases List.mem_cons.mp hx with hx | hx
              · exact absurd hx hxm
              · exact hx) with ⟨v, hv⟩
            exact ⟨v, by rw [lookupA_insertA, if_neg (fun he => hxm he.symm)]; exact hv⟩
        · intro x
          by_cases hxm : x = m
          · rw [hxm, hself]
          · rw [hne x hxm]
            exact hinv.distLeMAX x
        · intro e2 he2
          exact List.mem_cons_of_mem _ (hinv.heapIndex e2 he2)
        · intro e2 he2
          have hxm : e2.node ≠ m := fun he => him (he ▸ hinv.heapIndex e2 he2)
          rw [hne _ hxm]
          exact hinv.heapDistLe e2 he2
        · intro x hx c2 hr
          rw [hne x (fun he => hmdone (he ▸ hx))]
          exact hinv.doneMin x hx c2 hr
        · intro x hx
          rw [hne x (fun he => hmdone (he ▸ hx))]
          exact hinv.doneReach x hx
        · intro x hx
          by_cases hxm : x = m
          · exact Or.inr (Or.inr (by rw [hxm, hself]))
          · rcases hinv.idxCover x (by
              rcases List.mem_cons.mp hx with hx | hx
              · exact absurd hx hxm
              · exact hx) with hcov | hd | hmax
            · left
              rw [hne x hxm]
              exact hcov
            · exact Or.inr (Or.inl hd)
            · exact Or.inr (Or.inr (by rw [hne x hxm]; exact hmax))
      · intro x hx m2 hm2
        rcases hset x hx m2 hm2 with ⟨hi2, hl2⟩
        have hxm : x ≠ m := fun he => hmdone (he ▸ hsub hx)
        have hm2m : m2 ≠ m := fun he => him (he ▸ hi2)
        refine ⟨List.mem_cons_of_mem _ hi2, ?_⟩
        rw [hne x hxm, hne m2 hm2m]
        exact hl2
      · rw [hne n (Ne.symm hmn)]
        exact hnc
      · rw [hself]
        omega
      · intro x hx
        have hxm : x ≠ m := fun he => him (he ▸ hx)
        refine ⟨List.mem_cons_of_mem _ hx, ?_⟩
        rw [hne x hxm]
      · intro e2 he2
        exact he2

end DijkstraStep


section DijkstraFold

variable {α : Type} [LinearOrder α]

/-- Folding `relaxD` over any list of neighbors of the processed node
preserves the run invariant, keeps the processed node's distance fixed,
relaxes every neighbor in the list, and only grows index and heap while
lowering distances. -/
theorem foldl_relaxD_inv {g : SGraph α} {start : α} {done done0 : List α}
    {n : α} {c : Nat} (hreach : ReachCost g start n c) (hsub : done0 ⊆ done) :
    ∀ (ms : List α) (st : DState α), (∀ m ∈ ms, m ∈ g.moves n) →
      DInv g start st done → SettledOn g st done0 →
      n ∈ st.index → distOf st.dist n = c →
      (DInv g start (ms.foldl (relaxD g n c) st) done ∧
        SettledOn g (ms.foldl (relaxD g n c) st) done0) ∧
      (n ∈ (ms.foldl (relaxD g n c) st).index ∧
        distOf (ms.foldl (relaxD g n c) st).dist n = c) ∧
      (∀ m ∈ ms, m ∈ (ms.foldl (relaxD g n c) st).index ∧
        distOf (ms.foldl (relaxD g n c) st).dist m ≤ c + g.weight n m) ∧
      (∀ x ∈ st.index, x ∈ (ms.foldl (relaxD g n c) st).index ∧
        distOf (ms.foldl (relaxD g n c) st).dist x ≤ distOf st.dist x) ∧
      (∀ e ∈ st.heap, e ∈ (ms.foldl (relaxD g n c) st).heap) := by
  intro ms
  induction ms with
  | nil =>
    intro st hms hinv hset hn hnc
    exact ⟨⟨hinv, hset⟩, ⟨hn, hnc⟩, by simp, fun x hx => ⟨hx, le_refl _⟩,
      fun e2 he2 => he2⟩
  | cons m ms ih =>
    intro st hms hinv hset hn hnc
    rcases relaxD_step m hinv hset hsub hreach (hms m (List.mem_cons_self m ms)) hn hnc with
      ⟨⟨hinv1, hset1⟩, ⟨hn1, hnc1⟩, ⟨hm1, hmd1⟩, hmono1, hheap1⟩
    rcases ih (relaxD g n c st m) (fun x hx => hms x (List.mem_cons_of_mem m hx))
      hinv1 hset1 hn1 hnc1 with ⟨hinvF, hnF, hmsF, hmonoF, hheapF⟩
    rw [List.foldl_cons]
    refine ⟨hinvF, hnF, ?_, ?_, ?_⟩
    · intro x hx
      rcases List.mem_cons.mp hx with hx | hx
      · rcases hmonoF x (hx ▸ hm1) with ⟨hxi, hxd⟩
        exact ⟨hxi, le_trans hxd (hx ▸ hmd1)⟩
      · exact hmsF x hx
    · intro x hx
      rcases hmono1 x hx with ⟨hxi, hxd⟩
      rcases hmonoF x hxi with ⟨hxi2, hxd2⟩
      exact ⟨hxi2, le_trans hxd2 hxd⟩
    · intro e2 he2
      exact hheapF e2 (hheap1 e2 he2)

/-- Popping a stale entry (cost above the recorded distance) preserves the
run invariant; moreover the stale node is already processed, hence
settled. -/
theorem dinv_stale_step {g : SGraph α} {start : α} {st : DState α} {done : List α}
    {e : MinHeapState α} {rest : List (MinHeapState α)}
    (hinv : DInv g start st done) (hset : SettledOn g st done)
    (hpop : popMax st.heap = some (e, rest))
    (hstale : distOf st.dist e.node < e.cost) :
    (DInv g start { st with heap := rest } done ∧
      SettledOn g { st with heap := rest } done) ∧ e.node ∈ done := by
  have hperm := popMax_perm hpop
  have hrest : ∀ x ∈ rest, x ∈ st.heap := by
    intro x hx
    exact hperm.symm.subset (List.mem_cons_of_mem _ hx)
  have hdone : e.node ∈ done := by
    rcases hinv.idxCover e.node (hinv.heapIndex e (popMax_mem hpop)) with hcov | hd | hmax
    · have h2 : e.cost ≤ distOf st.dist e.node := popMax_cost_le hpop _ hcov
      omega
    · exact hd
    · have := hinv.heapCostLt e (popMax_mem hpop)
      omega
  refine ⟨⟨?_, hset⟩, hdone⟩
  refine
    { startIdx := hinv.startIdx
      distStart := hinv.distStart
      indexDist := hinv.indexDist
      distLeMAX := hinv.distLeMAX
      heapIndex := fun e2 he2 => hinv.heapIndex e2 (hrest e2 he2)
      heapDistLe := fun e2 he2 => hinv.heapDistLe e2 (hrest e2 he2)
      heapReach := fun e2 he2 => hinv.heapReach e2 (hrest e2 he2)
      heapCostLt := fun e2 he2 => hinv.heapCostLt e2 (hrest e2 he2)
      doneIndex := hinv.doneIndex
      doneMin := hinv.doneMin
      doneReach := hinv.doneReach
      idxCover := ?_ }
  intro x hx
  rcases hinv.idxCover x hx with hcov | hd | hmax
  · rcases List.mem_cons.mp (hperm.subset hcov) with hce | hcr
    · have hxn : x = e.node := congrArg MinHeapState.node hce
      have hxc : distOf st.dist x = e.cost := congrArg MinHeapState.cost hce
      rw [hxn] at hxc
      omega
    · exact Or.inl hcr
  · exact Or.inr (Or.inl hd)
  · exact Or.inr (Or.inr hmax)

/-- Processing a pop (goal test failed, entry not stale) preserves the run
invariant with the popped node added to the processed list. -/
theorem dinv_processed_step {g : SGraph α} {start : α} {st : DState α} {done : List α}
    {e : MinHeapState α} {rest : List (MinHeapState α)}
    (hinv : DInv g start st done) (hset : SettledOn g st done)
    (hpop : popMax st.heap = some (e, rest))
    (hnstale : ¬ distOf st.dist e.node < e.cost) :
    DInv g start
        ((g.moves e.node).foldl (relaxD g e.node e.cost) { st with heap := rest })
        (e.node :: done) ∧
      SettledOn g
        ((g.moves e.node).foldl (relaxD g e.node e.cost) { st with heap := rest })
        (e.node :: done) := by
  have hperm := popMax_perm hpop
  have hrest : ∀ x ∈ rest, x ∈ st.heap := by
    intro x hx
    exact hperm.symm.subset (List.mem_cons_of_mem _ hx)
  have hec : distOf st.dist e.node = e.cost :=
    le_antisymm (hinv.heapDistLe e (popMax_mem hpop)) (Nat.le_of_not_lt hnstale)
  have hreach_e : ReachCost g start e.node e.cost := hinv.heapReach e (popMax_mem hpop)
  have hmin : ∀ c2, ReachCost g start e.node c2 → e.cost ≤ c2 := by
    intro c2 h2
    rcases dijkstra_greedy hinv hset hpop e.node c2 h2 with ⟨_, hle⟩ | hle
    · rw [hec] at hle
      exact hle
    · exact hle
  have heidx : e.node ∈ st.index := hinv.heapIndex e (popMax_mem hpop)
  have hinv1 : DInv g start { st with heap := rest } (e.node :: done) :=
    { startIdx := hinv.startIdx
      distStart := hinv.distStart
      indexDist := hinv.indexDist
      distLeMAX := hinv.distLeMAX
      heapIndex := fun e2 he2 => hinv.heapIndex e2 (hrest e2 he2)
      heapDistLe := fun e2 he2 => hinv.heapDistLe e2 (hrest e2 he2)
      heapReach := fun e2 he2 => hinv.heapReach e2 (hrest e2 he2)
      heapCostLt := fun e2 he2 => hinv.heapCostLt e2 (hrest e2 he2)
      doneIndex := by
        intro x hx
        rcases List.mem_cons.mp hx with hx | hx
        · exact hx ▸ heidx
        · exact hinv.doneIndex x hx
      doneMin := by
        intro x hx c2 hr
        rcases List.mem_cons.mp hx with hx | hx
        · rw [hx, hec]
          exact hmin c2 (hx ▸ hr)
        · exact hinv.doneMin x hx c2 hr
      doneReach := by
        intro x hx
        rcases List.mem_cons.mp hx with hx | hx
        · rw [hx, hec]
          exact hreach_e
        · exact hinv.doneReach x hx
      idxCover := by
        intro x hx
        rcases hinv.idxCover x hx with hcov | hd | hmax
        · rcases List.mem_cons.mp (hperm.subset hcov) with hce | hcr
          · have hxn : x = e.node := congrArg MinHeapState.node hce
            exact Or.inr (Or.inl (by rw [hxn]; exact List.mem_cons_self _ _))
          · exact Or.inl hcr
        · exact Or.inr (Or.inl (List.mem_cons_of_mem _ hd))
        · exact Or.inr (Or.inr hmax) }
  rcases foldl_relaxD_inv hreach_e (fun x hx => List.mem_cons_of_mem _ hx) (g.moves e.node)
    { st with heap := rest } (fun m hm => hm) hinv1 hset heidx hec with
    ⟨⟨hinvF, hsetF⟩, ⟨hnF, hncF⟩, hmsF, hmonoF, hheapF⟩
  refine ⟨hinvF, ?_⟩
  intro x hx m2 hm2
  rcases List.mem_cons.mp hx with hx | hx
  · rcases hmsF m2 (hx ▸ hm2) with ⟨hmi, hmd⟩
    refine ⟨hmi, ?_⟩
    rw [hx, hncF]
    exact hmd
  · exact hsetF x hx m2 hm2

end DijkstraFold

section DijkstraRun

variable {α : Type} [LinearOrder α]

theorem dijkstraGoT_succ_none {g : SGraph α} {start : α} {f : Nat} {st : DState α}
    {done : List α} (h : popMax st.heap = none) :
    dijkstraGoT g start (f + 1) st done = some (none, done.reverse) := by
  rw [dijkstraGoT, h]

theorem dijkstraGoT_succ_pop {g : SGraph α} {start : α} {f : Nat} {st : DState α}
    {done : List α} {e : MinHeapState α} {rest : List (MinHeapState α)}
    (h : popMax st.heap = some (e, rest)) :
    dijkstraGoT g start (f + 1) st done =
      if g.isDone e.node then
        some (some (st.dist, get_path st.pm e.node start), done.reverse)
      else if distOf st.dist e.node < e.cost then
        dijkstraGoT g start f { st with heap := rest } done
      else
        dijkstraGoT g start f
          ((g.moves e.node).foldl (relaxD g e.node e.cost) { st with heap := rest })
          (e.node :: done) := by
  rw [dijkstraGoT, h]

theorem dijkstraGo_succ_none {g : SGraph α} {start : α} {f : Nat} {st : DState α}
    (h : popMax st.heap = none) : dijkstraGo g start (f + 1) st = some none := by
  rw [dijkstraGo, h]

theorem dijkstraGo_succ_pop {g : SGraph α} {start : α} {f : Nat} {st : DState α}
    {e : MinHeapState α} {rest : List (MinHeapState α)}
    (h : popMax st.heap = some (e, rest)) :
    dijkstraGo g start (f + 1) st =
      if g.isDone e.node then some (some (st.dist, get_path st.pm e.node start))
      else if distOf st.dist e.node < e.cost then
        dijkstraGo g start f { st with heap := rest }
      else
        dijkstraGo g start f
          ((g.moves e.node).foldl (relaxD g e.node e.cost) { st with heap := rest }) := by
  rw [dijkstraGo, h]

theorem aStarGo_succ_none {g : SGraph α} {h : α → Nat} {start : α} {f : Nat}
    {st : DState α} (hp : popMax st.heap = none) :
    aStarGo g h start (f + 1) st = some none := by
  rw [aStarGo, hp]

theorem aStarGo_succ_pop {g : SGraph α} {h : α → Nat} {start : α} {f : Nat}
    {st : DState α} {e : MinHeapState α} {rest : List (MinHeapState α)}
    (hp : popMax st.heap = some (e, rest)) :
    aStarGo g h start (f + 1) st =
      if g.isDone e.node then some (some (st.dist, get_path st.pm e.node start))
      else
        aStarGo g h start f
          ((g.moves e.node).foldl (relaxA g h e.node) { st with heap := rest }) := by
  rw [aStarGo, hp]

/-- The initial state of `dijkstra` satisfies the run invariant with an empty
processed list. -/
theorem dinv_init (g : SGraph α) (start : α) :
    DInv g start (dijkstraInit start) [] ∧ SettledOn g (dijkstraInit start) [] := by
  have hpos : 0 < usizeMAX := by norm_num [usizeMAX]
  have hlook : ∀ n : α, lookupA [(start, (0 : Nat))] n
      = if start = n then some 0 else none := by
    intro n
    rw [lookupA]
    by_cases h : start = n
    · rw [if_pos h, if_pos h]
    · rw [if_neg h, if_neg h]
      rfl
  simp only [dijkstraInit]
  constructor
  · refine
      { startIdx := List.mem_cons_self _ _
        distStart := by rw [hlook, if_pos rfl]
        indexDist := ?_
        distLeMAX := ?_
        heapIndex := ?_
        heapDistLe := ?_
        heapReach := ?_
        heapCostLt := ?_
        doneIndex := fun x hx => absurd hx (List.not_mem_nil x)
        doneMin := fun x hx => absurd hx (List.not_mem_nil x)
        doneReach := fun x hx => absurd hx (List.not_mem_nil x)
        idxCover := ?_ }
    · intro x hx
      rcases List.mem_cons.mp hx with hx | hx
      · exact ⟨0, by rw [hx, hlook, if_pos rfl]⟩
      · exact absurd hx (List.not_mem_nil x)
    · intro n
      rw [distOf, hlook]
      by_cases h : start = n
      · rw [if_pos h]
        exact le_of_lt hpos
      · rw [if_neg h]
        exact le_of_lt hpos
    · intro e he
      rcases List.mem_cons.mp he with he | he
      · rw [he]
        exact List.mem_cons_self _ _
      · exact absurd he (List.not_mem_nil e)
    · intro e he
      rcases List.mem_cons.mp he with he | he
      · rw [he, distOf, hlook, if_pos rfl]
        exact Nat.zero_le _
      · exact absurd he (List.not_mem_nil e)
    · intro e he
      rcases List.mem_cons.mp he with he | he
      · rw [he]
        exact ReachCost.refl
      · exact absurd he (List.not_mem_nil e)
    · intro e he
      rcases List.mem_cons.mp he with he | he
      · rw [he]
        exact hpos
      · exact absurd he (List.not_mem_nil e)
    · intro x hx
      rcases List.mem_cons.mp hx with hx | hx
      · left
        rw [hx]
        have : distOf [(start, (0 : Nat))] start = 0 := by
          rw [distOf, hlook, if_pos rfl]
          rfl
        rw [this]
        exact List.mem_cons_self _ _
      · exact absurd hx (List.not_mem_nil x)
  · intro x hx
    exact absurd hx (List.not_mem_nil x)

/-- Along any fueled run of the instrumented `dijkstra` loop that returns
success, every node of the processing trace carries in the returned distance
map the exact minimum cost over all finite paths from the start. -/
theorem dijkstraGoT_correct {g : SGraph α} {start : α} :
    ∀ (fuel : Nat) (st : DState α) (done : List α)
      (d : List (α × Nat)) (p : List α) (trace : List α),
      DInv g start st done → SettledOn g st done →
      dijkstraGoT g start fuel st done = some (some (d, p), trace) →
      ∀ n ∈ trace, ReachCost g start n (distOf d n) ∧
        ∀ c2, ReachCost g start n c2 → distOf d n ≤ c2 := by
  intro fuel
  induction fuel with
  | zero =>
    intro st done d p trace _ _ hrun
    exact absurd hrun (by rw [dijkstraGoT]; exact fun h => Option.noConfusion h)
  | succ f ih =>
    intro st done d p trace hinv hset hrun
    cases hpop : popMax st.heap with
    | none =>
      rw [dijkstraGoT_succ_none hpop] at hrun
      simp at hrun
    | some pr =>
      obtain ⟨e, rest⟩ := pr
      rw [dijkstraGoT_succ_pop hpop] at hrun
      by_cases hd : g.isDone e.node
      · rw [if_pos hd] at hrun
        simp only [Option.some.injEq, Prod.mk.injEq] at hrun
        obtain ⟨⟨hd1, -⟩, ht1⟩ := hrun
        intro n hn
        rw [← ht1] at hn
        have hnd : n ∈ done := List.mem_reverse.mp hn
        rw [← hd1]
        exact ⟨hinv.doneReach n hnd, hinv.doneMin n hnd⟩
      · rw [if_neg hd] at hrun
        by_cases hs : distOf st.dist e.node < e.cost
        · rw [if_pos hs] at hrun
          rcases dinv_stale_step hinv hset hpop hs with ⟨⟨hinv2, hset2⟩, -⟩
          exact ih _ _ d p trace hinv2 hset2 hrun
        · rw [if_neg hs] at hrun
          rcases dinv_processed_step hinv hset hpop hs with ⟨hinv2, hset2⟩
          exact ih _ _ d p trace hinv2 hset2 hrun

end DijkstraRun

/-- **C1** (confirmed).  Whenever `dijkstra` pops and processes a node (the
processing trace of the instrumented run records exactly those pops that
survive the goal test and the staleness check), the returned distance map's
entry for that node equals the minimum cost over all finite paths from the
start: the entry's value is realized by some path and is a lower bound of
every path cost.  Edge weights are `usize`, hence non-negative by type. -/
theorem c1_dijkstra_processed_optimal {α : Type} [LinearOrder α] (g : SGraph α)
    (start : α) (fuel : Nat) (d : List (α × Nat)) (p : List α) (trace : List α)
    (hrun : dijkstraT g start fuel = some (some (d, p), trace)) :
    dijkstra g start fuel = some (some (d, p)) ∧
    ∀ n ∈ trace, ReachCost g start n (distOf d n) ∧
      ∀ c2, ReachCost g start n c2 → distOf d n ≤ c2 := by
  constructor
  · rw [← dijkstraT_fst, hrun]
    rfl
  · exact dijkstraGoT_correct fuel _ [] d p trace (dinv_init g start).1
      (dinv_init g start).2 hrun

/-- The directed example graph of the repository's own `dijkstra` unit test:
nodes `0..4`, edges `0→2(10), 0→1(1), 1→3(2), 2→1(1), 2→3(3), 2→4(1),
3→0(7), 3→4(2)`, goal node `0`. -/
def exG1 : SGraph Nat :=
  { height := 3
    width := 4
    moves := fun n =>
      if n = 0 then [2, 1] else if n = 1 then [3]
      else if n = 2 then [1, 3, 4] else if n = 3 then [0, 4] else []
    isDone := fun n => n == 0
    weight := fun c n =>
      if c = 0 then (if n = 2 then 10 else 1)
      else if c = 1 then 2
      else if c = 2 then (if n = 1 then 1 else if n = 3 then 3 else 1)
      else if c = 3 then (if n = 0 then 7 else 2) else 0 }

/-- The distance map `dijkstra` computes on `exG1` from start `3`. -/
def dC1 : List (Nat × Nat) := [(4, 2), (0, 7), (3, 0)]

/-- Witness for `c1_dijkstra_processed_optimal` on the repository's own test
graph: from start `3` the run processes `3` and `4` and the reported costs
`0` and `2` are optimal; the goal cost is `7` with path `[3, 0]`, matching
the unit test. -/
theorem c1_dijkstra_processed_optimal_witness :
    dijkstra exG1 3 20 = some (some (dC1, [3, 0])) ∧
    ∀ n ∈ [3, 4], ReachCost exG1 3 n (distOf dC1 n) ∧
      ∀ c2, ReachCost exG1 3 n c2 → distOf dC1 n ≤ c2 :=
  c1_dijkstra_processed_optimal exG1 3 20 dC1 [3, 0] [3, 4] (by decide)

section AStarZero

variable {α : Type} [LinearOrder α]

/-- `relaxD` never disturbs the processed node's own distance entry (its
tentative self-cost can never strictly improve on it). -/
theorem relaxD_keeps_n {g : SGraph α} {st : DState α} {n : α} {c : Nat} (m : α)
    (hn : n ∈ st.index) (hnc : distOf st.dist n = c) :
    n ∈ (relaxD g n c st m).index ∧ distOf (relaxD g n c st m).dist n = c := by
  by_cases him : m ∈ st.index
  · by_cases hlt : c + g.weight n m < distOf st.dist m
    · rw [relaxD_eq_of_mem_improve him hlt]
      have hmn : m ≠ n := by
        intro he
        rw [he, hnc] at hlt
        omega
      exact ⟨hn, by rw [distOf_insertA_ne _ _ _ _ hmn]; exact hnc⟩
    · rw [relaxD_eq_of_mem_no_improve him hlt]
      exact ⟨hn, hnc⟩
  · have hmn : m ≠ n := fun he => him (he ▸ hn)
    by_cases hlt : c + g.weight n m < usizeMAX
    · rw [relaxD_eq_of_fresh_improve him hlt]
      refine ⟨List.mem_cons_of_mem _ hn, ?_⟩
      rw [distOf_insertA_ne _ _ _ _ hmn, distOf_insertA_ne _ _ _ _ hmn]
      exact hnc
    · rw [relaxD_eq_of_fresh_no_improve him hlt]
      refine ⟨List.mem_cons_of_mem _ hn, ?_⟩
      rw [distOf_insertA_ne _ _ _ _ hmn]
      exact hnc

/-- With the zero heuristic, one `a_star` relaxation step is exactly one
`dijkstra` relaxation step, because the popped cost `c` that `dijkstra`
uses equals the `dist` entry that `a_star` reads back. -/
theorem relaxA_zero_eq_relaxD {g : SGraph α} {st : DState α} {n : α} {c : Nat} (m : α)
    (hn : n ∈ st.index) (hnc : distOf st.dist n = c) :
    relaxA g (fun _ => 0) n st m = relaxD g n c st m := by
  unfold relaxA relaxD
  by_cases him : m ∈ st.index
  · simp only [if_pos him, hnc, Nat.add_zero]
  · simp only [if_neg him, Nat.add_zero]
    rw [distOf_insertA_ne st.dist m usizeMAX n (fun he => him (he ▸ hn)), hnc]

theorem foldl_relaxA_zero_eq {g : SGraph α} {n : α} {c : Nat} :
    ∀ (ms : List α) (st : DState α), n ∈ st.index → distOf st.dist n = c →
      ms.foldl (relaxA g (fun _ => 0) n) st = ms.foldl (relaxD g n c) st := by
  intro ms
  induction ms with
  | nil => intro st _ _; rfl
  | cons m ms ih =>
    intro st hn hnc
    rw [List.foldl_cons, List.foldl_cons, relaxA_zero_eq_relaxD m hn hnc]
    rcases relaxD_keeps_n m hn hnc with ⟨hn2, hnc2⟩
    exact ih _ hn2 hnc2

/-- On any invariant-satisfying state, the `a_star` loop with the zero
heuristic computes exactly the `dijkstra` loop: stale pops are no-ops for
`a_star` and discarded by `dijkstra`, and processed pops relax
identically. -/
theorem aStarGo_zero_eq_dijkstraGo {g : SGraph α} {start : α} :
    ∀ (fuel : Nat) (st : DState α) (done : List α),
      DInv g start st done → SettledOn g st done →
      aStarGo g (fun _ => 0) start fuel st = dijkstraGo g start fuel st := by
  intro fuel
  induction fuel with
  | zero => intro st done _ _; rfl
  | succ f ih =>
    intro st done hinv hset
    cases hpop : popMax st.heap with
    | none => rw [aStarGo_succ_none hpop, dijkstraGo_succ_none hpop]
    | some pr =>
      obtain ⟨e, rest⟩ := pr
      rw [aStarGo_succ_pop hpop, dijkstraGo_succ_pop hpop]
      by_cases hd : g.isDone e.node
      · rw [if_pos hd, if_pos hd]
      · rw [if_neg hd, if_neg hd]
        by_cases hs : distOf st.dist e.node < e.cost
        · rw [if_pos hs]
          rcases dinv_stale_step hinv hset hpop hs with ⟨⟨hinv2, hset2⟩, hdone⟩
          have hnoop : (g.moves e.node).foldl (relaxA g (fun _ => 0) e.node)
              { st with heap := rest } = { st with heap := rest } := by
            apply foldl_relaxA_unchanged
            intro m hm
            exact hset e.node hdone m hm
          rw [hnoop]
          exact ih _ done hinv2 hset2
        · rw [if_neg hs]
          have hec : distOf st.dist e.node = e.cost :=
            le_antisymm (hinv.heapDistLe e (popMax_mem hpop)) (Nat.le_of_not_lt hs)
          have heidx : e.node ∈ st.index := hinv.heapIndex e (popMax_mem hpop)
          rw [foldl_relaxA_zero_eq (g.moves e.node) { st with heap := rest } heidx hec]
          rcases dinv_processed_step hinv hset hpop hs with ⟨hinv2, hset2⟩
          exact ih _ (e.node :: done) hinv2 hset2

end AStarZero

/-- **C6** (confirmed).  With the constant-zero heuristic, `a_star` computes
exactly what `dijkstra` computes, at every fuel, on every graph (edge
weights are `usize`, hence non-negative): in particular it returns success
precisely when `dijkstra` does, with the identical distance map (hence the
identical optimal cost to the goal node reached) and the identical path. -/
theorem c6_a_star_zero_heuristic_eq_dijkstra {α : Type} [LinearOrder α]
    (g : SGraph α) (start : α) (fuel : Nat) :
    a_star g start (fun _ => 0) fuel = dijkstra g start fuel := by
  rw [a_star, dijkstra]
  have hinit : aStarInit (fun _ => (0 : Nat)) start = dijkstraInit start := rfl
  rw [hinit]
  exact aStarGo_zero_eq_dijkstraGo fuel _ [] (dinv_init g start).1 (dinv_init g start).2

section NotFound

variable {α : Type} [LinearOrder α]

theorem dfsGo_succ_nil (g : SGraph α) (start : α) (f : Nat) (pm : List (α × α)) :
    dfsGo g start (f + 1) pm [] = some none := rfl

theorem dfsGo_succ_cons (g : SGraph α) (start : α) (f : Nat) (pm : List (α × α))
    (n : α) (rest : List α) :
    dfsGo g start (f + 1) pm (n :: rest) =
      if containsA pm n then dfsGo g start f pm rest
      else if g.isDone n then some (some (get_path pm n start))
      else
        dfsGo g start f
          ((g.moves n).foldl
            (fun (s : List α × List (α × α)) m => (m :: s.1, insertA s.2 m n)) (rest, pm)).2
          ((g.moves n).foldl
            (fun (s : List α × List (α × α)) m => (m :: s.1, insertA s.2 m n)) (rest, pm)).1 := rfl

theorem bfsGo_succ_nil (g : SGraph α) (start : α) (f : Nat) (pm : List (α × α)) :
    bfsGo g start (f + 1) pm [] = some none := rfl

theorem bfsGo_succ_cons (g : SGraph α) (start : α) (f : Nat) (pm : List (α × α))
    (n : α) (rest : List α) :
    bfsGo g start (f + 1) pm (n :: rest) =
      if g.isDone n then some (some (get_path pm n start))
      else
        bfsGo g start f
          ((g.moves n).foldl
            (fun (s : List α × List (α × α)) m =>
              if containsA s.2 m then s else (s.1 ++ [m], insertA s.2 m n)) (rest, pm)).2
          ((g.moves n).foldl
            (fun (s : List α × List (α × α)) m =>
              if containsA s.2 m then s else (s.1 ++ [m], insertA s.2 m n)) (rest, pm)).1 := rfl

/-- Once every stacked node is a key of the `path` map, `dfs` drains the
stack by skipping and reports "not found". -/
theorem dfsGo_drain (g : SGraph α) (start : α) :
    ∀ (stack : List α) (pm : List (α × α)),
      (∀ x ∈ stack, containsA pm x = true) →
      dfsGo g start (stack.length + 1) pm stack = some none := by
  intro stack
  induction stack with
  | nil => intro pm _; rfl
  | cons n rest ih =>
    intro pm hall
    rw [List.length_cons, dfsGo_succ_cons, if_pos (hall n (List.mem_cons_self n rest))]
    exact ih pm (fun x hx => hall x (List.mem_cons_of_mem n hx))

/-- The `dfs` push loop: all pushed nodes come from the move list or the old
stack, every pushed move becomes a key of the map, old keys persist, and the
stack length grows by the number of moves. -/
theorem dfs_fold_spec (n : α) :
    ∀ (ms : List α) (s0 : List α) (pm0 : List (α × α)),
      (∀ x ∈ (ms.foldl
          (fun (s : List α × List (α × α)) m => (m :: s.1, insertA s.2 m n)) (s0, pm0)).1,
        x ∈ s0 ∨ x ∈ ms) ∧
      (∀ x ∈ ms, containsA (ms.foldl
          (fun (s : List α × List (α × α)) m => (m :: s.1, insertA s.2 m n)) (s0, pm0)).2 x = true) ∧
      (∀ x, containsA pm0 x = true → containsA (ms.foldl
          (fun (s : List α × List (α × α)) m => (m :: s.1, insertA s.2 m n)) (s0, pm0)).2 x = true) ∧
      (ms.foldl
          (fun (s : List α × List (α × α)) m => (m :: s.1, insertA s.2 m n)) (s0, pm0)).1.length
        = s0.length + ms.length := by
  intro ms
  induction ms with
  | nil =>
    intro s0 pm0
    exact ⟨fun x hx => Or.inl hx, by simp, fun x hx => hx, rfl⟩
  | cons m ms ih =>
    intro s0 pm0
    rw [List.foldl_cons]
    rcases ih (m :: s0) (insertA pm0 m n) with ⟨h1, h2, h3, h4⟩
    have hcm : ∀ pm2 : List (α × α),
        (∀ x, containsA (insertA pm0 m n) x = true → containsA pm2 x = true) →
        containsA pm2 m = true := by
      intro pm2 hsub
      apply hsub
      rw [containsA, lookupA_insertA, if_pos rfl]
      rfl
    refine ⟨?_, ?_, ?_, ?_⟩
    · intro x hx
      rcases h1 x hx with hx2 | hx2
      · rcases List.mem_cons.mp hx2 with hx3 | hx3
        · exact Or.inr (hx3 ▸ List.mem_cons_self m ms)
        · exact Or.inl hx3
      · exact Or.inr (List.mem_cons_of_mem m hx2)
    · intro x hx
      rcases List.mem_cons.mp hx with hx2 | hx2
      · rw [hx2]
        exact hcm _ h3
      · exact h2 x hx2
    · intro x hx
      apply h3
      rw [containsA, lookupA_insertA]
      by_cases he : m = x
      · rw [if_pos he]
        rfl
      · rw [if_neg he]
        exact hx
    · rw [h4]
      simp only [List.length_cons]
      omega

/-- `dfs` reports "not found" whenever the start node fails the goal test:
after expanding the start, every stacked node is already a key of the map
and is skipped.  (This is the dfs visited-at-push bug; it also settles the
disconnected-goal case.) -/
theorem dfs_not_found (g : SGraph α) (start : α) (hd : g.isDone start = false) :
    dfs g start ((g.moves start).length + 2) = some none := by
  rw [dfs]
  have hstep : dfsGo g start ((g.moves start).length + 1 + 1) [] [start]
      = dfsGo g start ((g.moves start).length + 1)
        ((g.moves start).foldl
          (fun (s : List α × List (α × α)) m => (m :: s.1, insertA s.2 m start)) ([], [])).2
        ((g.moves start).foldl
          (fun (s : List α × List (α × α)) m => (m :: s.1, insertA s.2 m start)) ([], [])).1 := by
    rw [dfsGo_succ_cons]
    rw [if_neg (by rw [containsA]; exact fun h => Bool.noConfusion h), if_neg (by rw [hd]; exact fun h => Bool.noConfusion h)]
  rw [show (g.moves start).length + 2 = (g.moves start).length + 1 + 1 from rfl, hstep]
  rcases dfs_fold_spec start (g.moves start) [] [] with ⟨h1, h2, -, h4⟩
  have hlen : ((g.moves start).foldl
      (fun (s : List α × List (α × α)) m => (m :: s.1, insertA s.2 m start)) ([], [])).1.length
      = (g.moves start).length := by
    rw [h4]
    simp
  rw [← hlen]
  apply dfsGo_drain
  intro x hx
  rcases h1 x hx with hx2 | hx2
  · exact absurd hx2 (List.not_mem_nil x)
  · exact h2 x hx2

end NotFound

section BfsTermination

variable {α : Type} [LinearOrder α]

theorem not_containsA_not_mem_keys {β : Type} [DecidableEq α] {pm : List (α × β)} {x : α}
    (h : ¬ containsA pm x = true) : x ∉ keysA pm := by
  intro hmem
  rcases mem_keys_lookupA hmem with ⟨v, hv⟩
  rw [containsA, hv] at h
  exact h rfl

/-- Termination measure for the `bfs` loop over a closed node list `R`. -/
def bfsMeasure [DecidableEq α] (R : List α) (pm : List (α × α)) (queue : List α) : Nat :=
  queue.length + 2 * (R.toFinset.filter (fun x => x ∉ keysA pm)).card

/-- The `bfs` push loop only enqueues nodes of `R` and cannot increase
`queue length + 2 · undiscovered`. -/
theorem bfs_fold_measure (g : SGraph α) (n : α) (R : List α) :
    ∀ (ms : List α) (s0 : List α) (pm0 : List (α × α)), (∀ m ∈ ms, m ∈ R) →
      (∀ x ∈ s0, x ∈ R) →
      (∀ x ∈ (ms.foldl
          (fun (s : List α × List (α × α)) m =>
            if containsA s.2 m then s else (s.1 ++ [m], insertA s.2 m n)) (s0, pm0)).1, x ∈ R) ∧
      ((ms.foldl
          (fun (s : List α × List (α × α)) m =>
            if containsA s.2 m then s else (s.1 ++ [m], insertA s.2 m n)) (s0, pm0)).1.length
        + 2 * (R.toFinset.filter (fun x => x ∉ keysA (ms.foldl
            (fun (s : List α × List (α × α)) m =>
              if containsA s.2 m then s else (s.1 ++ [m], insertA s.2 m n)) (s0, pm0)).2)).card
        ≤ s0.length + 2 * (R.toFinset.filter (fun x => x ∉ keysA pm0)).card) := by
  intro ms
  induction ms with
  | nil =>
    intro s0 pm0 _ hs0
    exact ⟨hs0, le_refl _⟩
  | cons m ms ih =>
    intro s0 pm0 hms hs0
    rw [List.foldl_cons]
    by_cases hc : containsA pm0 m = true
    · rw [if_pos hc]
      exact ih s0 pm0 (fun x hx => hms x (List.mem_cons_of_mem m hx)) hs0
    · rw [if_neg hc]
      have hmR : m ∈ R := hms m (List.mem_cons_self m ms)
      have hmk : m ∉ keysA pm0 := not_containsA_not_mem_keys hc
      rcases ih (s0 ++ [m]) (insertA pm0 m n)
        (fun x hx => hms x (List.mem_cons_of_mem m hx))
        (by
          intro x hx
          rcases List.mem_append.mp hx with hx | hx
          · exact hs0 x hx
          · rw [List.mem_singleton.mp hx]
            exact hmR) with ⟨h1, h2⟩
      refine ⟨h1, le_trans h2 ?_⟩
      have hfilter : R.toFinset.filter (fun x => x ∉ keysA (insertA pm0 m n))
          = (R.toFinset.filter (fun x => x ∉ keysA pm0)).erase m := by
        ext x
        simp only [Finset.mem_filter, Finset.mem_erase, mem_keysA_insertA]
        constructor
        · rintro ⟨hxR, hxk⟩
          push_neg at hxk
          exact ⟨hxk.1, hxR, hxk.2⟩
        · rintro ⟨hxm, hxR, hxk⟩
          refine ⟨hxR, ?_⟩
          push_neg
          exact ⟨hxm, hxk⟩
      have hmmem : m ∈ R.toFinset.filter (fun x => x ∉ keysA pm0) := by
        rw [Finset.mem_filter]
        exact ⟨List.mem_toFinset.mpr hmR, by simpa using hmk⟩
      rw [hfilter, Finset.card_erase_of_mem hmmem, List.length_append]
      have hpos : 0 < (R.toFinset.filter (fun x => x ∉ keysA pm0)).card :=
        Finset.card_pos.mpr ⟨m, hmmem⟩
      simp only [List.length_singleton]
      omega

/-- The `bfs` loop terminates with "not found" on a closed goal-free node
list. -/
theorem bfsGo_terminates (g : SGraph α) (start : α) (R : List α)
    (hclosed : ∀ n ∈ R, ∀ m ∈ g.moves n, m ∈ R)
    (hnogoal : ∀ n ∈ R, g.isDone n = false) :
    ∀ (k : Nat) (pm : List (α × α)) (queue : List α),
      (∀ x ∈ queue, x ∈ R) → bfsMeasure R pm queue ≤ k →
      bfsGo g start (k + 1) pm queue = some none := by
  intro k
  induction k using Nat.strong_induction_on with
  | _ k ih =>
    intro pm queue hq hm
    cases queue with
    | nil => exact bfsGo_succ_nil g start k pm
    | cons n rest =>
      have hnR : n ∈ R := hq n (List.mem_cons_self n rest)
      rw [bfsGo_succ_cons,
        if_neg (by rw [hnogoal n hnR]; exact fun h => Bool.noConfusion h)]
      rcases bfs_fold_measure g n R (g.moves n) rest pm
        (fun m hmv => hclosed n hnR m hmv)
        (fun x hx => hq x (List.mem_cons_of_mem n hx)) with ⟨h1, h2⟩
      have hk : 1 ≤ k := by
        have : 1 ≤ bfsMeasure R pm (n :: rest) := by
          rw [bfsMeasure, List.length_cons]
          omega
        omega
      obtain ⟨k2, rfl⟩ : ∃ k2, k = k2 + 1 := ⟨k - 1, by omega⟩
      apply ih k2 (by omega)
      · exact h1
      · rw [bfsMeasure]
        rw [bfsMeasure, List.length_cons] at hm
        omega

end BfsTermination

section WeightedTermination

variable {α : Type} [LinearOrder α]

/-- The remaining-improvement potential of a node: its `dist` entry, or
`usize::MAX` while undiscovered. -/
def potOf [DecidableEq α] (dist : List (α × Nat)) (x : α) : Nat :=
  (lookupA dist x).getD usizeMAX

theorem potOf_insertA_self [DecidableEq α] (d : List (α × Nat)) (k : α) (v : Nat) :
    potOf (insertA d k v) k = v := by
  rw [potOf, lookupA_insertA, if_pos rfl]
  rfl

theorem potOf_insertA_ne [DecidableEq α] (d : List (α × Nat)) (k : α) (v : Nat)
    (x : α) (hx : k ≠ x) : potOf (insertA d k v) x = potOf d x := by
  rw [potOf, lookupA_insertA, if_neg hx]
  rfl

/-- Exchanging one node's potential inside the summed measure. -/
theorem sum_potOf_update (R : List α) (d d2 : List (α × Nat)) (m : α)
    (hmR : m ∈ R.toFinset) (hne : ∀ x, x ≠ m → potOf d2 x = potOf d x) :
    (R.toFinset.sum fun x => potOf d2 x) + potOf d m
      = (R.toFinset.sum fun x => potOf d x) + potOf d2 m := by
  have h1 : R.toFinset.sum (fun x => potOf d2 x)
      = (R.toFinset.erase m).sum (fun x => potOf d x) + potOf d2 m := by
    rw [← Finset.sum_erase_add _ _ hmR]
    congr 1
    exact Finset.sum_congr rfl (fun x hx => hne x (Finset.mem_erase.mp hx).1)
  have h2 : R.toFinset.sum (fun x => potOf d x)
      = (R.toFinset.erase m).sum (fun x => potOf d x) + potOf d m :=
    (Finset.sum_erase_add _ _ hmR).symm
  omega

/-- The small invariant needed for termination of the weighted searches. -/
structure TInv (R : List α) (st : DState α) : Prop where
  idxR : ∀ x ∈ st.index, x ∈ R
  heapIdx : ∀ e ∈ st.heap, e.node ∈ st.index
  noneOut : ∀ x, x ∉ st.index → lookupA st.dist x = none

/-- Termination measure of the weighted searches: pending heap entries plus
the total remaining improvement potential over the closed node list. -/
def dMeasure [DecidableEq α] (R : List α) (st : DState α) : Nat :=
  st.heap.length + (R.toFinset.sum fun x => potOf st.dist x)

theorem relaxD_measure (g : SGraph α) (R : List α) (n : α) (c : Nat)
    (st : DState α) (m : α) (hinv : TInv R st) (hmR : m ∈ R) :
    TInv R (relaxD g n c st m) ∧
      dMeasure R (relaxD g n c st m) ≤ dMeasure R st := by
  by_cases him : m ∈ st.index
  · by_cases hlt : c + g.weight n m < distOf st.dist m
    · rw [relaxD_eq_of_mem_improve him hlt]
      have hlook : ∃ v, lookupA st.dist m = some v := by
        cases hl : lookupA st.dist m with
        | none =>
          rw [distOf, hl] at hlt
          exact absurd hlt (by simp)
        | some v => exact ⟨v, rfl⟩
      rcases hlook with ⟨v, hv⟩
      have hpot : potOf st.dist m = distOf st.dist m := by
        rw [potOf, distOf, hv]
        rfl
      constructor
      · refine
          { idxR := hinv.idxR
            heapIdx := ?_
            noneOut := ?_ }
        · intro e he
          rcases List.mem_cons.mp he with he | he
          · rw [he]
            exact him
          · exact hinv.heapIdx e he
        · intro x hx
          rw [lookupA_insertA, if_neg (fun he => hx (by rw [← he]; exact him))]
          exact hinv.noneOut x hx
      · simp only [dMeasure, List.length_cons]
        have hupd := sum_potOf_update R st.dist
          (insertA st.dist m (c + g.weight n m)) m (List.mem_toFinset.mpr hmR)
          (fun x hx => potOf_insertA_ne _ _ _ _ (Ne.symm hx))
        rw [potOf_insertA_self] at hupd
        omega
    · rw [relaxD_eq_of_mem_no_improve him hlt]
      exact ⟨hinv, le_refl _⟩
  · have hnone : lookupA st.dist m = none := hinv.noneOut m him
    have hpotm : potOf st.dist m = usizeMAX := by
      rw [potOf, hnone]
      rfl
    by_cases hlt : c + g.weight n m < usizeMAX
    · rw [relaxD_eq_of_fresh_improve him hlt]
      constructor
      · refine
          { idxR := ?_
            heapIdx := ?_
            noneOut := ?_ }
        · intro x hx
          rcases List.mem_cons.mp hx with hx | hx
          · exact hx ▸ hmR
          · exact hinv.idxR x hx
        · intro e he
          rcases List.mem_cons.mp he with he | he
          · rw [he]
            exact List.mem_cons_self _ _
          · exact List.mem_cons_of_mem _ (hinv.heapIdx e he)
        · intro x hx
          have hxm : x ≠ m := fun he => hx (by rw [he]; exact List.mem_cons_self m st.index)
          have hxi : x ∉ st.index := fun hxi => hx (List.mem_cons_of_mem _ hxi)
          rw [lookupA_insertA, if_neg (fun he => hxm he.symm),
            lookupA_insertA, if_neg (fun he => hxm he.symm)]
          exact hinv.noneOut x hxi
      · simp only [dMeasure, List.length_cons]
        have hupd := sum_potOf_update R st.dist
          (insertA (insertA st.dist m usizeMAX) m (c + g.weight n m)) m
          (List.mem_toFinset.mpr hmR)
          (fun x hx => by
            rw [potOf_insertA_ne _ _ _ _ (Ne.symm hx), potOf_insertA_ne _ _ _ _ (Ne.symm hx)])
        rw [potOf_insertA_self, hpotm] at hupd
        omega
    · rw [relaxD_eq_of_fresh_no_improve him hlt]
      constructor
      · refine
          { idxR := ?_
            heapIdx := ?_
            noneOut := ?_ }
        · intro x hx
          rcases List.mem_cons.mp hx with hx | hx
          · exact hx ▸ hmR
          · exact hinv.idxR x hx
        · intro e he
          exact List.mem_cons_of_mem _ (hinv.heapIdx e he)
        · intro x hx
          have hxm : x ≠ m := fun he => hx (by rw [he]; exact List.mem_cons_self m st.index)
          have hxi : x ∉ st.index := fun hxi => hx (List.mem_cons_of_mem _ hxi)
          rw [lookupA_insertA, if_neg (fun he => hxm he.symm)]
          exact hinv.noneOut x hxi
      · simp only [dMeasure]
        have hupd := sum_potOf_update R st.dist (insertA st.dist m usizeMAX) m
          (List.mem_toFinset.mpr hmR)
          (fun x hx => potOf_insertA_ne _ _ _ _ (Ne.symm hx))
        rw [potOf_insertA_self, hpotm] at hupd
        omega

theorem foldl_relaxD_measure (g : SGraph α) (R : List α) (n : α) (c : Nat) :
    ∀ (ms : List α) (st : DState α), TInv R st → (∀ m ∈ ms, m ∈ R) →
      TInv R (ms.foldl (relaxD g n c) st) ∧
        dMeasure R (ms.foldl (relaxD g n c) st) ≤ dMeasure R st := by
  intro ms
  induction ms with
  | nil => intro st hinv _; exact ⟨hinv, le_refl _⟩
  | cons m ms ih =>
    intro st hinv hms
    rw [List.foldl_cons]
    rcases relaxD_measure g R n c st m hinv (hms m (List.mem_cons_self m ms)) with ⟨h1, h2⟩
    rcases ih (relaxD g n c st m) h1 (fun x hx => hms x (List.mem_cons_of_mem m hx)) with
      ⟨h3, h4⟩
    exact ⟨h3, le_trans h4 h2⟩

end WeightedTermination

section AStarTermination

variable {α : Type} [LinearOrder α]

theorem relaxA_eq_of_mem_no_improve {g : SGraph α} {h : α → Nat} {st : DState α}
    {n m : α} (him : m ∈ st.index)
    (hge : ¬ distOf st.dist n + g.weight n m < distOf st.dist m) :
    relaxA g h n st m = st := by
  unfold relaxA
  simp only [if_pos him]
  rw [if_neg hge]

theorem relaxA_eq_of_mem_improve {g : SGraph α} {h : α → Nat} {st : DState α}
    {n m : α} (him : m ∈ st.index)
    (hlt : distOf st.dist n + g.weight n m < distOf st.dist m) :
    relaxA g h n st m =
      { heap := ⟨m, distOf st.dist n + g.weight n m + h m⟩ :: st.heap
        dist := insertA st.dist m (distOf st.dist n + g.weight n m)
        index := st.index
        pm := insertA st.pm m n } := by
  unfold relaxA
  simp only [if_pos him]
  rw [if_pos hlt]

theorem relaxA_eq_of_fresh_improve {g : SGraph α} {h : α → Nat} {st : DState α}
    {n m : α} (him : m ∉ st.index)
    (hlt : distOf (insertA st.dist m usizeMAX) n + g.weight n m < usizeMAX) :
    relaxA g h n st m =
      { heap := ⟨m, distOf (insertA st.dist m usizeMAX) n + g.weight n m + h m⟩ :: st.heap
        dist := insertA (insertA st.dist m usizeMAX) m
          (distOf (insertA st.dist m usizeMAX) n + g.weight n m)
        index := m :: st.index
        pm := insertA st.pm m n } := by
  unfold relaxA
  simp only [if_neg him, distOf_insertA_self]
  rw [if_pos hlt]

theorem relaxA_eq_of_fresh_no_improve {g : SGraph α} {h : α → Nat} {st : DState α}
    {n m : α} (him : m ∉ st.index)
    (hge : ¬ distOf (insertA st.dist m usizeMAX) n + g.weight n m < usizeMAX) :
    relaxA g h n st m = { st with dist := insertA st.dist m usizeMAX, index := m :: st.index } := by
  unfold relaxA
  simp only [if_neg him, distOf_insertA_self]
  rw [if_neg hge]

theorem relaxA_measure (g : SGraph α) (h : α → Nat) (R : List α) (n : α)
    (st : DState α) (m : α) (hinv : TInv R st) (hmR : m ∈ R) :
    TInv R (relaxA g h n st m) ∧
      dMeasure R (relaxA g h n st m) ≤ dMeasure R st := by
  by_cases him : m ∈ st.index
  · by_cases hlt : distOf st.dist n + g.weight n m < distOf st.dist m
    · rw [relaxA_eq_of_mem_improve him hlt]
      have hlook : ∃ v, lookupA st.dist m = some v := by
        cases hl : lookupA st.dist m with
        | none =>
          exfalso
          have hz : distOf st.dist m = 0 := by
            rw [distOf, hl]
            rfl
          omega
        | some v => exact ⟨v, rfl⟩
      rcases hlook with ⟨v, hv⟩
      have hpot : potOf st.dist m = distOf st.dist m := by
        rw [potOf, distOf, hv]
        rfl
      constructor
      · refine
          { idxR := hinv.idxR
            heapIdx := ?_
            noneOut := ?_ }
        · intro e he
          rcases List.mem_cons.mp he with he | he
          · rw [he]
            exact him
          · exact hinv.heapIdx e he
        · intro x hx
          rw [lookupA_insertA, if_neg (fun he => hx (by rw [← he]; exact him))]
          exact hinv.noneOut x hx
      · simp only [dMeasure, List.length_cons]
        have hupd := sum_potOf_update R st.dist
          (insertA st.dist m (distOf st.dist n + g.weight n m)) m
          (List.mem_toFinset.mpr hmR)
          (fun x hx => potOf_insertA_ne _ _ _ _ (Ne.symm hx))
        rw [potOf_insertA_self] at hupd
        omega
    · rw [relaxA_eq_of_mem_no_improve him hlt]
      exact ⟨hinv, le_refl _⟩
  · have hnone : lookupA st.dist m = none := hinv.noneOut m him
    have hpotm : potOf st.dist m = usizeMAX := by
      rw [potOf, hnone]
      rfl
    by_cases hlt : distOf (insertA st.dist m usizeMAX) n + g.weight n m < usizeMAX
    · rw [relaxA_eq_of_fresh_improve him hlt]
      constructor
      · refine
          { idxR := ?_
            heapIdx := ?_
            noneOut := ?_ }
        · intro x hx
          rcases List.mem_cons.mp hx with hx | hx
          · exact hx ▸ hmR
          · exact hinv.idxR x hx
        · intro e he
          rcases List.mem_cons.mp he with he | he
          · rw [he]
            exact List.mem_cons_self _ _
          · exact List.mem_cons_of_mem _ (hinv.heapIdx e he)
        · intro x hx
          have hxm : x ≠ m := fun he => hx (by rw [he]; exact List.mem_cons_self m st.index)
          have hxi : x ∉ st.index := fun hxi => hx (List.mem_cons_of_mem _ hxi)
          rw [lookupA_insertA, if_neg (fun he => hxm he.symm),
            lookupA_insertA, if_neg (fun he => hxm he.symm)]
          exact hinv.noneOut x hxi
      · simp only [dMeasure, List.length_cons]
        have hupd := sum_potOf_update R st.dist
          (insertA (insertA st.dist m usizeMAX) m
            (distOf (insertA st.dist m usizeMAX) n + g.weight n m)) m
          (List.mem_toFinset.mpr hmR)
          (fun x hx => by
            rw [potOf_insertA_ne _ _ _ _ (Ne.symm hx), potOf_insertA_ne _ _ _ _ (Ne.symm hx)])
        rw [potOf_insertA_self, hpotm] at hupd
        omega
    · rw [relaxA_eq_of_fresh_no_improve him hlt]
      constructor
      · refine
          { idxR := ?_
            heapIdx := ?_
            noneOut := ?_ }
        · intro x hx
          rcases List.mem_cons.mp hx with hx | hx
          · exact hx ▸ hmR
          · exact hinv.idxR x hx
        · intro e he
          exact List.mem_cons_of_mem _ (hinv.heapIdx e he)
        · intro x hx
          have hxm : x ≠ m := fun he => hx (by rw [he]; exact List.mem_cons_self m st.index)
          have hxi : x ∉ st.index := fun hxi => hx (List.mem_cons_of_mem _ hxi)
          rw [lookupA_insertA, if_neg (fun he => hxm he.symm)]
          exact hinv.noneOut x hxi
      · simp only [dMeasure]
        have hupd := sum_potOf_update R st.dist (insertA st.dist m usizeMAX) m
          (List.mem_toFinset.mpr hmR)
          (fun x hx => potOf_insertA_ne _ _ _ _ (Ne.symm hx))
        rw [potOf_insertA_self, hpotm] at hupd
        omega

theorem foldl_relaxA_measure (g : SGraph α) (h : α → Nat) (R : List α) (n : α) :
    ∀ (ms : List α) (st : DState α), TInv R st → (∀ m ∈ ms, m ∈ R) →
      TInv R (ms.foldl (relaxA g h n) st) ∧
        dMeasure R (ms.foldl (relaxA g h n) st) ≤ dMeasure R st := by
  intro ms
  induction ms with
  | nil => intro st hinv _; exact ⟨hinv, le_refl _⟩
  | cons m ms ih =>
    intro st hinv hms
    rw [List.foldl_cons]
    rcases relaxA_measure g h R n st m hinv (hms m (List.mem_cons_self m ms)) with ⟨h1, h2⟩
    rcases ih (relaxA g h n st m) h1 (fun x hx => hms x (List.mem_cons_of_mem m hx)) with
      ⟨h3, h4⟩
    exact ⟨h3, le_trans h4 h2⟩

theorem tinv_pop (R : List α) {st : DState α} {e : MinHeapState α}
    {rest : List (MinHeapState α)} (hinv : TInv R st)
    (hpop : popMax st.heap = some (e, rest)) :
    TInv R { st with heap := rest } ∧ st.heap.length = rest.length + 1 := by
  have hperm := popMax_perm hpop
  refine ⟨⟨hinv.idxR, ?_, hinv.noneOut⟩, ?_⟩
  · intro e2 he2
    exact hinv.heapIdx e2 (hperm.symm.subset (List.mem_cons_of_mem _ he2))
  · have := hperm.length_eq
    simpa using this

/-- The `dijkstra` loop terminates with "not found" on a closed goal-free
node list. -/
theorem dijkstraGo_terminates (g : SGraph α) (start : α) (R : List α)
    (hclosed : ∀ n ∈ R, ∀ m ∈ g.moves n, m ∈ R)
    (hnogoal : ∀ n ∈ R, g.isDone n = false) :
    ∀ (k : Nat) (st : DState α), TInv R st → dMeasure R st ≤ k →
      dijkstraGo g start (k + 1) st = some none := by
  intro k
  induction k using Nat.strong_induction_on with
  | _ k ih =>
    intro st hinv hm
    cases hpop : popMax st.heap with
    | none => exact dijkstraGo_succ_none hpop
    | some pr =>
      obtain ⟨e, rest⟩ := pr
      have heR : e.node ∈ R := hinv.idxR _ (hinv.heapIdx e (popMax_mem hpop))
      rcases tinv_pop R hinv hpop with ⟨hinv1, hlen⟩
      rw [dijkstraGo_succ_pop hpop,
        if_neg (by rw [hnogoal _ heR]; exact fun hcon => Bool.noConfusion hcon)]
      have hk : 1 ≤ k := by
        have : 1 ≤ dMeasure R st := by
          rw [dMeasure, hlen]
          omega
        omega
      obtain ⟨k2, rfl⟩ : ∃ k2, k = k2 + 1 := ⟨k - 1, by omega⟩
      have hm1 : dMeasure R { st with heap := rest } ≤ k2 := by
        rw [dMeasure] at hm ⊢
        rw [hlen] at hm
        simp only at hm ⊢
        omega
      by_cases hs : distOf st.dist e.node < e.cost
      · rw [if_pos hs]
        exact ih k2 (by omega) _ hinv1 hm1
      · rw [if_neg hs]
        rcases foldl_relaxD_measure g R e.node e.cost (g.moves e.node)
          { st with heap := rest } hinv1 (fun m hmv => hclosed _ heR m hmv) with ⟨h1, h2⟩
        exact ih k2 (by omega) _ h1 (le_trans h2 hm1)

/-- The `a_star` loop terminates with "not found" on a closed goal-free node
list, for every heuristic. -/
theorem aStarGo_terminates (g : SGraph α) (h : α → Nat) (start : α) (R : List α)
    (hclosed : ∀ n ∈ R, ∀ m ∈ g.moves n, m ∈ R)
    (hnogoal : ∀ n ∈ R, g.isDone n = false) :
    ∀ (k : Nat) (st : DState α), TInv R st → dMeasure R st ≤ k →
      aStarGo g h start (k + 1) st = some none := by
  intro k
  induction k using Nat.strong_induction_on with
  | _ k ih =>
    intro st hinv hm
    cases hpop : popMax st.heap with
    | none => exact aStarGo_succ_none hpop
    | some pr =>
      obtain ⟨e, rest⟩ := pr
      have heR : e.node ∈ R := hinv.idxR _ (hinv.heapIdx e (popMax_mem hpop))
      rcases tinv_pop R hinv hpop with ⟨hinv1, hlen⟩
      rw [aStarGo_succ_pop hpop,
        if_neg (by rw [hnogoal _ heR]; exact fun hcon => Bool.noConfusion hcon)]
      have hk : 1 ≤ k := by
        have : 1 ≤ dMeasure R st := by
          rw [dMeasure, hlen]
          omega
        omega
      obtain ⟨k2, rfl⟩ : ∃ k2, k = k2 + 1 := ⟨k - 1, by omega⟩
      have hm1 : dMeasure R { st with heap := rest } ≤ k2 := by
        rw [dMeasure] at hm ⊢
        rw [hlen] at hm
        simp only at hm ⊢
        omega
      rcases foldl_relaxA_measure g h R e.node (g.moves e.node)
        { st with heap := rest } hinv1 (fun m hmv => hclosed _ heR m hmv) with ⟨h1, h2⟩
      exact ih k2 (by omega) _ h1 (le_trans h2 hm1)

end AStarTermination

/-- **C8** (confirmed).  When the set of nodes reachable from the start is
contained in a finite list `R` that is closed under `moves` and contains no
node satisfying `is_done`, all four searches terminate by exhausting their
frontiers and uniformly return the not-found sentinel, with no partial
result. -/
theorem c8_disconnected_goal_not_found {α : Type} [LinearOrder α] (g : SGraph α)
    (start : α) (h : α → Nat) (R : List α) (hstart : start ∈ R)
    (hclosed : ∀ n ∈ R, ∀ m ∈ g.moves n, m ∈ R)
    (hnogoal : ∀ n ∈ R, g.isDone n = false) :
    ∃ f1 f2 f3 f4 : Nat,
      dfs g start f1 = some none ∧
      bfs g start f2 = some none ∧
      dijkstra g start f3 = some none ∧
      a_star g start h f4 = some none := by
  have hsingle : ∀ x ∈ [start], x ∈ R := by
    intro x hx
    rw [List.mem_singleton.mp hx]
    exact hstart
  have htinvD : TInv R (dijkstraInit start) :=
    { idxR := hsingle
      heapIdx := by
        intro e he
        rw [List.mem_singleton.mp he]
        exact List.mem_cons_self _ _
      noneOut := by
        intro x hx
        have hxs : x ≠ start := fun he => hx (by rw [he]; exact List.mem_cons_self _ _)
        show lookupA [(start, 0)] x = none
        rw [lookupA, if_neg (fun he => hxs he.symm)]
        rfl }
  have htinvA : TInv R (aStarInit h start) :=
    { idxR := hsingle
      heapIdx := by
        intro e he
        rw [List.mem_singleton.mp he]
        exact List.mem_cons_self _ _
      noneOut := by
        intro x hx
        have hxs : x ≠ start := fun he => hx (by rw [he]; exact List.mem_cons_self _ _)
        show lookupA [(start, 0)] x = none
        rw [lookupA, if_neg (fun he => hxs he.symm)]
        rfl }
  refine ⟨(g.moves start).length + 2, bfsMeasure R [] [start] + 1,
    dMeasure R (dijkstraInit start) + 1, dMeasure R (aStarInit h start) + 1,
    ?_, ?_, ?_, ?_⟩
  · exact dfs_not_found g start (hnogoal start hstart)
  · exact bfsGo_terminates g start R hclosed hnogoal _ [] [start] hsingle (le_refl _)
  · exact dijkstraGo_terminates g start R hclosed hnogoal _ _ htinvD (le_refl _)
  · exact aStarGo_terminates g h start R hclosed hnogoal _ _ htinvA (le_refl _)

/-- A two-node cycle with no goal anywhere: `0 ↔ 1`. -/
def exG8 : SGraph Nat :=
  { height := 0
    width := 0
    moves := fun n => if n = 0 then [1] else if n = 1 then [0] else []
    isDone := fun _ => false
    weight := fun _ _ => 1 }

/-- Witness for `c8_disconnected_goal_not_found` on the concrete two-node
goal-free cycle. -/
theorem c8_disconnected_goal_not_found_witness :
    ∃ f1 f2 f3 f4 : Nat,
      dfs exG8 0 f1 = some none ∧
      bfs exG8 0 f2 = some none ∧
      dijkstra exG8 0 f3 = some none ∧
      a_star exG8 0 (fun _ => 0) f4 = some none :=
  c8_disconnected_goal_not_found exG8 0 (fun _ => 0) [0, 1] (by decide)
    (by decide) (by decide)

section ChainLemmas

variable {α : Type} [LinearOrder α]

theorem lookupA_mem_pair {β : Type} [DecidableEq α] {l : List (α × β)} {a : α} {v : β}
    (h : lookupA l a = some v) : (a, v) ∈ l := by
  induction l with
  | nil => exact absurd h (by rw [lookupA]; exact fun hc => Option.noConfusion hc)
  | cons p rest ih =>
    rw [lookupA] at h
    by_cases hp : p.1 = a
    · rw [if_pos hp] at h
      have hv : p.2 = v := Option.some.inj h
      have hpv : (a, v) = p := by
        rw [← hp, ← hv]
      rw [hpv]
      exact List.mem_cons_self _ _
    · rw [if_neg hp] at h
      exact List.mem_cons_of_mem _ (ih h)

/-- A chain is unaffected by an insert whose key avoids all its nodes. -/
theorem chainTo_insert_fresh [DecidableEq α] {pm : List (α × α)} {start j m v : α}
    {l : List α} (hc : ChainTo pm start j l) (hm : ∀ x ∈ l, x ≠ m) :
    ChainTo (insertA pm m v) start j l := by
  induction hc with
  | @single j2 hj =>
    refine ChainTo.single ?_
    rw [lookupA_insertA, if_neg (fun he => hm j2 (List.mem_singleton_self j2) he.symm)]
    exact hj
  | @cons j2 i l2 hj hi hc2 ih =>
    refine ChainTo.cons ?_ hi (ih (fun x hx => hm x (List.mem_cons_of_mem _ hx)))
    rw [lookupA_insertA, if_neg (fun he => hm j2 (List.mem_cons_self _ _) he.symm)]
    exact hj

/-- Along a chain, distances never increase when every predecessor edge is
distance-monotone. -/
theorem chain_dist_mono [DecidableEq α] {pm : List (α × α)} {start j : α}
    {l : List α} {d : List (α × Nat)}
    (hmono : ∀ a b, lookupA pm a = some b → distOf d b ≤ distOf d a)
    (hc : ChainTo pm start j l) : ∀ x ∈ l, distOf d x ≤ distOf d j := by
  induction hc with
  | @single j2 hj =>
    intro x hx
    rw [List.mem_singleton.mp hx]
  | @cons j2 i l2 hj hi hc2 ih =>
    intro x hx
    rcases List.mem_cons.mp hx with hx | hx
    · rw [hx]
    · exact le_trans (ih x hx) (hmono j2 i hj)

/-- Splitting a chain at an interior node, with the distance bound of every
node of the prefix. -/
theorem chainTo_split_dist [DecidableEq α] {pm : List (α × α)} {start m j : α}
    {l : List α} {d : List (α × Nat)}
    (hmono : ∀ a b, lookupA pm a = some b → distOf d b ≤ distOf d a)
    (hc : ChainTo pm start j l) (hm : m ∈ l) :
    ∃ l1 l2, l = l1 ++ m :: l2 ∧ ChainTo pm start m (m :: l2) ∧
      ∀ y ∈ l1, distOf d m ≤ distOf d y := by
  induction hc with
  | @single j2 hj =>
    rw [List.mem_singleton] at hm
    refine ⟨[], [], by rw [hm]; rfl, ?_, by simp⟩
    rw [hm]
    exact ChainTo.single hj
  | @cons j2 i l2 hj hi hc2 ih =>
    rcases List.mem_cons.mp hm with hm2 | hm2
    · refine ⟨[], l2, by rw [hm2]; rfl, ?_, by simp⟩
      rw [hm2]
      exact ChainTo.cons hj hi hc2
    · rcases ih hm2 with ⟨l1, l3, heq, hcm, hbound⟩
      refine ⟨j2 :: l1, l3, by rw [heq]; rfl, hcm, ?_⟩
      intro y hy
      rcases List.mem_cons.mp hy with hy | hy
      · rw [hy]
        have h1 : distOf d m ≤ distOf d i := by
          apply chain_dist_mono hmono hc2
          rw [heq]
          exact List.mem_append.mpr (Or.inr (List.mem_cons_self _ _))
        exact le_trans h1 (hmono j2 i hj)
      · exact hbound y hy

theorem chainTo_cons_inv [DecidableEq α] {pm : List (α × α)} {start j x : α}
    {l : List α} (hc : ChainTo pm start j (x :: l)) :
    j = x ∧ (l = [] ∧ lookupA pm j = some start ∨
      ∃ i, lookupA pm j = some i ∧ i ≠ start ∧ ChainTo pm start i l) := by
  cases hc with
  | single hj => exact ⟨rfl, Or.inl ⟨rfl, hj⟩⟩
  | cons hj hi hc2 => exact ⟨rfl, Or.inr ⟨_, hj, hi, hc2⟩⟩

/-- Replacing the suffix of a chain below an interior node by a chain of the
new predecessor map, provided the prefix lookups are unchanged. -/
theorem chainTo_glue [DecidableEq α] {pm pm2 : List (α × α)} {start m : α} :
    ∀ {l1 : List α} {j : α} {l2 lm : List α},
      ChainTo pm start j (l1 ++ m :: l2) →
      (∀ x ∈ l1, lookupA pm2 x = lookupA pm x) →
      ChainTo pm2 start m lm →
      ChainTo pm2 start j (l1 ++ lm) := by
  intro l1
  induction l1 with
  | nil =>
    intro j l2 lm hc hsame hm2
    rcases chainTo_cons_inv hc with ⟨hj, -⟩
    rw [List.nil_append, hj]
    exact hm2
  | cons x l1 ih =>
    intro j l2 lm hc hsame hm2
    rcases chainTo_cons_inv hc with ⟨hj, hrest⟩
    subst hj
    rcases hrest with ⟨hnil, -⟩ | ⟨i, hj2, hi, hc2⟩
    · exact absurd hnil (by simp)
    · rw [List.cons_append]
      refine ChainTo.cons ?_ hi (ih hc2 (fun y hy => hsame y (List.mem_cons_of_mem _ hy)) hm2)
      rw [hsame _ (List.mem_cons_self _ _)]
      exact hj2

end ChainLemmas

section WEndpoints

variable {α : Type} [LinearOrder α]

/-- Well-formedness of the predecessor map maintained by the weighted
searches: duplicate-free keys, every key chained back to the start node,
distances non-increasing along predecessor edges, values covered by keys or
the start, the start never a key, and every heap node covered. -/
structure WInv (start : α) (st : DState α) : Prop where
  keysNd : (keysA st.pm).Nodup
  pmIdx : ∀ j ∈ keysA st.pm, j ∈ st.index
  chains : ∀ j ∈ keysA st.pm, ∃ l, ChainTo st.pm start j l ∧ l.Nodup
  edgeMono : ∀ a b, lookupA st.pm a = some b → distOf st.dist b ≤ distOf st.dist a
  valCov : ∀ a b, lookupA st.pm a = some b → (b = start ∨ b ∈ keysA st.pm)
  startNotKey : start ∉ keysA st.pm

/-- The heart of the endpoint invariant: updating predecessor and distance of
an improved node preserves predecessor-map well-formedness. -/
theorem winv_update {start : α} {st : DState α} {heap2 : List (MinHeapState α)}
    {idx2 : List α} {d2 : List (α × Nat)} {n m : α} {nc : Nat}
    (hw : WInv start st)
    (hd2self : distOf d2 m = nc)
    (hd2ne : ∀ x, x ≠ m → distOf d2 x = distOf st.dist x)
    (hidx : ∀ x ∈ st.index, x ∈ idx2) (hmidx : m ∈ idx2)
    (hncov : n = start ∨ n ∈ keysA st.pm)
    (hnn : distOf st.dist n ≤ nc)
    (hmn : m ≠ n) (hmstart : m ≠ start)
    (hstale : m ∉ keysA st.pm ∨ nc < distOf st.dist m) :
    WInv start { heap := heap2, dist := d2, index := idx2, pm := insertA st.pm m n } := by
  have hlookm : lookupA (insertA st.pm m n) m = some n := by
    rw [lookupA_insertA, if_pos rfl]
  have hlookne : ∀ x, x ≠ m → lookupA (insertA st.pm m n) x = lookupA st.pm x :=
    fun x hx => by rw [lookupA_insertA, if_neg (fun he => hx he.symm)]
  -- the new chain for `m`, whose nodes other than `m` all have distance ≤ nc
  have hmchain : ∃ lm, ChainTo (insertA st.pm m n) start m lm ∧ lm.Nodup ∧
      ∀ x ∈ lm, x = m ∨ distOf st.dist x ≤ nc := by
    rcases hncov with hns | hnk
    · refine ⟨[m], ?_, List.nodup_singleton m, ?_⟩
      · refine ChainTo.single ?_
        rw [hlookm, hns]
      · intro x hx
        exact Or.inl (List.mem_singleton.mp hx)
    · rcases hw.chains n hnk with ⟨ln, hcn, hndn⟩
      have hnm : ∀ x ∈ ln, x ≠ m := by
        intro x hx
        rcases hstale with hnotkey | hdist
        · exact fun he => hnotkey (he ▸ hcn.subset_keys x hx)
        · intro he
          have h1 : distOf st.dist x ≤ distOf st.dist n :=
            chain_dist_mono hw.edgeMono hcn x hx
          rw [he] at h1
          omega
      have hcn2 : ChainTo (insertA st.pm m n) start n ln := chainTo_insert_fresh hcn hnm
      have hnstart : n ≠ start := fun he => hw.startNotKey (he ▸ hnk)
      refine ⟨m :: ln, ChainTo.cons hlookm hnstart hcn2, ?_, ?_⟩
      · rw [List.nodup_cons]
        exact ⟨fun hx => (hnm m hx) rfl, hndn⟩
      · intro x hx
        rcases List.mem_cons.mp hx with hx | hx
        · exact Or.inl hx
        · exact Or.inr (le_trans (chain_dist_mono hw.edgeMono hcn x hx) hnn)
  refine
    { keysNd := keysA_nodup_insertA m n hw.keysNd
      pmIdx := ?_
      chains := ?_
      edgeMono := ?_
      valCov := ?_
      startNotKey := ?_ }
  · intro j hj
    rcases (mem_keysA_insertA st.pm m n j).mp hj with hj | hj
    · exact hj ▸ hmidx
    · exact hidx j (hw.pmIdx j hj)
  · intro j hj
    rcases (mem_keysA_insertA st.pm m n j).mp hj with hj | hj
    · rcases hmchain with ⟨lm, h1, h2, _⟩
      exact ⟨lm, hj ▸ h1, h2⟩
    · rcases hw.chains j hj with ⟨lj, hcj, hndj⟩
      by_cases hmem : m ∈ lj
      · -- the old chain runs through `m`: splice in the new chain of `m`
        have hmkey : m ∈ keysA st.pm := hcj.subset_keys m hmem
        have hdist : nc < distOf st.dist m := by
          rcases hstale with hnk | hd
          · exact absurd hmkey hnk
          · exact hd
        rcases chainTo_split_dist hw.edgeMono hcj hmem with ⟨l1, l2, heq, hcm, hbound⟩
        rcases hmchain with ⟨lm, hml, hmnd, hmdist⟩
        have hnd2 := heq ▸ hndj
        have hl1nd : l1.Nodup := (List.nodup_append.mp hnd2).1
        have hml1 : m ∉ l1 := by
          intro hx
          have := (List.nodup_append.mp hnd2).2.2
          exact this hx (List.mem_cons_self _ _)
        refine ⟨l1 ++ lm, ?_, ?_⟩
        · refine chainTo_glue (heq ▸ hcj) ?_ hml
          intro x hx
          exact hlookne x (fun he => hml1 (he ▸ hx))
        · refine List.Nodup.append hl1nd hmnd ?_
          intro x hx1 hx2
          rcases hmdist x hx2 with hxm | hxd
          · exact hml1 (hxm ▸ hx1)
          · have := hbound x hx1
            omega
      · exact ⟨lj, chainTo_insert_fresh hcj (fun x hx he => hmem (he ▸ hx)), hndj⟩
  · intro a b hab
    by_cases ham : a = m
    · rw [ham, hlookm] at hab
      have hbn : b = n := Option.some.inj hab.symm
      rw [ham, hbn, hd2self, hd2ne n (Ne.symm hmn)]
      exact hnn
    · rw [hlookne a ham] at hab
      have h1 := hw.edgeMono a b hab
      rw [hd2ne a ham]
      by_cases hbm : b = m
      · rw [hbm, hd2self]
        have hmkey : m ∈ keysA st.pm := by
          rcases hw.valCov a b hab with hbs | hbk
          · exact absurd (hbm ▸ hbs) hmstart
          · exact hbm ▸ hbk
        rcases hstale with hnk | hd
        · exact absurd hmkey hnk
        · rw [hbm] at h1
          omega
      · rw [hd2ne b hbm]
        exact h1
  · intro a b hab
    by_cases ham : a = m
    · rw [ham, hlookm] at hab
      have hbn : b = n := Option.some.inj hab.symm
      rcases hncov with hns | hnk
      · exact Or.inl (hbn ▸ hns)
      · exact Or.inr ((mem_keysA_insertA _ _ _ _).mpr (Or.inr (hbn ▸ hnk)))
    · rw [hlookne a ham] at hab
      rcases hw.valCov a b hab with hbs | hbk
      · exact Or.inl hbs
      · exact Or.inr ((mem_keysA_insertA _ _ _ _).mpr (Or.inr hbk))
  · intro hs
    rcases (mem_keysA_insertA st.pm m n start).mp hs with hs | hs
    · exact hmstart hs.symm
    · exact hw.startNotKey hs

end WEndpoints

section WSteps

variable {α : Type} [LinearOrder α]

/-- Every frontier node is the start or a key of the predecessor map. -/
def HeapCov (start : α) (st : DState α) : Prop :=
  ∀ e ∈ st.heap, e.node = start ∨ e.node ∈ keysA st.pm

/-- Bundle of the endpoint invariants carried through the weighted loops. -/
structure EInv (start : α) (st : DState α) : Prop where
  winv : WInv start st
  hcov : HeapCov start st
  heapIdx : ∀ e ∈ st.heap, e.node ∈ st.index
  startIdx : start ∈ st.index
  distStart : lookupA st.dist start = some 0

theorem relaxD_einv {g : SGraph α} {start : α} {st : DState α} {n : α} {c : Nat} (m : α)
    (he : EInv start st) (hn : n ∈ st.index) (hnc : distOf st.dist n = c)
    (hncov : n = start ∨ n ∈ keysA st.pm) :
    EInv start (relaxD g n c st m) ∧ n ∈ (relaxD g n c st m).index ∧
      distOf (relaxD g n c st m).dist n = c ∧
      (n = start ∨ n ∈ keysA (relaxD g n c st m).pm) := by
  have hds0 : distOf st.dist start = 0 := by
    rw [distOf, he.distStart]
    rfl
  by_cases him : m ∈ st.index
  · by_cases hlt : c + g.weight n m < distOf st.dist m
    · rw [relaxD_eq_of_mem_improve him hlt]
      have hmn : m ≠ n := by
        intro hx
        rw [hx, hnc] at hlt
        omega
      have hmstart : m ≠ start := by
        intro hx
        rw [hx, hds0] at hlt
        omega
      have hw2 := @winv_update α _ start st
        ((⟨m, c + g.weight n m⟩ : MinHeapState α) :: st.heap) st.index
        (insertA st.dist m (c + g.weight n m)) n m (c + g.weight n m)
        he.winv (distOf_insertA_self _ _ _)
        (fun x hx => distOf_insertA_ne _ _ _ _ (Ne.symm hx)) (fun x hx => hx) him hncov
        (by omega) hmn hmstart (Or.inr hlt)
      refine ⟨⟨hw2, ?_, ?_, he.startIdx, ?_⟩, hn, ?_, ?_⟩
      · intro e2 he2
        rcases List.mem_cons.mp he2 with he2 | he2
        · rw [he2]
          exact Or.inr ((mem_keysA_insertA _ _ _ _).mpr (Or.inl rfl))
        · rcases he.hcov e2 he2 with hx | hx
          · exact Or.inl hx
          · exact Or.inr ((mem_keysA_insertA _ _ _ _).mpr (Or.inr hx))
      · intro e2 he2
        rcases List.mem_cons.mp he2 with he2 | he2
        · rw [he2]
          exact him
        · exact he.heapIdx e2 he2
      · rw [lookupA_insertA, if_neg hmstart]
        exact he.distStart
      · rw [distOf_insertA_ne _ _ _ _ hmn]
        exact hnc
      · rcases hncov with hx | hx
        · exact Or.inl hx
        · exact Or.inr ((mem_keysA_insertA _ _ _ _).mpr (Or.inr hx))
    · rw [relaxD_eq_of_mem_no_improve him hlt]
      exact ⟨he, hn, hnc, hncov⟩
  · have hmn : m ≠ n := fun hx => him (hx ▸ hn)
    have hmstart : m ≠ start := fun hx => him (hx ▸ he.startIdx)
    have hmkey : m ∉ keysA st.pm := fun hx => him (he.winv.pmIdx m hx)
    by_cases hlt : c + g.weight n m < usizeMAX
    · rw [relaxD_eq_of_fresh_improve him hlt]
      have hw2 := @winv_update α _ start st
        ((⟨m, c + g.weight n m⟩ : MinHeapState α) :: st.heap) (m :: st.index)
        (insertA (insertA st.dist m usizeMAX) m (c + g.weight n m)) n m (c + g.weight n m)
        he.winv
        (distOf_insertA_self _ _ _)
        (fun x hx => by
          rw [distOf_insertA_ne _ _ _ _ (Ne.symm hx), distOf_insertA_ne _ _ _ _ (Ne.symm hx)])
        (fun x hx => List.mem_cons_of_mem _ hx) (List.mem_cons_self _ _) hncov
        (by omega) hmn hmstart (Or.inl hmkey)
      refine ⟨⟨hw2, ?_, ?_, List.mem_cons_of_mem _ he.startIdx, ?_⟩,
        List.mem_cons_of_mem _ hn, ?_, ?_⟩
      · intro e2 he2
        rcases List.mem_cons.mp he2 with he2 | he2
        · rw [he2]
          exact Or.inr ((mem_keysA_insertA _ _ _ _).mpr (Or.inl rfl))
        · rcases he.hcov e2 he2 with hx | hx
          · exact Or.inl hx
          · exact Or.inr ((mem_keysA_insertA _ _ _ _).mpr (Or.inr hx))
      · intro e2 he2
        rcases List.mem_cons.mp he2 with he2 | he2
        · rw [he2]
          exact List.mem_cons_self _ _
        · exact List.mem_cons_of_mem _ (he.heapIdx e2 he2)
      · rw [lookupA_insertA, if_neg hmstart, lookupA_insertA, if_neg hmstart]
        exact he.distStart
      · rw [distOf_insertA_ne _ _ _ _ hmn, distOf_insertA_ne _ _ _ _ hmn]
        exact hnc
      · rcases hncov with hx | hx
        · exact Or.inl hx
        · exact Or.inr ((mem_keysA_insertA _ _ _ _).mpr (Or.inr hx))
    · rw [relaxD_eq_of_fresh_no_improve him hlt]
      have hdall : ∀ x, x ≠ m → distOf (insertA st.dist m usizeMAX) x = distOf st.dist x :=
        fun x hx => distOf_insertA_ne _ _ _ _ (Ne.symm hx)
      refine ⟨⟨?_, he.hcov, fun e2 he2 => List.mem_cons_of_mem _ (he.heapIdx e2 he2),
        List.mem_cons_of_mem _ he.startIdx, ?_⟩,
        List.mem_cons_of_mem _ hn, ?_, hncov⟩
      · refine
          { keysNd := he.winv.keysNd
            pmIdx := fun j hj => List.mem_cons_of_mem _ (he.winv.pmIdx j hj)
            chains := he.winv.chains
            edgeMono := ?_
            valCov := he.winv.valCov
            startNotKey := he.winv.startNotKey }
        intro a b hab
        have ham : a ≠ m := by
          intro hx
          exact hmkey (hx ▸ lookupA_mem_keys hab)
        have hbm : b ≠ m := by
          intro hx
          rcases he.winv.valCov a b hab with hb | hb
          · exact hmstart (hx ▸ hb)
          · exact hmkey (hx ▸ hb)
        rw [hdall a ham, hdall b hbm]
        exact he.winv.edgeMono a b hab
      · rw [lookupA_insertA, if_neg hmstart]
        exact he.distStart
      · rw [hdall n hmn.symm]

        exact hnc

theorem relaxA_einv {g : SGraph α} {h : α → Nat} {start : α} {st : DState α} {n : α} (m : α)
    (he : EInv start st) (hn : n ∈ st.index)
    (hncov : n = start ∨ n ∈ keysA st.pm) :
    EInv start (relaxA g h n st m) ∧ n ∈ (relaxA g h n st m).index ∧
      (n = start ∨ n ∈ keysA (relaxA g h n st m).pm) := by
  have hds0 : distOf st.dist start = 0 := by
    rw [distOf, he.distStart]
    rfl
  by_cases him : m ∈ st.index
  · by_cases hlt : distOf st.dist n + g.weight n m < distOf st.dist m
    · rw [relaxA_eq_of_mem_improve him hlt]
      have hmn : m ≠ n := by
        intro hx
        rw [hx] at hlt
        omega
      have hmstart : m ≠ start := by
        intro hx
        rw [hx, hds0] at hlt
        omega
      have hw2 := @winv_update α _ start st
        ((⟨m, distOf st.dist n + g.weight n m + h m⟩ : MinHeapState α) :: st.heap) st.index
        (insertA st.dist m (distOf st.dist n + g.weight n m)) n m
        (distOf st.dist n + g.weight n m)
        he.winv (distOf_insertA_self _ _ _)
        (fun x hx => distOf_insertA_ne _ _ _ _ (Ne.symm hx)) (fun x hx => hx) him hncov
        (Nat.le_add_right _ _) hmn hmstart (Or.inr hlt)
      refine ⟨⟨hw2, ?_, ?_, he.startIdx, ?_⟩, hn, ?_⟩
      · intro e2 he2
        rcases List.mem_cons.mp he2 with he2 | he2
        · rw [he2]
          exact Or.inr ((mem_keysA_insertA _ _ _ _).mpr (Or.inl rfl))
        · rcases he.hcov e2 he2 with hx | hx
          · exact Or.inl hx
          · exact Or.inr ((mem_keysA_insertA _ _ _ _).mpr (Or.inr hx))
      · intro e2 he2
        rcases List.mem_cons.mp he2 with he2 | he2
        · rw [he2]
          exact him
        · exact he.heapIdx e2 he2
      · rw [lookupA_insertA, if_neg hmstart]
        exact he.distStart
      · rcases hncov with hx | hx
        · exact Or.inl hx
        · exact Or.inr ((mem_keysA_insertA _ _ _ _).mpr (Or.inr hx))
    · rw [relaxA_eq_of_mem_no_improve him hlt]
      exact ⟨he, hn, hncov⟩
  · have hmn : m ≠ n := fun hx => him (hx ▸ hn)
    have hmstart : m ≠ start := fun hx => him (hx ▸ he.startIdx)
    have hmkey : m ∉ keysA st.pm := fun hx => him (he.winv.pmIdx m hx)
    have hdn : distOf (insertA st.dist m usizeMAX) n = distOf st.dist n :=
      distOf_insertA_ne _ _ _ _ hmn
    by_cases hlt : distOf (insertA st.dist m usizeMAX) n + g.weight n m < usizeMAX
    · rw [relaxA_eq_of_fresh_improve him hlt]
      have hw2 := @winv_update α _ start st
        ((⟨m, distOf (insertA st.dist m usizeMAX) n + g.weight n m + h m⟩ :
          MinHeapState α) :: st.heap) (m :: st.index)
        (insertA (insertA st.dist m usizeMAX) m
          (distOf (insertA st.dist m usizeMAX) n + g.weight n m)) n m
        (distOf (insertA st.dist m usizeMAX) n + g.weight n m)
        he.winv
        (distOf_insertA_self _ _ _)
        (fun x hx => by
          rw [distOf_insertA_ne _ _ _ _ (Ne.symm hx), distOf_insertA_ne _ _ _ _ (Ne.symm hx)])
        (fun x hx => List.mem_cons_of_mem _ hx) (List.mem_cons_self _ _) hncov
        (by rw [hdn]; exact Nat.le_add_right _ _) hmn hmstart (Or.inl hmkey)
      refine ⟨⟨hw2, ?_, ?_, List.mem_cons_of_mem _ he.startIdx, ?_⟩,
        List.mem_cons_of_mem _ hn, ?_⟩
      · intro e2 he2
        rcases List.mem_cons.mp he2 with he2 | he2
        · rw [he2]
          exact Or.inr ((mem_keysA_insertA _ _ _ _).mpr (Or.inl rfl))
        · rcases he.hcov e2 he2 with hx | hx
          · exact Or.inl hx
          · exact Or.inr ((mem_keysA_insertA _ _ _ _).mpr (Or.inr hx))
      · intro e2 he2
        rcases List.mem_cons.mp he2 with he2 | he2
        · rw [he2]
          exact List.mem_cons_self _ _
        · exact List.mem_cons_of_mem _ (he.heapIdx e2 he2)
      · rw [lookupA_insertA, if_neg hmstart, lookupA_insertA, if_neg hmstart]
        exact he.distStart
      · rcases hncov with hx | hx
        · exact Or.inl hx
        · exact Or.inr ((mem_keysA_insertA _ _ _ _).mpr (Or.inr hx))
    · rw [relaxA_eq_of_fresh_no_improve him hlt]
      have hdall : ∀ x, x ≠ m → distOf (insertA st.dist m usizeMAX) x = distOf st.dist x :=
        fun x hx => distOf_insertA_ne _ _ _ _ (Ne.symm hx)
      refine ⟨⟨?_, he.hcov, fun e2 he2 => List.mem_cons_of_mem _ (he.heapIdx e2 he2),
        List.mem_cons_of_mem _ he.startIdx, ?_⟩,
        List.mem_cons_of_mem _ hn, hncov⟩
      · refine
          { keysNd := he.winv.keysNd
            pmIdx := fun j hj => List.mem_cons_of_mem _ (he.winv.pmIdx j hj)
            chains := he.winv.chains
            edgeMono := ?_
            valCov := he.winv.valCov
            startNotKey := he.winv.startNotKey }
        intro a b hab
        have ham : a ≠ m := by
          intro hx
          exact hmkey (hx ▸ lookupA_mem_keys hab)
        have hbm : b ≠ m := by
          intro hx
          rcases he.winv.valCov a b hab with hb | hb
          · exact hmstart (hx ▸ hb)
          · exact hmkey (hx ▸ hb)
        rw [hdall a ham, hdall b hbm]
        exact he.winv.edgeMono a b hab
      · rw [lookupA_insertA, if_neg hmstart]
        exact he.distStart

theorem foldl_relaxD_einv {g : SGraph α} {start : α} {n : α} {c : Nat} :
    ∀ (ms : List α) (st : DState α), EInv start st → n ∈ st.index →
      distOf st.dist n = c → (n = start ∨ n ∈ keysA st.pm) →
      EInv start (ms.foldl (relaxD g n c) st) := by
  intro ms
  induction ms with
  | nil => intro st he _ _ _; exact he
  | cons m ms ih =>
    intro st he hn hnc hncov
    rw [List.foldl_cons]
    rcases relaxD_einv m he hn hnc hncov with ⟨he2, hn2, hnc2, hncov2⟩
    exact ih _ he2 hn2 hnc2 hncov2

theorem foldl_relaxA_einv {g : SGraph α} {h : α → Nat} {start : α} {n : α} :
    ∀ (ms : List α) (st : DState α), EInv start st → n ∈ st.index →
      (n = start ∨ n ∈ keysA st.pm) →
      EInv start (ms.foldl (relaxA g h n) st) := by
  intro ms
  induction ms with
  | nil => intro st he _ _; exact he
  | cons m ms ih =>
    intro st he hn hncov
    rw [List.foldl_cons]
    rcases relaxA_einv m he hn hncov with ⟨he2, hn2, hncov2⟩
    exact ih _ he2 hn2 hncov2

theorem einv_pop {start : α} {st : DState α} {e : MinHeapState α}
    {rest : List (MinHeapState α)} (he : EInv start st)
    (hpop : popMax st.heap = some (e, rest)) :
    EInv start { st with heap := rest } ∧ (e.node = start ∨ e.node ∈ keysA st.pm) ∧
      e.node ∈ st.index := by
  have hperm := popMax_perm hpop
  refine ⟨⟨?_, ?_, ?_, he.startIdx, he.distStart⟩, he.hcov e (popMax_mem hpop),
    he.heapIdx e (popMax_mem hpop)⟩
  · exact
      { keysNd := he.winv.keysNd
        pmIdx := he.winv.pmIdx
        chains := he.winv.chains
        edgeMono := he.winv.edgeMono
        valCov := he.winv.valCov
        startNotKey := he.winv.startNotKey }
  · intro e2 he2
    exact he.hcov e2 (hperm.symm.subset (List.mem_cons_of_mem _ he2))
  · intro e2 he2
    exact he.heapIdx e2 (hperm.symm.subset (List.mem_cons_of_mem _ he2))

end WSteps

section Endpoints

variable {α : Type} [LinearOrder α]

/-- Both initial states (`dijkstra`'s start entry keyed `0`, `a_star`'s keyed
by the start's heuristic value) satisfy the endpoint invariant. -/
theorem einv_init (start : α) (k : Nat) :
    EInv start
      { heap := [⟨start, k⟩], dist := [(start, 0)], index := [start], pm := [] } := by
  refine ⟨⟨?_, ?_, ?_, ?_, ?_, ?_⟩, ?_, ?_, List.mem_cons_self _ _, ?_⟩
  · exact List.nodup_nil
  · exact fun j hj => absurd hj (List.not_mem_nil j)
  · exact fun j hj => absurd hj (List.not_mem_nil j)
  · exact fun a b hab => Option.noConfusion hab
  · exact fun a b hab => Option.noConfusion hab
  · exact List.not_mem_nil start
  · intro e he
    rcases List.mem_cons.mp he with he | he
    · rw [he]
      exact Or.inl rfl
    · exact absurd he (List.not_mem_nil e)
  · intro e he
    rcases List.mem_cons.mp he with he | he
    · rw [he]
      exact List.mem_cons_self _ _
    · exact absurd he (List.not_mem_nil e)
  · rw [lookupA, if_pos rfl]

/-- Any successful fueled run of the `dijkstra` loop from an invariant state
returns a path headed by the start node and ending at a goal node. -/
theorem dijkstraGo_endpoints {g : SGraph α} {start : α} :
    ∀ (fuel : Nat) (st : DState α) (done : List α) (d : List (α × Nat)) (p : List α),
      DInv g start st done → SettledOn g st done → EInv start st →
      dijkstraGo g start fuel st = some (some (d, p)) →
      p.head? = some start ∧ ∃ gl, p.getLast? = some gl ∧ g.isDone gl = true := by
  intro fuel
  induction fuel with
  | zero =>
    intro st done d p _ _ _ hrun
    exact absurd hrun (by rw [dijkstraGo]; exact fun h => Option.noConfusion h)
  | succ f ih =>
    intro st done d p hinv hset he hrun
    cases hpop : popMax st.heap with
    | none =>
      rw [dijkstraGo_succ_none hpop] at hrun
      exact absurd (Option.some.inj hrun) (fun h => Option.noConfusion h)
    | some pr =>
      obtain ⟨e, rest⟩ := pr
      rw [dijkstraGo_succ_pop hpop] at hrun
      by_cases hd : g.isDone e.node
      · rw [if_pos hd] at hrun
        have hdp := Option.some.inj (Option.some.inj hrun)
        have hp : p = get_path st.pm e.node start := (congrArg Prod.snd hdp).symm
        rcases einv_pop he hpop with ⟨-, hecov, -⟩
        have hgood : GoodPM st.pm start := ⟨he.winv.keysNd, he.winv.chains⟩
        rcases get_path_head hgood e.node hecov with ⟨mid, hmid⟩
        refine ⟨?_, e.node, ?_, hd⟩
        · rw [hp, hmid]
          rfl
        · rw [hp, get_path_getLast]
      · rw [if_neg hd] at hrun
        by_cases hs : distOf st.dist e.node < e.cost
        · rw [if_pos hs] at hrun
          rcases dinv_stale_step hinv hset hpop hs with ⟨⟨hinv2, hset2⟩, -⟩
          rcases einv_pop he hpop with ⟨he2, -, -⟩
          exact ih _ _ d p hinv2 hset2 he2 hrun
        · rw [if_neg hs] at hrun
          rcases dinv_processed_step hinv hset hpop hs with ⟨hinv2, hset2⟩
          rcases einv_pop he hpop with ⟨he2, hecov, heidx⟩
          have hec : distOf st.dist e.node = e.cost :=
            le_antisymm (hinv.heapDistLe e (popMax_mem hpop)) (Nat.le_of_not_lt hs)
          have he3 : EInv start ((g.moves e.node).foldl (relaxD g e.node e.cost)
              { st with heap := rest }) :=
            foldl_relaxD_einv (g.moves e.node) _ he2 heidx hec hecov
          exact ih _ _ d p hinv2 hset2 he3 hrun

/-- Any successful fueled run of the `a_star` loop from an invariant state
returns a path headed by the start node and ending at a goal node. -/
theorem aStarGo_endpoints {g : SGraph α} {h : α → Nat} {start : α} :
    ∀ (fuel : Nat) (st : DState α) (d : List (α × Nat)) (p : List α),
      EInv start st →
      aStarGo g h start fuel st = some (some (d, p)) →
      p.head? = some start ∧ ∃ gl, p.getLast? = some gl ∧ g.isDone gl = true := by
  intro fuel
  induction fuel with
  | zero =>
    intro st d p _ hrun
    exact absurd hrun (by rw [aStarGo]; exact fun hx => Option.noConfusion hx)
  | succ f ih =>
    intro st d p he hrun
    cases hpop : popMax st.heap with
    | none =>
      rw [aStarGo_succ_none hpop] at hrun
      exact absurd (Option.some.inj hrun) (fun hx => Option.noConfusion hx)
    | some pr =>
      obtain ⟨e, rest⟩ := pr
      rw [aStarGo_succ_pop hpop] at hrun
      by_cases hd : g.isDone e.node
      · rw [if_pos hd] at hrun
        have hdp := Option.some.inj (Option.some.inj hrun)
        have hp : p = get_path st.pm e.node start := (congrArg Prod.snd hdp).symm
        rcases einv_pop he hpop with ⟨-, hecov, -⟩
        have hgood : GoodPM st.pm start := ⟨he.winv.keysNd, he.winv.chains⟩
        rcases get_path_head hgood e.node hecov with ⟨mid, hmid⟩
        refine ⟨?_, e.node, ?_, hd⟩
        · rw [hp, hmid]
          rfl
        · rw [hp, get_path_getLast]
      · rw [if_neg hd] at hrun
        rcases einv_pop he hpop with ⟨he2, hecov, heidx⟩
        have he3 : EInv start ((g.moves e.node).foldl (relaxA g h e.node)
            { st with heap := rest }) :=
          foldl_relaxA_einv (g.moves e.node) _ he2 heidx hecov
        exact ih _ d p he3 hrun

end Endpoints

section BfsEndpoints

variable {α : Type} [LinearOrder α]

/-- The endpoint invariant of the `bfs` loop: duplicate-free predecessor
keys, a duplicate-free backward chain to the start for every key, and every
queued node either the start or already a key. -/
structure BInv (start : α) (pm : List (α × α)) (queue : List α) : Prop where
  keysNd : (keysA pm).Nodup
  chains : ∀ j ∈ keysA pm, ∃ l, ChainTo pm start j l ∧ l.Nodup
  queueCov : ∀ x ∈ queue, x = start ∨ x ∈ keysA pm

/-- The `bfs` push loop preserves the endpoint invariant when the expanded
node is itself the start or a key. -/
theorem bfs_fold_binv {start : α} (n : α) :
    ∀ (ms : List α) (s0 : List α) (pm0 : List (α × α)),
      BInv start pm0 s0 → (n = start ∨ n ∈ keysA pm0) →
      BInv start
        (ms.foldl
          (fun (s : List α × List (α × α)) m =>
            if containsA s.2 m then s else (s.1 ++ [m], insertA s.2 m n)) (s0, pm0)).2
        (ms.foldl
          (fun (s : List α × List (α × α)) m =>
            if containsA s.2 m then s else (s.1 ++ [m], insertA s.2 m n)) (s0, pm0)).1 := by
  intro ms
  induction ms with
  | nil =>
    intro s0 pm0 hb _
    exact hb
  | cons m ms ih =>
    intro s0 pm0 hb hncov
    rw [List.foldl_cons]
    by_cases hc : containsA pm0 m = true
    · rw [if_pos hc]
      exact ih s0 pm0 hb hncov
    · rw [if_neg hc]
      have hmk : m ∉ keysA pm0 := not_containsA_not_mem_keys hc
      refine ih (s0 ++ [m]) (insertA pm0 m n) ⟨keysA_nodup_insertA m n hb.keysNd, ?_, ?_⟩
        ?_
      · intro j hj
        rcases (mem_keysA_insertA _ _ _ _).mp hj with hj | hj
        · rw [hj]
          by_cases hns : n = start
          · refine ⟨[m], ChainTo.single ?_, List.nodup_singleton m⟩
            rw [lookupA_insertA, if_pos rfl, hns]
          · have hnk : n ∈ keysA pm0 := hncov.resolve_left hns
            rcases hb.chains n hnk with ⟨l, hl, hlnd⟩
            have hlm : ∀ x ∈ l, x ≠ m := by
              intro x hx he
              exact hmk (he ▸ hl.subset_keys x hx)
            refine ⟨m :: l, ChainTo.cons ?_ hns (chainTo_insert_fresh hl hlm), ?_⟩
            · rw [lookupA_insertA, if_pos rfl]
            · rw [List.nodup_cons]
              exact ⟨fun hml => (hlm m hml) rfl, hlnd⟩
        · rcases hb.chains j hj with ⟨l, hl, hlnd⟩
          have hlm : ∀ x ∈ l, x ≠ m := by
            intro x hx he
            exact hmk (he ▸ hl.subset_keys x hx)
          exact ⟨l, chainTo_insert_fresh hl hlm, hlnd⟩
      · intro x hx
        rcases List.mem_append.mp hx with hx | hx
        · rcases hb.queueCov x hx with hx2 | hx2
          · exact Or.inl hx2
          · exact Or.inr ((mem_keysA_insertA _ _ _ _).mpr (Or.inr hx2))
        · rw [List.mem_singleton.mp hx]
          exact Or.inr ((mem_keysA_insertA _ _ _ _).mpr (Or.inl rfl))
      · rcases hncov with hns | hnk
        · exact Or.inl hns
        · exact Or.inr ((mem_keysA_insertA _ _ _ _).mpr (Or.inr hnk))

/-- Any successful fueled run of the `bfs` loop from an invariant state
returns a path headed by the start node and ending at a goal node. -/
theorem bfsGo_endpoints {g : SGraph α} {start : α} :
    ∀ (fuel : Nat) (pm : List (α × α)) (queue : List α) (p : List α),
      BInv start pm queue →
      bfsGo g start fuel pm queue = some (some p) →
      p.head? = some start ∧ ∃ gl, p.getLast? = some gl ∧ g.isDone gl = true := by
  intro fuel
  induction fuel with
  | zero =>
    intro pm queue p _ hrun
    exact absurd hrun (by rw [bfsGo]; exact fun h => Option.noConfusion h)
  | succ f ih =>
    intro pm queue p hb hrun
    cases queue with
    | nil =>
      rw [bfsGo_succ_nil] at hrun
      exact absurd (Option.some.inj hrun) (fun h => Option.noConfusion h)
    | cons n rest =>
      rw [bfsGo_succ_cons] at hrun
      by_cases hd : g.isDone n
      · rw [if_pos hd] at hrun
        have hp : p = get_path pm n start := (Option.some.inj (Option.some.inj hrun)).symm
        have hgood : GoodPM pm start := ⟨hb.keysNd, hb.chains⟩
        rcases get_path_head hgood n (hb.queueCov n (List.mem_cons_self n rest)) with
          ⟨mid, hmid⟩
        refine ⟨?_, n, ?_, hd⟩
        · rw [hp, hmid]
          rfl
        · rw [hp, get_path_getLast]
      · rw [if_neg hd] at hrun
        refine ih _ _ p ?_ hrun
        exact bfs_fold_binv n (g.moves n) rest pm
          ⟨hb.keysNd, hb.chains, fun x hx => hb.queueCov x (List.mem_cons_of_mem n hx)⟩
          (hb.queueCov n (List.mem_cons_self n rest))

end BfsEndpoints

section DfsEndpoints

variable {α : Type} [LinearOrder α]

/-- Once every stacked node is a key of the `path` map, the `dfs` loop can
never succeed: every pop is skipped until the stack or the fuel runs out. -/
theorem dfsGo_all_marked {g : SGraph α} {start : α} :
    ∀ (fuel : Nat) (pm : List (α × α)) (stack : List α) (p : List α),
      (∀ x ∈ stack, containsA pm x = true) →
      dfsGo g start fuel pm stack = some (some p) → False := by
  intro fuel
  induction fuel with
  | zero =>
    intro pm stack p _ hrun
    exact absurd hrun (by rw [dfsGo]; exact fun h => Option.noConfusion h)
  | succ f ih =>
    intro pm stack p hall hrun
    cases stack with
    | nil =>
      rw [dfsGo_succ_nil] at hrun
      exact absurd (Option.some.inj hrun) (fun h => Option.noConfusion h)
    | cons n rest =>
      rw [dfsGo_succ_cons, if_pos (hall n (List.mem_cons_self n rest))] at hrun
      exact ih pm rest p (fun x hx => hall x (List.mem_cons_of_mem n hx)) hrun

/-- `dfs` can only succeed on its very first pop — the start node itself —
and then returns the one-node path `[start]`. -/
theorem dfs_endpoints {g : SGraph α} {start : α} {fuel : Nat} {p : List α}
    (hrun : dfs g start fuel = some (some p)) :
    p = [start] ∧ g.isDone start = true := by
  cases fuel with
  | zero =>
    rw [dfs] at hrun
    exact absurd hrun (by rw [dfsGo]; exact fun h => Option.noConfusion h)
  | succ f =>
    rw [dfs, dfsGo_succ_cons,
      if_neg (by rw [containsA]; exact fun h => Bool.noConfusion h)] at hrun
    by_cases hd : g.isDone start
    · rw [if_pos hd] at hrun
      have hp : p = get_path [] start start := (Option.some.inj (Option.some.inj hrun)).symm
      refine ⟨?_, hd⟩
      rw [hp, get_path,
        getPathGo_succ_none (lookupA_eq_none_of_not_mem_keys (List.not_mem_nil start))]
    · rw [if_neg hd] at hrun
      rcases dfs_fold_spec start (g.moves start) [] [] with ⟨h1, h2, -, -⟩
      refine absurd hrun (fun hr => dfsGo_all_marked f _ _ p ?_ hr)
      intro x hx
      rcases h1 x hx with hx2 | hx2
      · exact absurd hx2 (List.not_mem_nil x)
      · exact h2 x hx2

end DfsEndpoints

/-- **C7** (confirmed).  Whenever any of the four searches returns a path,
the path's first element is the start node passed to the search and its last
element is a node on which the goal predicate holds — the popped node that
ended the loop (`get_path_getLast` pins the last element to exactly the node
the search reconstructs from). -/
theorem c7_returned_path_endpoints {α : Type} [LinearOrder α] (g : SGraph α)
    (start : α) (h : α → Nat) (fuel : Nat) :
    (∀ p, dfs g start fuel = some (some p) →
      p.head? = some start ∧ ∃ gl, p.getLast? = some gl ∧ g.isDone gl = true) ∧
    (∀ p, bfs g start fuel = some (some p) →
      p.head? = some start ∧ ∃ gl, p.getLast? = some gl ∧ g.isDone gl = true) ∧
    (∀ d p, dijkstra g start fuel = some (some (d, p)) →
      p.head? = some start ∧ ∃ gl, p.getLast? = some gl ∧ g.isDone gl = true) ∧
    (∀ d p, a_star g start h fuel = some (some (d, p)) →
      p.head? = some start ∧ ∃ gl, p.getLast? = some gl ∧ g.isDone gl = true) := by
  refine ⟨?_, ?_, ?_, ?_⟩
  · intro p hrun
    rcases dfs_endpoints hrun with ⟨hp, hd⟩
    rw [hp]
    exact ⟨rfl, start, rfl, hd⟩
  · intro p hrun
    refine bfsGo_endpoints fuel [] [start] p ⟨List.nodup_nil, ?_, ?_⟩ hrun
    · exact fun j hj => absurd hj (List.not_mem_nil j)
    · intro x hx
      rcases List.mem_cons.mp hx with hx | hx
      · exact Or.inl hx
      · exact absurd hx (List.not_mem_nil x)
  · intro d p hrun
    exact dijkstraGo_endpoints fuel (dijkstraInit start) [] d p (dinv_init g start).1
      (dinv_init g start).2 (einv_init start 0) hrun
  · intro d p hrun
    exact aStarGo_endpoints fuel (aStarInit h start) d p (einv_init start (h start)) hrun

/-- The one-node graph with the goal at the start, exercising all four
searches for the endpoint property. -/
def exG7 : SGraph Nat :=
  { height := 1
    width := 1
    moves := fun _ => []
    isDone := fun n => n == 0
    weight := fun _ _ => 1 }

/-- Witness for `c7_returned_path_endpoints`: on the one-node goal graph all
four searches succeed with path `[0]`, whose head is the start `0` and whose
last element satisfies the goal predicate. -/
theorem c7_returned_path_endpoints_witness :
    (dfs exG7 0 1 = some (some [0]) ∧
      ([0] : List Nat).head? = some 0 ∧
      ∃ gl, ([0] : List Nat).getLast? = some gl ∧ exG7.isDone gl = true) ∧
    (bfs exG7 0 1 = some (some [0]) ∧
      ([0] : List Nat).head? = some 0 ∧
      ∃ gl, ([0] : List Nat).getLast? = some gl ∧ exG7.isDone gl = true) ∧
    (dijkstra exG7 0 1 = some (some ([(0, 0)], [0])) ∧
      ([0] : List Nat).head? = some 0 ∧
      ∃ gl, ([0] : List Nat).getLast? = some gl ∧ exG7.isDone gl = true) ∧
    (a_star exG7 0 (fun _ => 0) 1 = some (some ([(0, 0)], [0])) ∧
      ([0] : List Nat).head? = some 0 ∧
      ∃ gl, ([0] : List Nat).getLast? = some gl ∧ exG7.isDone gl = true) :=
  ⟨⟨by decide, (c7_returned_path_endpoints exG7 0 (fun _ => 0) 1).1 [0] (by decide)⟩,
   ⟨by decide, (c7_returned_path_endpoints exG7 0 (fun _ => 0) 1).2.1 [0] (by decide)⟩,
   ⟨by decide,
    (c7_returned_path_endpoints exG7 0 (fun _ => 0) 1).2.2.1 [(0, 0)] [0] (by decide)⟩,
   ⟨by decide,
    (c7_returned_path_endpoints exG7 0 (fun _ => 0) 1).2.2.2 [(0, 0)] [0] (by decide)⟩⟩

section BfsDepth

variable {α : Type} [LinearOrder α]

/-- `bfsGo` instrumented with the discovery depth of every queued node: the
queue carries `(node, depth)` pairs, a dequeued node's neighbors are enqueued
one level deeper.  Pure observation: `bfsGoD_fst` shows that dropping the
depths gives back exactly `bfsGo`. -/
def bfsGoD (g : SGraph α) (start : α) :
    Nat → List (α × α) → List (α × Nat) → Option (Option (List α))
  | 0, _, _ => none
  | fuel+1, pm, dq =>
    match dq with
    | [] => some none
    | (n, dn) :: rest =>
      if g.isDone n then some (some (get_path pm n start))
      else
        let st := (g.moves n).foldl
          (fun (s : List (α × Nat) × List (α × α)) m =>
            if containsA s.2 m then s else (s.1 ++ [(m, dn + 1)], insertA s.2 m n))
          (rest, pm)
        bfsGoD g start fuel st.2 st.1

theorem bfsGoD_succ_nil (g : SGraph α) (start : α) (f : Nat) (pm : List (α × α)) :
    bfsGoD g start (f + 1) pm [] = some none := rfl

theorem bfsGoD_succ_cons (g : SGraph α) (start : α) (f : Nat) (pm : List (α × α))
    (n : α) (dn : Nat) (rest : List (α × Nat)) :
    bfsGoD g start (f + 1) pm ((n, dn) :: rest) =
      if g.isDone n then some (some (get_path pm n start))
      else
        bfsGoD g start f
          ((g.moves n).foldl
            (fun (s : List (α × Nat) × List (α × α)) m =>
              if containsA s.2 m then s else (s.1 ++ [(m, dn + 1)], insertA s.2 m n))
            (rest, pm)).2
          ((g.moves n).foldl
            (fun (s : List (α × Nat) × List (α × α)) m =>
              if containsA s.2 m then s else (s.1 ++ [(m, dn + 1)], insertA s.2 m n))
            (rest, pm)).1 := rfl

/-- Dropping the depths from the instrumented push loop gives the plain
`bfs` push loop, component by component. -/
theorem bfsD_fold_proj (g : SGraph α) (n : α) (dn : Nat) :
    ∀ (ms : List α) (dq0 : List (α × Nat)) (pm0 : List (α × α)),
      ((ms.foldl
        (fun (s : List (α × Nat) × List (α × α)) m =>
          if containsA s.2 m then s else (s.1 ++ [(m, dn + 1)], insertA s.2 m n))
        (dq0, pm0)).1.map Prod.fst =
      (ms.foldl
        (fun (s : List α × List (α × α)) m =>
          if containsA s.2 m then s else (s.1 ++ [m], insertA s.2 m n))
        (dq0.map Prod.fst, pm0)).1) ∧
      ((ms.foldl
        (fun (s : List (α × Nat) × List (α × α)) m =>
          if containsA s.2 m then s else (s.1 ++ [(m, dn + 1)], insertA s.2 m n))
        (dq0, pm0)).2 =
      (ms.foldl
        (fun (s : List α × List (α × α)) m =>
          if containsA s.2 m then s else (s.1 ++ [m], insertA s.2 m n))
        (dq0.map Prod.fst, pm0)).2) := by
  intro ms
  induction ms with
  | nil =>
    intro dq0 pm0
    exact ⟨rfl, rfl⟩
  | cons m ms ih =>
    intro dq0 pm0
    rw [List.foldl_cons, List.foldl_cons]
    by_cases hc : containsA pm0 m = true
    · rw [if_pos hc, if_pos hc]
      exact ih dq0 pm0
    · rw [if_neg hc, if_neg hc]
      rcases ih (dq0 ++ [(m, dn + 1)]) (insertA pm0 m n) with ⟨h1, h2⟩
      simp only [List.map_append, List.map_cons, List.map_nil] at h1 h2
      exact ⟨h1, h2⟩

/-- The instrumented loop computes exactly `bfsGo` on the depth-stripped
queue. -/
theorem bfsGoD_fst (g : SGraph α) (start : α) :
    ∀ (fuel : Nat) (pm : List (α × α)) (dq : List (α × Nat)),
      bfsGoD g start fuel pm dq = bfsGo g start fuel pm (dq.map Prod.fst) := by
  intro fuel
  induction fuel with
  | zero =>
    intro pm dq
    rfl
  | succ f ih =>
    intro pm dq
    cases dq with
    | nil => rfl
    | cons e rest =>
      obtain ⟨n, dn⟩ := e
      rw [List.map_cons]
      by_cases hd : g.isDone n
      · rw [bfsGoD_succ_cons, bfsGo_succ_cons, if_pos hd, if_pos hd]
      · rw [bfsGoD_succ_cons, bfsGo_succ_cons, if_neg hd, if_neg hd]
        rcases bfsD_fold_proj g n dn (g.moves n) rest pm with ⟨h1, h2⟩
        rw [ih, h1, h2]

end BfsDepth

section BfsMinimal

variable {α : Type} [LinearOrder α]

theorem containsA_mem_keys {β : Type} [DecidableEq α] {pm : List (α × β)} {x : α}
    (h : containsA pm x = true) : x ∈ keysA pm := by
  rw [containsA] at h
  rcases Option.isSome_iff_exists.mp h with ⟨v, hv⟩
  exact lookupA_mem_keys hv

theorem pairwise_single {β : Type} (R : β → β → Prop) (a : β) : List.Pairwise R [a] :=
  List.Pairwise.cons (fun b hb => absurd hb (List.not_mem_nil b)) List.Pairwise.nil

/-- On a predecessor map whose entries are genuine graph edges, a backward
chain of length `k` witnesses a `k`-edge walk from the start. -/
theorem chainTo_reachSteps {g : SGraph α} {pm : List (α × α)} {start j : α}
    {l : List α} (he : ∀ a b, lookupA pm a = some b → a ∈ g.moves b)
    (hc : ChainTo pm start j l) : ReachSteps g start j l.length := by
  induction hc with
  | @single j2 hj => exact ReachSteps.step ReachSteps.refl (he j2 start hj)
  | @cons j2 i l2 hj hi hc2 ih => exact ReachSteps.step ih (he j2 i hj)

/-- The between-pops invariant of the instrumented `bfs` loop, over the
predecessor map, the depth-carrying queue and the ghost list `done` of
processed `(node, depth)` pairs. -/
structure B5 (g : SGraph α) (start : α) (pm : List (α × α)) (dq done : List (α × Nat)) :
    Prop where
  edge : ∀ a b, lookupA pm a = some b → a ∈ g.moves b
  chainB : ∀ e ∈ dq, e.1 = start ∨ ∃ l, ChainTo pm start e.1 l ∧ l.Nodup ∧ l.length ≤ e.2
  pairw : List.Pairwise (fun (a b : α × Nat) => a.2 ≤ b.2) dq
  window : ∀ e ∈ dq, ∀ e2 ∈ dq, e.2 ≤ e2.2 + 1
  doneLe : ∀ e ∈ done, ∀ e2 ∈ dq, e.2 ≤ e2.2
  settled : ∀ e ∈ done, ∀ m ∈ g.moves e.1, ∃ d2,
    ((m, d2) ∈ done ∨ (m, d2) ∈ dq) ∧ d2 ≤ e.2 + 1
  cover : ∀ x, x = start ∨ x ∈ keysA pm → ∃ dx, (x, dx) ∈ done ∨ (x, dx) ∈ dq
  startZero : (start, 0) ∈ done ∨ (start, 0) ∈ dq
  doneNoGoal : ∀ e ∈ done, g.isDone e.1 = false

/-- The BFS greedy argument: at a pop of depth `dn`, every `k`-edge walk
from the start ends at a node already discovered at depth at most `k`, or
has `dn ≤ k`. -/
theorem bfs_greedy {g : SGraph α} {start : α} {pm : List (α × α)} {n : α} {dn : Nat}
    {rest done : List (α × Nat)} (hb : B5 g start pm ((n, dn) :: rest) done) :
    ∀ x k, ReachSteps g start x k →
      (∃ dx, ((x, dx) ∈ done ∨ (x, dx) ∈ (n, dn) :: rest) ∧ dx ≤ k) ∨ dn ≤ k := by
  intro x k h
  induction h with
  | refl => exact Or.inl ⟨0, hb.startZero, Nat.le_refl 0⟩
  | @step y m k2 hy hm ih =>
    rcases ih with ⟨dy, hmem, hdy⟩ | hdn
    · rcases hmem with hmem | hmem
      · rcases hb.settled (y, dy) hmem m hm with ⟨d2, hm2, hd2⟩
        exact Or.inl ⟨d2, hm2, by omega⟩
      · rcases List.mem_cons.mp hmem with he | he
        · have hde : dn = dy := congrArg Prod.snd he.symm
          right
          omega
        · have hdn2 : dn ≤ dy := (List.pairwise_cons.mp hb.pairw).1 (y, dy) he
          right
          omega
    · right
      omega

/-- The mid-expansion invariant inside one `bfs` pop of `(n, dn)`: the ghost
`done` list has not yet absorbed the popped pair, and all depth bounds are
phrased against `dn`. -/
structure B5Mid (g : SGraph α) (start n : α) (dn : Nat) (done : List (α × Nat))
    (pm : List (α × α)) (dq : List (α × Nat)) : Prop where
  edge : ∀ a b, lookupA pm a = some b → a ∈ g.moves b
  chainB : ∀ e ∈ dq, e.1 = start ∨ ∃ l, ChainTo pm start e.1 l ∧ l.Nodup ∧ l.length ≤ e.2
  nChain : n = start ∨ ∃ l, ChainTo pm start n l ∧ l.Nodup ∧ l.length ≤ dn
  pairw : List.Pairwise (fun (a b : α × Nat) => a.2 ≤ b.2) dq
  upper : ∀ e ∈ dq, e.2 ≤ dn + 1
  lower : ∀ e ∈ dq, dn ≤ e.2
  doneLe : ∀ e ∈ (n, dn) :: done, ∀ e2 ∈ dq, e.2 ≤ e2.2
  doneTop : ∀ e ∈ (n, dn) :: done, e.2 ≤ dn
  settledOld : ∀ e ∈ done, ∀ m ∈ g.moves e.1, ∃ d2,
    ((m, d2) ∈ (n, dn) :: done ∨ (m, d2) ∈ dq) ∧ d2 ≤ e.2 + 1
  cover : ∀ x, x = start ∨ x ∈ keysA pm → ∃ dx, (x, dx) ∈ (n, dn) :: done ∨ (x, dx) ∈ dq
  startZero : (start, 0) ∈ (n, dn) :: done ∨ (start, 0) ∈ dq

end BfsMinimal

section BfsFoldB5

variable {α : Type} [LinearOrder α]

/-- The instrumented `bfs` push loop preserves the mid-expansion invariant,
only appends to the queue, and leaves every traversed neighbor discovered at
depth at most `dn + 1`. -/
theorem bfs_fold_b5 {g : SGraph α} {start n : α} {dn : Nat} {done : List (α × Nat)} :
    ∀ (ms : List α) (dq0 : List (α × Nat)) (pm0 : List (α × α)),
      (∀ m ∈ ms, m ∈ g.moves n) →
      B5Mid g start n dn done pm0 dq0 →
      B5Mid g start n dn done
        (ms.foldl
          (fun (s : List (α × Nat) × List (α × α)) m =>
            if containsA s.2 m then s else (s.1 ++ [(m, dn + 1)], insertA s.2 m n))
          (dq0, pm0)).2
        (ms.foldl
          (fun (s : List (α × Nat) × List (α × α)) m =>
            if containsA s.2 m then s else (s.1 ++ [(m, dn + 1)], insertA s.2 m n))
          (dq0, pm0)).1 ∧
      (∀ e ∈ dq0, e ∈ (ms.foldl
          (fun (s : List (α × Nat) × List (α × α)) m =>
            if containsA s.2 m then s else (s.1 ++ [(m, dn + 1)], insertA s.2 m n))
          (dq0, pm0)).1) ∧
      (∀ m ∈ ms, ∃ d2,
        ((m, d2) ∈ (n, dn) :: done ∨ (m, d2) ∈ (ms.foldl
          (fun (s : List (α × Nat) × List (α × α)) m =>
            if containsA s.2 m then s else (s.1 ++ [(m, dn + 1)], insertA s.2 m n))
          (dq0, pm0)).1) ∧ d2 ≤ dn + 1) := by
  intro ms
  induction ms with
  | nil =>
    intro dq0 pm0 _ hmid
    exact ⟨hmid, fun e he => he, fun m hm => absurd hm (List.not_mem_nil m)⟩
  | cons m ms ih =>
    intro dq0 pm0 hmoves hmid
    rw [List.foldl_cons]
    by_cases hc : containsA pm0 m = true
    · rw [if_pos hc]
      rcases ih dq0 pm0 (fun x hx => hmoves x (List.mem_cons_of_mem m hx)) hmid with
        ⟨h1, h2, h3⟩
      refine ⟨h1, h2, ?_⟩
      intro m2 hm2
      rcases List.mem_cons.mp hm2 with hm2 | hm2
      · rcases hmid.cover m (Or.inr (containsA_mem_keys hc)) with ⟨dx, hm3⟩
        rw [hm2]
        rcases hm3 with hm3 | hm3
        · exact ⟨dx, Or.inl hm3, le_trans (hmid.doneTop (m, dx) hm3) (Nat.le_succ dn)⟩
        · exact ⟨dx, Or.inr (h2 (m, dx) hm3), hmid.upper (m, dx) hm3⟩
      · exact h3 m2 hm2
    · rw [if_neg hc]
      have hmk : m ∉ keysA pm0 := not_containsA_not_mem_keys hc
      have hmn : m ∈ g.moves n := hmoves m (List.mem_cons_self m ms)
      have hmid2 : B5Mid g start n dn done (insertA pm0 m n) (dq0 ++ [(m, dn + 1)]) := by
        refine ⟨?_, ?_, ?_, ?_, ?_, ?_, ?_, hmid.doneTop, ?_, ?_, ?_⟩
        · intro a b hab
          rw [lookupA_insertA] at hab
          by_cases hma : m = a
          · rw [if_pos hma] at hab
            have hbn : n = b := Option.some.inj hab
            rw [← hma, ← hbn]
            exact hmn
          · rw [if_neg hma] at hab
            exact hmid.edge a b hab
        · intro e he
          rcases List.mem_append.mp he with he | he
          · rcases hmid.chainB e he with h | ⟨l, hl, hnd, hlen⟩
            · exact Or.inl h
            · refine Or.inr ⟨l, chainTo_insert_fresh hl ?_, hnd, hlen⟩
              intro x hx hxm
              exact hmk (hxm ▸ hl.subset_keys x hx)
          · rw [List.mem_singleton.mp he]
            by_cases hns : n = start
            · refine Or.inr ⟨[m], ChainTo.single ?_, List.nodup_singleton m, ?_⟩
              · rw [lookupA_insertA, if_pos rfl, hns]
              · exact Nat.succ_le_succ (Nat.zero_le dn)
            · rcases hmid.nChain.resolve_left hns with ⟨l, hl, hnd, hlen⟩
              have hlm : ∀ x ∈ l, x ≠ m := fun x hx hxm =>
                hmk (hxm ▸ hl.subset_keys x hx)
              refine Or.inr ⟨m :: l, ChainTo.cons ?_ hns (chainTo_insert_fresh hl hlm),
                ?_, ?_⟩
              · rw [lookupA_insertA, if_pos rfl]
              · rw [List.nodup_cons]
                exact ⟨fun hml => (hlm m hml) rfl, hnd⟩
              · exact Nat.succ_le_succ hlen
        · rcases hmid.nChain with hns | ⟨l, hl, hnd, hlen⟩
          · exact Or.inl hns
          · refine Or.inr ⟨l, chainTo_insert_fresh hl ?_, hnd, hlen⟩
            intro x hx hxm
            exact hmk (hxm ▸ hl.subset_keys x hx)
        · refine List.pairwise_append.mpr ⟨hmid.pairw, pairwise_single _ _, ?_⟩
          intro a ha b hb
          rw [List.mem_singleton.mp hb]
          exact hmid.upper a ha
        · intro e he
          rcases List.mem_append.mp he with he | he
          · exact hmid.upper e he
          · rw [List.mem_singleton.mp he]
        · intro e he
          rcases List.mem_append.mp he with he | he
          · exact hmid.lower e he
          · rw [List.mem_singleton.mp he]
            exact Nat.le_succ dn
        · intro e he e2 he2
          rcases List.mem_append.mp he2 with he2 | he2
          · exact hmid.doneLe e he e2 he2
          · rw [List.mem_singleton.mp he2]
            exact le_trans (hmid.doneTop e he) (Nat.le_succ dn)
        · intro e he m2 hm2
          rcases hmid.settledOld e he m2 hm2 with ⟨d2, hm3, hd2⟩
          rcases hm3 with hm3 | hm3
          · exact ⟨d2, Or.inl hm3, hd2⟩
          · exact ⟨d2, Or.inr (List.mem_append_left _ hm3), hd2⟩
        · intro x hx
          rcases hx with hx | hx
          · rcases hmid.cover x (Or.inl hx) with ⟨dx, hm3⟩
            rcases hm3 with hm3 | hm3
            · exact ⟨dx, Or.inl hm3⟩
            · exact ⟨dx, Or.inr (List.mem_append_left _ hm3)⟩
          · rcases (mem_keysA_insertA _ _ _ _).mp hx with hx | hx
            · refine ⟨dn + 1, Or.inr ?_⟩
              rw [hx]
              exact List.mem_append_right _ (List.mem_cons_self _ _)
            · rcases hmid.cover x (Or.inr hx) with ⟨dx, hm3⟩
              rcases hm3 with hm3 | hm3
              · exact ⟨dx, Or.inl hm3⟩
              · exact ⟨dx, Or.inr (List.mem_append_left _ hm3)⟩
        · rcases hmid.startZero with h | h
          · exact Or.inl h
          · exact Or.inr (List.mem_append_left _ h)
      rcases ih (dq0 ++ [(m, dn + 1)]) (insertA pm0 m n)
        (fun x hx => hmoves x (List.mem_cons_of_mem m hx)) hmid2 with ⟨h1, h2, h3⟩
      refine ⟨h1, ?_, ?_⟩
      · intro e he
        exact h2 e (List.mem_append_left _ he)
      · intro m2 hm2
        rcases List.mem_cons.mp hm2 with hm2 | hm2
        · refine ⟨dn + 1, Or.inr ?_, Nat.le_refl _⟩
          rw [hm2]
          exact h2 (m, dn + 1) (List.mem_append_right _ (List.mem_cons_self _ _))
        · exact h3 m2 hm2

end BfsFoldB5

section BfsMinRun

variable {α : Type} [LinearOrder α]

/-- Any successful fueled run of the instrumented `bfs` loop from an
invariant state (with a non-goal start) returns a path realizing its own
edge count to a goal node, with no shorter walk to any goal node. -/
theorem bfsGoD_min {g : SGraph α} {start : α} (hsg : g.isDone start = false) :
    ∀ (fuel : Nat) (pm : List (α × α)) (dq done : List (α × Nat)) (p : List α),
      B5 g start pm dq done →
      bfsGoD g start fuel pm dq = some (some p) →
      ∃ gl, p.getLast? = some gl ∧ g.isDone gl = true ∧
        ReachSteps g start gl (p.length - 1) ∧
        ∀ x k, ReachSteps g start x k → g.isDone x = true → p.length - 1 ≤ k := by
  intro fuel
  induction fuel with
  | zero =>
    intro pm dq done p _ hrun
    exact absurd hrun (by rw [bfsGoD]; exact fun h => Option.noConfusion h)
  | succ f ih =>
    intro pm dq done p hb hrun
    cases dq with
    | nil =>
      rw [bfsGoD_succ_nil] at hrun
      exact absurd (Option.some.inj hrun) (fun h => Option.noConfusion h)
    | cons e rest =>
      obtain ⟨n, dn⟩ := e
      rw [bfsGoD_succ_cons] at hrun
      by_cases hd : g.isDone n
      · rw [if_pos hd] at hrun
        have hp : p = get_path pm n start := (Option.some.inj (Option.some.inj hrun)).symm
        have hns : n ≠ start := by
          intro he
          rw [he, hsg] at hd
          exact Bool.noConfusion hd
        have hcb : n = start ∨ ∃ l, ChainTo pm start n l ∧ l.Nodup ∧ l.length ≤ dn :=
          hb.chainB (n, dn) (List.mem_cons_self _ _)
        rcases hcb.resolve_left hns with ⟨l, hl, hnd, hlen⟩
        have hplen : p = start :: l.reverse := by
          rw [hp, get_path, getPathGo_chain hl (pm.length + 1) []
            ((chain_length_le_pm hl hnd).trans (Nat.le_succ _))]
          simp
        have hlk : p.length - 1 = l.length := by
          rw [hplen]
          simp
        refine ⟨n, ?_, hd, ?_, ?_⟩
        · rw [hp, get_path_getLast]
        · rw [hlk]
          exact chainTo_reachSteps hb.edge hl
        · intro x k hreach hgoal
          rw [hlk]
          rcases bfs_greedy hb x k hreach with ⟨dx, hmem, hdx⟩ | hnk
          · rcases hmem with hmem | hmem
            · rw [hb.doneNoGoal (x, dx) hmem] at hgoal
              exact absurd hgoal (fun h => Bool.noConfusion h)
            · have hdn : dn ≤ dx := by
                rcases List.mem_cons.mp hmem with he | he
                · exact le_of_eq (congrArg Prod.snd he.symm)
                · exact (List.pairwise_cons.mp hb.pairw).1 (x, dx) he
              omega
          · omega
      · rw [if_neg hd] at hrun
        have hdf : g.isDone n = false := by
          cases hx : g.isDone n with
          | false => rfl
          | true => exact absurd hx hd
        have hmid : B5Mid g start n dn done pm rest := by
          refine ⟨hb.edge, ?_, ?_, (List.pairwise_cons.mp hb.pairw).2, ?_, ?_, ?_, ?_,
            ?_, ?_, ?_⟩
          · exact fun e he => hb.chainB e (List.mem_cons_of_mem _ he)
          · exact hb.chainB (n, dn) (List.mem_cons_self _ _)
          · exact fun e he =>
              hb.window e (List.mem_cons_of_mem _ he) (n, dn) (List.mem_cons_self _ _)
          · exact (List.pairwise_cons.mp hb.pairw).1
          · intro e he e2 he2
            rcases List.mem_cons.mp he with he | he
            · rw [he]
              exact (List.pairwise_cons.mp hb.pairw).1 e2 he2
            · exact hb.doneLe e he e2 (List.mem_cons_of_mem _ he2)
          · intro e he
            rcases List.mem_cons.mp he with he | he
            · exact le_of_eq (congrArg Prod.snd he)
            · exact hb.doneLe e he (n, dn) (List.mem_cons_self _ _)
          · intro e he m hm
            rcases hb.settled e he m hm with ⟨d2, hm2, hd2⟩
            rcases hm2 with hm2 | hm2
            · exact ⟨d2, Or.inl (List.mem_cons_of_mem _ hm2), hd2⟩
            · rcases List.mem_cons.mp hm2 with hm2 | hm2
              · refine ⟨d2, Or.inl ?_, hd2⟩
                rw [hm2]
                exact List.mem_cons_self _ _
              · exact ⟨d2, Or.inr hm2, hd2⟩
          · intro x hx
            rcases hb.cover x hx with ⟨dx, hm2⟩
            rcases hm2 with hm2 | hm2
            · exact ⟨dx, Or.inl (List.mem_cons_of_mem _ hm2)⟩
            · rcases List.mem_cons.mp hm2 with hm2 | hm2
              · refine ⟨dx, Or.inl ?_⟩
                rw [hm2]
                exact List.mem_cons_self _ _
              · exact ⟨dx, Or.inr hm2⟩
          · rcases hb.startZero with h | h
            · exact Or.inl (List.mem_cons_of_mem _ h)
            · rcases List.mem_cons.mp h with h | h
              · refine Or.inl ?_
                rw [h]
                exact List.mem_cons_self _ _
              · exact Or.inr h
        rcases bfs_fold_b5 (g.moves n) rest pm (fun x hx => hx) hmid with ⟨hm2, -, hcov⟩
        refine ih _ _ ((n, dn) :: done) p ?_ hrun
        refine ⟨hm2.edge, hm2.chainB, hm2.pairw, ?_, hm2.doneLe, ?_, hm2.cover,
          hm2.startZero, ?_⟩
        · intro e he e2 he2
          exact le_trans (hm2.upper e he) (Nat.succ_le_succ (hm2.lower e2 he2))
        · intro e he m hm
          rcases List.mem_cons.mp he with he | he
          · have hmn : m ∈ g.moves n := by
              rw [he] at hm
              exact hm
            rcases hcov m hmn with ⟨d2, hm3, hd2⟩
            refine ⟨d2, hm3, ?_⟩
            rw [he]
            exact hd2
          · rcases hm2.settledOld e he m hm with ⟨d2, hm3, hd2⟩
            exact ⟨d2, hm3, hd2⟩
        · intro e he
          rcases List.mem_cons.mp he with he | he
          · rw [he]
            exact hdf
          · exact hb.doneNoGoal e he

end BfsMinRun

/-- **C5** (confirmed).  When `bfs` returns a path, the path ends at a node
satisfying the goal predicate, its edge count is realized by an actual walk
from the start to that node, and no walk from the start to any goal node
uses fewer edges. -/
theorem c5_bfs_min_edge_path {α : Type} [LinearOrder α] (g : SGraph α) (start : α)
    (fuel : Nat) (p : List α) (hrun : bfs g start fuel = some (some p)) :
    ∃ gl, p.getLast? = some gl ∧ g.isDone gl = true ∧
      ReachSteps g start gl (p.length - 1) ∧
      ∀ x k, ReachSteps g start x k → g.isDone x = true → p.length - 1 ≤ k := by
  by_cases hsg : g.isDone start
  · cases fuel with
    | zero =>
      rw [bfs] at hrun
      exact absurd hrun (by rw [bfsGo]; exact fun h => Option.noConfusion h)
    | succ f =>
      rw [bfs, bfsGo_succ_cons, if_pos hsg] at hrun
      have hp : p = get_path [] start start := (Option.some.inj (Option.some.inj hrun)).symm
      rw [get_path,
        getPathGo_succ_none (lookupA_eq_none_of_not_mem_keys (List.not_mem_nil start))]
        at hp
      refine ⟨start, ?_, hsg, ?_, ?_⟩
      · rw [hp]
        rfl
      · rw [hp]
        exact ReachSteps.refl
      · intro x k _ _
        rw [hp]
        exact Nat.zero_le k
  · have hsgf : g.isDone start = false := by
      cases hx : g.isDone start with
      | false => rfl
      | true => exact absurd hx hsg
    have hrun2 : bfsGoD g start fuel [] [(start, 0)] = some (some p) := by
      rw [bfsGoD_fst]
      exact hrun
    refine bfsGoD_min hsgf fuel [] [(start, 0)] [] p ?_ hrun2
    refine ⟨?_, ?_, pairwise_single _ _, ?_, ?_, ?_, ?_, ?_, ?_⟩
    · exact fun a b hab => Option.noConfusion hab
    · intro e he
      rw [List.mem_singleton.mp he]
      exact Or.inl rfl
    · intro e he e2 he2
      rw [List.mem_singleton.mp he, List.mem_singleton.mp he2]
      exact Nat.le_succ 0
    · exact fun e he => absurd he (List.not_mem_nil e)
    · exact fun e he => absurd he (List.not_mem_nil e)
    · intro x hx
      rcases hx with hx | hx
      · refine ⟨0, Or.inr ?_⟩
        rw [hx]
        exact List.mem_cons_self _ _
      · exact absurd hx (List.not_mem_nil x)
    · exact Or.inr (List.mem_cons_self _ _)
    · exact fun e he => absurd he (List.not_mem_nil e)

/-- A three-node graph with a one-edge shortcut to the goal beside a
two-edge detour: `0 → [1, 2]`, `1 → [2]`, goal `2`. -/
def exG5 : SGraph Nat :=
  { height := 1
    width := 3
    moves := fun n => if n = 0 then [1, 2] else if n = 1 then [2] else []
    isDone := fun n => n == 2
    weight := fun _ _ => 1 }

/-- Witness for `c5_bfs_min_edge_path`: on `exG5` from `0`, `bfs` returns the
one-edge path `[0, 2]`, not the two-edge detour through `1`; its edge count
`1` is realized and minimal over all walks to a goal. -/
theorem c5_bfs_min_edge_path_witness :
    bfs exG5 0 4 = some (some [0, 2]) ∧
    ∃ gl, ([0, 2] : List Nat).getLast? = some gl ∧ exG5.isDone gl = true ∧
      ReachSteps exG5 0 gl (([0, 2] : List Nat).length - 1) ∧
      ∀ x k, ReachSteps exG5 0 x k → exG5.isDone x = true →
        ([0, 2] : List Nat).length - 1 ≤ k :=
  ⟨by decide, c5_bfs_min_edge_path exG5 0 4 [0, 2] (by decide)⟩
